import Mathlib

/-!
# tree-framework: routing trie and dispatcher

A shallow embedding of the router of `catalinfl/tree-framework`
(`tree.go`, `mux.go`, `methods.go`, `context.go`) and theorems about it.

Conventions of the embedding

* A Go `string` is the list of its characters (`GoString`); `"/"` is the
  only separator the router ever splits on.
* Handlers are opaque Go functions; they are represented by an identity
  (`Nat`), and calling one is recorded as an event of a trace.
* Go mutates the trie in place through `*Node` pointers.  The embedding is
  functional: an operation returns the new value of the node it was called
  on; a pointer to the first child with a given path becomes "replace the
  first child with that path".
-/

namespace TreeFramework

/-- A Go string, as the list of its characters. -/
abbrev GoString := List Char

/-! ## The parts of Go's `strings` package the router uses -/

namespace strings

/-- Go `strings.Split(s, "/")`: the pieces of `s` between slashes; never empty
(`Split("", "/")` is `[""]`). -/
def Split : GoString → List GoString
  | [] => [[]]
  | c :: cs =>
    if c = '/' then [] :: Split cs
    else
      match Split cs with
      | [] => [[c]]
      | x :: xs => (c :: x) :: xs

/-- Go `unicode.IsSpace`. -/
def isSpace (c : Char) : Bool :=
  let n := c.toNat
  (9 ≤ n && n ≤ 13) || n == 32 || n == 0x85 || n == 0xA0 || n == 0x1680
    || (0x2000 ≤ n && n ≤ 0x200A) || n == 0x2028 || n == 0x2029 || n == 0x202F
    || n == 0x205F || n == 0x3000

/-- Go `strings.TrimSpace`: drop leading and trailing white space. -/
def TrimSpace (s : GoString) : GoString :=
  (s.dropWhile isSpace).rdropWhile isSpace

/-- Go `strings.HasPrefix(s, p)`. -/
def HasPrefix : GoString → GoString → Bool
  | _, [] => true
  | [], _ :: _ => false
  | c :: s, d :: p => c == d && HasPrefix s p

/-- Go `strings.TrimPrefix(s, p)`: `s` without the leading `p`, or `s` itself. -/
def TrimPrefix (s p : GoString) : GoString :=
  if HasPrefix s p then s.drop p.length else s

end strings

open strings

/-! ## Data model (`tree.go`, `mux.go`) -/

/-- The type `Method int` of `mux.go`. -/
abbrev Method := Nat

def GET : Method := 0
def POST : Method := 1
def PUT : Method := 2
def DELETE : Method := 3
def PATCH : Method := 4
def HEAD : Method := 5
def OPTIONS : Method := 6
def GROUP : Method := 7
def USE : Method := 8

/-- The map `methodToString` of `mux.go`; a key that is absent reads as `""`. -/
def methodToString (m : Method) : GoString :=
  if m = GET then "GET".toList
  else if m = POST then "POST".toList
  else if m = PUT then "PUT".toList
  else if m = DELETE then "DELETE".toList
  else if m = PATCH then "PATCH".toList
  else if m = HEAD then "HEAD".toList
  else if m = OPTIONS then "OPTIONS".toList
  else if m = GROUP then "GROUP".toList
  else if m = USE then "USE".toList
  else []

/-- Identity of an `http.HandlerFunc` (the wrapper `addMutationRoute` builds). -/
abbrev HandlerFunc := Nat

/-- Identity of a user handler `CtxFunc`. -/
abbrev CtxFunc := Nat

/-- The struct `Route` of `mux.go`; `h` is never nil for a registered route. -/
structure Route where
  h : HandlerFunc
  CtxHandler : CtxFunc
  path : GoString

/-- The struct `Node` of `tree.go`; `none` is Go's nil handler. -/
structure Node where
  path : GoString
  children : List Node
  Handler : Option HandlerFunc
  CtxHandler : Option CtxFunc

/-- The struct `Tree` of `tree.go`.  `startNode` is kept total: a nil root is
replaced by the fresh root `/` before anything reads it (`createTreeIdea`,
step 2), and `buildTrees` never stores a tree without root. -/
structure Tree where
  method : Method
  startNode : Node

/-- The root `createTreeIdea` allocates: path `/`, no children, no handler. -/
def freshRoot : Node := ⟨['/'], [], none, none⟩

/-! ## Insertion (`tree.go`) -/

/-- `Node.FindNodePath`: the first child whose path is `path`. -/
def FindNodePath (n : Node) (path : GoString) : Option Node :=
  n.children.find? (fun node => node.path == path)

/-- `Node.FindNodePathBool`. -/
def FindNodePathBool (n : Node) (path : GoString) : Bool :=
  n.children.any (fun node => node.path == path)

/-- `Node.ChangeNodeState`: sets `Handler` (and only `Handler`) on a final route. -/
def ChangeNodeState (n : Node) (handler : Route) (isFinalRoute : Bool) : Node :=
  if isFinalRoute then { n with Handler := some handler.h } else n

/-- The child `Node.AddNode` allocates for `segment`. -/
def newChild (handler : Route) (isFinalRoute : Bool) (segment : GoString) : Node :=
  if isFinalRoute then ⟨segment, [], some handler.h, some handler.CtxHandler⟩
  else ⟨segment, [], none, none⟩

/-- `Node.AddNode`, as the new value of `n`: for the segments `""` and `"/"`
nothing is added (Go returns `n` itself), otherwise the new child is appended
(Go returns the child, which is then the last child of `n`). -/
def AddNode (n : Node) (handler : Route) (isFinalRoute : Bool) (segment : GoString) : Node :=
  if segment = [] ∨ segment = ['/'] then n
  else { n with children := n.children ++ [newChild handler isFinalRoute segment] }

/-- Write `new` over the first child whose path is `path`: what a mutation
through the pointer returned by `FindNodePath` does to the parent. -/
def replaceChild (path : GoString) (new : Node) : List Node → List Node
  | [] => []
  | c :: cs => if c.path = path then new :: cs else c :: replaceChild path new cs

/-- The loop `for i, path := range paths` of `createTreeIdea` (step 4), run
with the cursor `node`.  Returns the new value of `node` and the error, if
any.  `rest = []` is the test `i == len(paths)-1`. -/
def insertPaths (handler : Route) : List GoString → Node → Node × Option GoString
  | [], node => (node, none)
  | path :: rest, node =>
    match FindNodePath node path with
    | some foundNode =>
      if rest = [] then
        if foundNode.Handler.isSome then (node, some handler.path)
        else
          ({ node with children :=
              replaceChild path (ChangeNodeState foundNode handler true) node.children }, none)
      else
        let r := insertPaths handler rest foundNode
        ({ node with children := replaceChild path r.1 node.children }, r.2)
    | none =>
      if rest = [] then (AddNode node handler true path, none)
      else if path = [] ∨ path = ['/'] then
        -- AddNode returned the cursor itself: the walk goes on from the same node
        insertPaths handler rest node
      else
        let r := insertPaths handler rest (newChild handler false path)
        ({ node with children := node.children ++ [r.1] }, r.2)

/-- `Mux.createTreeIdea`.  The first component is the tree object after the
call (the one `t` points to, or the one allocated when `t` is nil); the second
is the error.  Go returns a nil pointer together with the error; the object
`t` points to stays where it is. -/
def createTreeIdea (handler : Route) (t : Option Tree) (m : Method) : Tree × Option GoString :=
  let t : Tree := match t with
    | none => ⟨m, freshRoot⟩
    | some t => t
  if handler.path = [] ∨ handler.path = ['/'] then
    if t.startNode.Handler.isSome then (t, some handler.path) else (t, none)
  else if 2 ≤ (Split handler.path).length then
    let paths := (Split (TrimSpace handler.path)).map TrimSpace
    let r := insertPaths handler paths t.startNode
    ({ t with startNode := r.1 }, r.2)
  else
    match FindNodePath t.startNode handler.path with
    | some foundNode =>
      if foundNode.Handler.isSome then (t, some handler.path)
      else
        let children :=
          replaceChild handler.path (ChangeNodeState foundNode handler true) t.startNode.children
        ({ t with startNode := { t.startNode with children := children } }, none)
    | none => ({ t with startNode := AddNode t.startNode handler true handler.path }, none)

/-- The inner loop of `Mux.buildTrees` for one method: `t` is `trees[method]`.
On an error the route is skipped (`continue`) and `trees[method]` is not
assigned; the object it points to, if any, is in the state the call left. -/
def buildRoutes (m : Method) : List Route → Option Tree → Option Tree
  | [], t => t
  | handler :: rest, t =>
    let r := createTreeIdea handler t m
    match r.2 with
    | some _ => buildRoutes m rest (t.map (fun _ => r.1))
    | none => buildRoutes m rest (some r.1)

/-! ## Traversal (`tree.go`) -/

/-- A Go `map[string]string`, as an association list with unique keys. -/
abbrev Params := List (GoString × GoString)

/-- The assignment `params[k] = v`. -/
def Params.set : Params → GoString → GoString → Params
  | [], k, v => [(k, v)]
  | (k', v') :: rest, k, v =>
    if k' = k then (k, v) :: rest else (k', v') :: Params.set rest k v

/-- The read `params[k]` with its presence flag. -/
def Params.get? : Params → GoString → Option GoString
  | [], _ => none
  | (k', v') :: rest, k => if k' = k then some v' else Params.get? rest k

/-- The inner loop of `InDepthSearch` over `currentNode.children`: the first
child whose path is the segment, or that starts with `:` (the segment is then
stored under the name after the colon). -/
def searchChildren (segment : GoString) : List Node → Params → Option (Node × Params)
  | [], _ => none
  | child :: rest, params =>
    if child.path = segment then some (child, params)
    else if HasPrefix child.path [':'] then
      some (child, params.set (TrimPrefix child.path [':']) segment)
    else searchChildren segment rest params

/-- The outer loop of `InDepthSearch` over the request segments. -/
def searchSegments :
    List GoString → Node → Params → Option HandlerFunc × Option CtxFunc × Option Params
  | [], currentNode, params => (currentNode.Handler, currentNode.CtxHandler, some params)
  | segment :: rest, currentNode, params =>
    if segment = [] then searchSegments rest currentNode params
    else
      match searchChildren segment currentNode.children params with
      | some (child, params') => searchSegments rest child params'
      | none => (none, none, none)

/-- `Node.InDepthSearch`: handler, user handler and parameter map; three nils
when some segment matches no child. -/
def InDepthSearch (n : Node) (path : GoString) :
    Option HandlerFunc × Option CtxFunc × Option Params :=
  searchSegments (Split (TrimPrefix path ['/'])) n []

/-! ## Registry and middleware (`mux.go`, `methods.go`, `context.go`) -/

/-- How the body of a middleware ends. -/
inductive Ret where
  /-- The body ends in `return nil`. -/
  | ok
  /-- The body returns an error of its own. -/
  | fail
  /-- The body ends in `return c.Next()`. -/
  | next
  deriving DecidableEq

/-- A `MiddlewareFunc`, seen from the dispatcher: an identity, how many times
the body calls `c.Next()` dropping the result, and how it returns.  A nil
function is not a middleware; `USE` is given a function. -/
structure MiddlewareFunc where
  id : Nat
  nexts : Nat
  ret : Ret

/-- The struct `Middleware` of `mux.go`. -/
structure Middleware where
  Path : GoString
  Handler : MiddlewareFunc

/-- The struct `Mux` of `mux.go`.  `handlerMap` is written by
`addMutationRoute` and never read by the router; it is left out. -/
structure Mux where
  handlers : Method → Option (List Route)
  middlewares : List Middleware
  automatic : Bool
  trees : Option (Method → Option Tree)

/-- The request, as far as the router reads it: `req.Method`, `req.URL.Path`. -/
structure Request where
  Method : GoString
  Path : GoString

/-- What `ServeHTTP` and the functions it runs do, in order. -/
inductive Event where
  /-- The body of the middleware with this identity starts to run. -/
  | middleware (id : Nat)
  /-- The call `handler(w, req)` of the matched node's handler. -/
  | handler (h : HandlerFunc)
  /-- The call `http.NotFound(w, req)`. -/
  | notFound
  /-- The call `http.Error(w, err.Error(), code)`. -/
  | error (code : Nat)
  deriving DecidableEq

/-- A Go `map[string]any`, as an association list with unique keys; a value
is known by its identity. -/
abbrev Keys := List (GoString × Nat)

/-- The assignment `keys[k] = v`. -/
def Keys.set : Keys → GoString → Nat → Keys
  | [], k, v => [(k, v)]
  | (k', v') :: rest, k, v =>
    if k' = k then (k, v) :: rest else (k', v') :: Keys.set rest k v

/-- The read `keys[k]` with its presence flag. -/
def Keys.get? : Keys → GoString → Option Nat
  | [], _ => none
  | (k', v') :: rest, k => if k' = k then some v' else Keys.get? rest k

/-- The fields of `Ctx` the dispatcher, `Next` and the key accessors use;
`keys` is `none` for the nil map. -/
structure Ctx where
  params : Option Params
  routerPath : GoString
  middlewareIndex : Int
  middlewares : List Middleware
  handler : Option CtxFunc
  automatic : Bool
  keys : Option Keys

/-- The state a request runs in: its context and what happened so far. -/
structure Run where
  c : Ctx
  trace : List Event

/-- `pathMatch` of `mux.go`.  `requestPath[len(middlewarePath)]` is read only
after `HasPrefix` succeeded, where the byte at that index is the first
character after the prefix. -/
def pathMatch (middlewarePath requestPath : GoString) : Bool :=
  if middlewarePath = [] then true
  else if requestPath = middlewarePath then true
  else if HasPrefix requestPath middlewarePath
      && decide (requestPath.length > middlewarePath.length)
      && requestPath.get? middlewarePath.length == some '/' then true
  else false

/-- `findMatchingMiddleware` of `mux.go`. -/
def findMatchingMiddleware (middlewares : List Middleware) (path : GoString) : List Middleware :=
  middlewares.filter (fun middleware => pathMatch middleware.Path path)

/-- `Mux.USE` of `methods.go`: an empty prefix is stored as `/`. -/
def Mux.USE (r : Mux) (url : GoString) (t : MiddlewareFunc) : Mux :=
  let url := if url = [] then ['/'] else url
  { r with middlewares := r.middlewares ++ [⟨url, t⟩] }

/-- `Mux.addMutationRoute` of `mux.go`: append the route to `handlers[method]`.
`h` is the identity of the wrapper built around `t`. -/
def Mux.addMutationRoute (r : Mux) (url : GoString) (method : Method) (h : HandlerFunc)
    (t : CtxFunc) : Mux :=
  { r with handlers := fun m =>
      if m = method then some ((r.handlers method).getD [] ++ [⟨h, t, url⟩]) else r.handlers m }

/-- `InitMux` of `mux.go`. -/
def InitMux : Mux := ⟨fun _ => none, [], false, none⟩

/-- `Mux.buildTrees` of `mux.go`: the map from method to tree.  Only the
methods `GET .. OPTIONS` are visited, each from an empty entry. -/
def buildTrees (r : Mux) : Method → Option Tree := fun method =>
  if method ≤ OPTIONS then
    match r.handlers method with
    | some handlers => buildRoutes method handlers none
    | none => none
  else none

/-- The calls `c.Next()` a middleware body makes while it runs, results
dropped.  `next` is `Ctx.Next`; `none` means the recursion budget ran out. -/
def runNexts (next : Run → Option (Run × Bool)) : Nat → Run → Option Run
  | 0, s => some s
  | k + 1, s =>
    match next s with
    | none => none
    | some (s', _) => runNexts next k s'

/-- The call `middleware.Handler(c)`: the state after it and whether it
returned a non-nil error. -/
def callMiddleware (next : Run → Option (Run × Bool)) (f : MiddlewareFunc) (s : Run) :
    Option (Run × Bool) :=
  match runNexts next f.nexts { s with trace := s.trace ++ [Event.middleware f.id] } with
  | none => none
  | some s' =>
    match f.ret with
    | Ret.ok => some (s', false)
    | Ret.fail => some (s', true)
    | Ret.next => next s'

/-- `Ctx.Next` of `context.go`: advance the cursor and run the middleware it
points to, if any.  The error of the middleware is wrapped, so it stays
non-nil.  The first argument bounds the depth of nested calls; every nested
call runs at a larger cursor, so `len(c.middlewares) + 1` is never used up. -/
def Next : Nat → Run → Option (Run × Bool)
  | 0, _ => none
  | fuel + 1, s =>
    let c : Ctx := { s.c with middlewareIndex := s.c.middlewareIndex + 1 }
    let s : Run := { s with c := c }
    if c.middlewareIndex < c.middlewares.length then
      match c.middlewares.get? c.middlewareIndex.toNat with
      | some middleware => callMiddleware (Next fuel) middleware.Handler s
      | none => some (s, false)
    else some (s, false)

/-- The loop over `middlewares` in the automatic branch of `ServeHTTP`: stops
at the first middleware that returns an error. -/
def autoLoop (fuel : Nat) (path : GoString) : List Middleware → Run → Option (Run × Bool)
  | [], s => some (s, false)
  | middleware :: rest, s =>
    if pathMatch middleware.Path path then
      match callMiddleware (Next fuel) middleware.Handler s with
      | none => none
      | some (s', true) => some (s', true)
      | some (s', false) => autoLoop fuel path rest s'
    else autoLoop fuel path rest s

/-- The context `ServeHTTP` builds for a matched request: the parameters of
the traversal, the cursor at `-1`, the matching middleware, no handler yet, an
empty key map. -/
def requestCtx (r : Mux) (req : Request) (params : Option Params) : Ctx :=
  ⟨params, req.Path, -1, findMatchingMiddleware r.middlewares req.Path, none, r.automatic,
    some []⟩

/-- The bound handed to `Next` for a request: one more than the number of
matching middleware. -/
def requestFuel (r : Mux) (req : Request) : Nat :=
  (findMatchingMiddleware r.middlewares req.Path).length + 1

/-- The body of `ServeHTTP` once a handler was found: build the context, run
the middleware of the mode, then call `handler(w, req)`. -/
def dispatch (r : Mux) (req : Request) (handler : HandlerFunc) (ctxHandler : Option CtxFunc)
    (params : Option Params) : Option (List Event) :=
  let middlewares := findMatchingMiddleware r.middlewares req.Path
  let ctx := requestCtx r req params
  if r.automatic then
    match autoLoop (requestFuel r req) req.Path middlewares ⟨ctx, []⟩ with
    | none => none
    | some (s, true) => some (s.trace ++ [Event.error 500])
    | some (s, false) => some (s.trace ++ [Event.handler handler])
  else
    let c : Ctx :=
      { ctx with middlewares := middlewares, middlewareIndex := -1, handler := ctxHandler,
                 automatic := r.automatic }
    match Next (requestFuel r req) ⟨c, []⟩ with
    | none => none
    | some (s, _) => some (s.trace ++ [Event.handler handler])

/-- The loop `for method := GET; method <= OPTIONS; method++` of `ServeHTTP`,
over the methods still to visit; falls through to `http.NotFound`. -/
def serveMethods (r : Mux) (trees : Method → Option Tree) (req : Request) :
    List Method → Option (List Event)
  | [] => some [Event.notFound]
  | method :: rest =>
    match trees method with
    | some treeMethod =>
      if methodToString method = req.Method then
        match InDepthSearch treeMethod.startNode req.Path with
        | (some handler, ctxHandler, params) => dispatch r req handler ctxHandler params
        | (none, _, _) => serveMethods r trees req rest
      else serveMethods r trees req rest
    | none => serveMethods r trees req rest

/-- The trees a request is served from: `r.trees`, built first if still nil. -/
def Mux.builtTrees (r : Mux) : Method → Option Tree :=
  match r.trees with
  | none => buildTrees r
  | some trees => trees

/-- `Mux.ServeHTTP` of `mux.go`: the trace of the request; `none` only if the
recursion budget of `Next` ran out.  The trees are built on the first request. -/
def ServeHTTP (r : Mux) (req : Request) : Option (List Event) :=
  serveMethods r r.builtTrees req [GET, POST, PUT, DELETE, PATCH, HEAD, OPTIONS]

/-- The code the dispatcher itself passes to the response, if it does: 404 in
`http.NotFound`, the code of `http.Error`.  This reads the calls of the
dispatcher only; the status the response ends with, which a body that ran may
have written first, is `responseStatus` below. -/
def dispatcherStatus : List Event → Option Nat
  | [] => none
  | Event.notFound :: _ => some 404
  | Event.error code :: _ => some code
  | _ :: rest => dispatcherStatus rest

/-! ## Notions used to state the theorems -/

/-- The path `/s1/s2/.../sk` with the given segments. -/
def joinPath : List GoString → GoString
  | [] => []
  | s :: rest => '/' :: (s ++ joinPath rest)

/-- The segment list `createTreeIdea` walks for a path that is not the root
path: the trimmed pieces of the trimmed path when it holds a slash, the path
itself otherwise. -/
def routePaths (p : GoString) : List GoString :=
  if 2 ≤ (Split p).length then (Split (TrimSpace p)).map TrimSpace else [p]

/-- The node the insertion walk of `createTreeIdea` ends on: follow
`FindNodePath`, staying in place at a segment `""` or `"/"` that is no child. -/
def walk : List GoString → Node → Option Node
  | [], node => some node
  | path :: rest, node =>
    match FindNodePath node path with
    | some foundNode => walk rest foundNode
    | none => if path = [] ∨ path = ['/'] then walk rest node else none

/-- The last segment of a route path is a real one: not `""`, not `"/"`. -/
def EndsInSegment (p : GoString) : Prop :=
  ∃ q, (routePaths p).getLast? = some q ∧ q ≠ [] ∧ q ≠ ['/']

/-- The subtree a single route leaves below a fresh node with path `p`:
one child per remaining segment, the handler on the last. -/
def chainNode (handler : Route) : GoString → List GoString → Node
  | p, [] => ⟨p, [], some handler.h, some handler.CtxHandler⟩
  | p, s :: rest => ⟨p, [chainNode handler s rest], none, none⟩

/-- The parameter map a pattern and a request of the same length describe:
each segment `:name` of the pattern binds `name` to the request segment. -/
def captures : List GoString → List GoString → Params
  | s :: segs, r :: reqs =>
    if HasPrefix s [':'] then (TrimPrefix s [':'], r) :: captures segs reqs
    else captures segs reqs
  | _, _ => []

/-- The names of the parameter segments of a pattern, in order. -/
def paramNames (segs : List GoString) : List GoString :=
  (segs.filter (fun s => HasPrefix s [':'])).map (fun s => TrimPrefix s [':'])

/-- A piece of a path between two slashes that `createTreeIdea` stores as it
is written: not empty, free of `/`, no white space at either end. -/
def IsSegment (s : GoString) : Prop := s ≠ [] ∧ '/' ∉ s ∧ TrimSpace s = s

/-- Every handler an insertion walk finds in `c` it finds in `c'` too. -/
def KeepsWalks (c c' : Node) : Prop :=
  ∀ ps n x, walk ps c = some n → n.Handler = some x →
    ∃ n', walk ps c' = some n' ∧ n'.Handler = some x

/-- Every lookup that finds a handler in `c` has the same result in `c'`. -/
def KeepsLookups (c c' : Node) : Prop :=
  ∀ segs params g, (searchSegments segs c params).1 = some g →
    searchSegments segs c' params = searchSegments segs c params

/-- The tree `createTreeIdea` works on: the one given, or a fresh one for the
method when `t` is nil (step 1). -/
def orFresh (t : Option Tree) (m : Method) : Tree :=
  match t with
  | none => ⟨m, freshRoot⟩
  | some t => t

/-- The assignments `params[k] = v` for the pairs of a list, in order. -/
def Params.setAll (params : Params) (kvs : Params) : Params :=
  kvs.foldl (fun m kv => m.set kv.1 kv.2) params

/-- A request segment fits a pattern segment: it is a non-empty piece without
slash, equal to the pattern segment when that is static, different from it
when that is a parameter (a request segment spelled like the parameter itself
is matched as a literal and binds nothing). -/
def Fits (s r : GoString) : Prop :=
  r ≠ [] ∧ '/' ∉ r ∧ if HasPrefix s [':'] then r ≠ s else r = s

/-- `Mux.GET` of `methods.go`; `h` is the identity of the wrapper. -/
def Mux.GET (r : Mux) (url : GoString) (h : HandlerFunc) (t : CtxFunc) : Mux :=
  r.addMutationRoute url TreeFramework.GET h t

/-- `Mux.POST` of `methods.go`. -/
def Mux.POST (r : Mux) (url : GoString) (h : HandlerFunc) (t : CtxFunc) : Mux :=
  r.addMutationRoute url TreeFramework.POST h t

/-- `Mux.setMiddlewareAutomatically` of `mux.go`. -/
def Mux.setMiddlewareAutomatically (r : Mux) (automatic : Bool) : Mux :=
  { r with automatic := automatic }

/-- The events of a trace all are runs of middleware bodies. -/
def OnlyMiddleware (tr : List Event) : Prop :=
  ∀ e ∈ tr, ∃ id, e = Event.middleware id

/-- The context still holds the middleware list `mws` and its cursor is at
`i0` or further. -/
def CursorFrom (mws : List Middleware) (i0 : Int) (s : Run) : Prop :=
  s.c.middlewares = mws ∧ i0 ≤ s.c.middlewareIndex

/-- The middleware calls `c.Next()` exactly once and returns no error of its
own: one call with the result dropped and `return nil`, or `return c.Next()`. -/
def CallsNextOnce (f : MiddlewareFunc) : Prop :=
  (f.nexts = 1 ∧ f.ret = Ret.ok) ∨ (f.nexts = 0 ∧ f.ret = Ret.next)

/-- `Mux.StartExecuting` of `engine.go`, up to `http.ListenAndServe`: set the
dispatch mode and build the trees. -/
def Mux.StartExecuting (r : Mux) (AutomaticMiddleware : Bool) : Mux :=
  let r := r.setMiddlewareAutomatically AutomaticMiddleware
  { r with trees := some (buildTrees r) }

/-! ## The context of the route handler (`context.go`, `mux.go`) -/

/-- How a call of the embedding ends. -/
inductive Result (α : Type) where
  /-- The call returns. -/
  | ok (a : α)
  /-- A run-time panic: an index out of range. -/
  | panic
  /-- The bound of a loop of the embedding ran out. -/
  | fuel
  deriving DecidableEq

/-- Go `strings.Contains(s, substr)`. -/
def strings.Contains : GoString → GoString → Bool
  | [], sub => sub.isEmpty
  | c :: s, sub => HasPrefix (c :: s) sub || strings.Contains s sub

/-- Go `strconv.Itoa` on a number that is not negative. -/
def strconv.Itoa (n : Nat) : GoString := Nat.toDigits 10 n

/-- The loop of `getParams` that looks for a name not yet in the map:
`newParamName = newParamName + "_" + strconv.Itoa(suffix)` until the name is
free.  The names grow, so the loop ends within `len(params) + 1` rounds. -/
def freeName (params : Params) : Nat → GoString → Nat → Option GoString
  | 0, _, _ => none
  | fuel + 1, newParamName, suffix =>
    let newParamName := newParamName ++ '_' :: strconv.Itoa suffix
    if (params.get? newParamName).isNone then some newParamName
    else freeName params fuel newParamName (suffix + 1)

/-- The loop `for i, part := range serverPathParts` of `getParams`.  The
result `ok none` is the nil map; `clientPathParts[i]` panics out of range. -/
def getParamsLoop (clientPathParts : List GoString) :
    List GoString → Nat → Params → Result (Option Params)
  | [], _, params => Result.ok (some params)
  | part :: rest, i, params =>
    if HasPrefix part [':'] then
      if clientPathParts.length > i then
        if (params.get? (part.drop 1)).getD [] = [] then
          getParamsLoop clientPathParts rest (i + 1)
            (params.set (part.drop 1) (clientPathParts.getD i []))
        else
          match freeName params (params.length + 1) (part.drop 1) 1 with
          | some newParamName =>
            getParamsLoop clientPathParts rest (i + 1)
              (params.set newParamName (clientPathParts.getD i []))
          | none => Result.fuel
      else getParamsLoop clientPathParts rest (i + 1) params
    else
      match clientPathParts.get? i with
      | none => Result.panic
      | some clientPart =>
        if part ≠ clientPart then Result.ok none
        else getParamsLoop clientPathParts rest (i + 1) params

/-- `getParams` of `mux.go`. -/
def getParams (clientPath serverPath : GoString) : Result (Option Params) :=
  getParamsLoop (Split clientPath) (Split serverPath) 0 []

/-- `NewCtx` of `context.go`: the parameters come from `getParams`, the cursor
starts at `-1`, the key map is a new empty map. -/
def NewCtx (req : Request) (urlServer : GoString) (middlewares : List Middleware)
    (handler : CtxFunc) (automatic : Bool) : Result Ctx :=
  match getParams req.Path urlServer with
  | Result.ok params =>
    Result.ok ⟨params, urlServer, -1, middlewares, some handler, automatic, some []⟩
  | Result.panic => Result.panic
  | Result.fuel => Result.fuel

/-- The context the wrapper built by `addMutationRoute` for `route` hands to
the user handler: `NewCtx(w, req, url, r.middlewares, t, r.automatic)`. -/
def wrapperCtx (r : Mux) (route : Route) (req : Request) : Result Ctx :=
  NewCtx req route.path r.middlewares route.CtxHandler r.automatic

/-- The error `ErrInvalidParam` of `error.go`. -/
def ErrInvalidParam : GoString := "invalid parameter".toList

/-- `Ctx.GetURLParam` of `context.go`, with the request `c.r` given next to
the context: value and error, as Go returns them.  `urlSplit[idParamIndex]`
panics out of range. -/
def GetURLParam (c : Ctx) (req : Request) (param : GoString) :
    Result (GoString × Option GoString) :=
  let urlSplit := Split req.Path
  let routerSplit := Split c.routerPath
  let userParam := ':' :: param
  match routerSplit.findIdx? (fun rpath =>
      rpath == userParam && strings.Contains c.routerPath userParam) with
  | some idParamIndex =>
    match urlSplit.get? idParamIndex with
    | some valueToGet => Result.ok (valueToGet, none)
    | none => Result.panic
  | none => Result.ok ([], some ErrInvalidParam)

/-- A chain of nodes without any handler: what the insertion loop leaves when
it creates a node for every segment and attaches nothing. -/
def bareChain : GoString → List GoString → Node
  | p, [] => ⟨p, [], none, none⟩
  | p, s :: rest => ⟨p, [bareChain s rest], none, none⟩

/-- The segments of a list that name a node: those that are not `""` and not
`"/"`, for which `AddNode` adds nothing. -/
def realSegs (l : List GoString) : List GoString :=
  l.filter (fun q => decide (q ≠ [] ∧ q ≠ ['/']))

/-- The segment list of a route: the segments `createTreeIdea` walks for its
path, without the empty ones. -/
def routeSegments (p : GoString) : List GoString := realSegs (routePaths p)

/-- Every node an insertion walk reaches from `node` has children with real
names only, and a handler only if `Reg` holds of the names on the way to it
(after the prefix `pfx`) and of the handler. -/
def TreeSound (Reg : List GoString → HandlerFunc → Prop) (pfx : List GoString)
    (node : Node) : Prop :=
  ∀ qs n, walk qs node = some n →
    (∀ q c, FindNodePath n q = some c → q ≠ [] ∧ q ≠ ['/']) ∧
    (∀ h, n.Handler = some h → Reg (pfx ++ realSegs qs) h)

/-- Among `routes`, registered in this order under `m`, one that was accepted
has the segment list `segs` and the handler `h`. -/
def Accepted (m : Method) (routes : List Route) (segs : List GoString) (h : HandlerFunc) :
    Prop :=
  ∃ pre r post, routes = pre ++ r :: post ∧
    (createTreeIdea r (buildRoutes m pre none) m).2 = none ∧
    routeSegments r.path = segs ∧ r.h = h

/-- A node name answers a request segment: it is the segment, or a parameter. -/
def Answers (q seg : GoString) : Prop := q = seg ∨ HasPrefix q [':'] = true

/-- The segments of a request path `InDepthSearch` descends by: the pieces of
the path after its leading slash, the empty ones skipped. -/
def requestSegments (path : GoString) : List GoString :=
  (Split (TrimPrefix path ['/'])).filter (fun s => decide (s ≠ []))

/-- The node reached from `n` by going down to the child at index `i`, for
each index of the list in turn: every node of the tree below `n` is reached
by some list. -/
def nodeAt : List Nat → Node → Option Node
  | [], n => some n
  | i :: rest, n =>
    match n.children.get? i with
    | some c => nodeAt rest c
    | none => none

/-- In every node of the tree below `node`, no two children have the same
path. -/
def DistinctChildren (node : Node) : Prop :=
  ∀ idxs n, nodeAt idxs node = some n → (n.children.map Node.path).Nodup

/-! ## The key map of a context (`context.go`) -/

/-- The error `ErrKeysInexistent` of `error.go`. -/
def ErrKeysInexistent : GoString := "keys map does not exist".toList

/-- The error `ErrKeyNotFound` of `error.go`. -/
def ErrKeyNotFound : GoString := "key not found".toList

/-- `Ctx.InitKeys` of `context.go`. -/
def Ctx.InitKeys (c : Ctx) : Ctx := { c with keys := some [] }

/-- `Ctx.SetKey` of `context.go`. -/
def Ctx.SetKey (c : Ctx) (key : GoString) (value : Nat) : Ctx :=
  let c := if c.keys.isNone then c.InitKeys else c
  { c with keys := c.keys.map (fun keys => keys.set key value) }

/-- `Ctx.GetKey` of `context.go`: value and error. -/
def Ctx.GetKey (c : Ctx) (key : GoString) : Option Nat × Option GoString :=
  match c.keys with
  | none => (none, some ErrKeysInexistent)
  | some keys =>
    match keys.get? key with
    | some value => (some value, none)
    | none => (none, some ErrKeyNotFound)

/-! ## Validation tags (`binding/validator.go`) -/

/-- Go `strings.Split(s, sep)` for a separator of one character. -/
def strings.SplitOn (sep : Char) : GoString → List GoString
  | [] => [[]]
  | c :: cs =>
    if c = sep then [] :: strings.SplitOn sep cs
    else
      match strings.SplitOn sep cs with
      | [] => [[c]]
      | x :: xs => (c :: x) :: xs

/-- The two `switch` statements of `validateField` over the rule name, as far
as the result goes: the error that a rule without value (`bare`), or a rule
`name=value` (`valued`), gives for a field, if any.  The checks behind the
cases (UUID, e-mail, regular expression, comparisons) are library code; the
theorems hold for every behaviour of them. -/
structure RuleChecks (α : Type) where
  bare : GoString → α → Option GoString
  valued : GoString → GoString → α → Option GoString

/-- The loop `for _, rule := range rules` of `validateField`: the error
message, if any. -/
def validateRules {α : Type} (checks : RuleChecks α) (field : α) :
    List GoString → Option GoString
  | [] => none
  | rule :: rest =>
    let parts := strings.SplitOn '=' rule
    if parts.length = 1 then
      match checks.bare (TrimSpace rule) field with
      | some err => some err
      | none => validateRules checks field rest
    else if parts.length ≠ 2 then
      some ("invalid validation rule format: ".toList ++ rule)
    else
      match checks.valued (TrimSpace (parts.getD 0 [])) (TrimSpace (parts.getD 1 [])) field with
      | some err => some err
      | none => validateRules checks field rest

/-- The function `validateField` of `validator.go`. -/
def validateField {α : Type} (checks : RuleChecks α) (field : α) (tag : GoString) :
    Option GoString :=
  if tag = [] then none
  else validateRules checks field (strings.SplitOn ';' tag)

/-! ## URI binding (`binding/uriBinding.go`, `binding/convert.go`) -/

/-- The kinds of `reflect.Kind` that `setFieldValue` tells apart; `Other` is
every kind its `switch` leaves to `default`. -/
inductive Kind where
  | String | Int | Int8 | Int16 | Int32 | Int64
  | Uint | Uint8 | Uint16 | Uint32 | Uint64
  | Float32 | Float64 | Bool | Ptr | Struct | Map | Other
  deriving DecidableEq

/-- The value a field holds: a signed or unsigned integer, a string, or a
value of another kind, known by its identity. -/
inductive Value where
  | int (i : Int)
  | uint (n : Nat)
  | str (s : GoString)
  | other (id : Nat)
  deriving DecidableEq

/-- A field of the destination struct, as reflection shows it: name, kind,
`CanSet()`, the tags `uri` and `v`, and the value. -/
structure Field where
  Name : GoString
  kind : Kind
  canSet : Bool
  uri : GoString
  v : GoString
  value : Value
  deriving DecidableEq

/-- The errors of `strconv`. -/
inductive NumError where
  | ErrSyntax
  | ErrRange
  deriving DecidableEq

/-- Go `strconv.IntSize` on a 64-bit platform. -/
def strconv.IntSize : Nat := 64

/-- The loop of `strconv.ParseUint` over the characters, for base 10, with
the number read so far: a character that is no digit is a syntax error; a
digit that takes the number above `maxVal` is a range error, at that digit,
whatever follows. -/
def strconv.parseLoop (maxVal : Nat) : GoString → Nat → Except NumError Nat
  | [], n => Except.ok n
  | c :: cs, n =>
    if '0' ≤ c ∧ c ≤ '9' then
      if 10 * n + (c.toNat - 48) > maxVal then Except.error NumError.ErrRange
      else strconv.parseLoop maxVal cs (10 * n + (c.toNat - 48))
    else Except.error NumError.ErrSyntax

/-- Go `strconv.ParseUint(s, 10, bitSize)`, with `bitSize` 0 for `IntSize`. -/
def strconv.ParseUint (s : GoString) (bitSize : Nat) : Except NumError Nat :=
  let bitSize := if bitSize = 0 then strconv.IntSize else bitSize
  if s = [] then Except.error NumError.ErrSyntax
  else strconv.parseLoop (2 ^ bitSize - 1) s 0

/-- Go `strconv.ParseInt(s, 10, bitSize)`, with `bitSize` 0 for `IntSize`: an
optional sign, then `ParseUint` on the rest; a syntax error of `ParseUint` is
returned, a range error of it stays a range error, and a number it returns
has to fit the signed range. -/
def strconv.ParseInt (s : GoString) (bitSize : Nat) : Except NumError Int :=
  if s = [] then Except.error NumError.ErrSyntax
  else
    let neg := HasPrefix s ['-']
    let s := if HasPrefix s ['+'] ∨ HasPrefix s ['-'] then s.drop 1 else s
    match strconv.ParseUint s bitSize with
    | Except.error err => Except.error err
    | Except.ok un =>
      let bitSize := if bitSize = 0 then strconv.IntSize else bitSize
      let cutoff := 2 ^ (bitSize - 1)
      if ¬ neg ∧ un ≥ cutoff then Except.error NumError.ErrRange
      else if neg ∧ un > cutoff then Except.error NumError.ErrRange
      else Except.ok (if neg then - (un : Int) else (un : Int))

/-- `intField` of `convert.go`: the field after the call and the error. -/
def intField (val : GoString) (bitSize : Nat) (fieldVal : Field) : Field × Option NumError :=
  let val := if val = [] then ['0'] else val
  match strconv.ParseInt val bitSize with
  | Except.error err => (fieldVal, some err)
  | Except.ok i => ({ fieldVal with value := Value.int i }, none)

/-- `uintField` of `convert.go`. -/
def uintField (val : GoString) (bitSize : Nat) (fieldVal : Field) : Field × Option NumError :=
  let val := if val = [] then ['0'] else val
  match strconv.ParseUint val bitSize with
  | Except.error err => (fieldVal, some err)
  | Except.ok i => ({ fieldVal with value := Value.uint i }, none)

/-- The library code the binding calls and the model leaves open:
`strings.ToLower`, the cases of `setFieldValue` for the kinds that are neither
strings nor integers (floats, booleans, pointers, structs, maps, the rest),
and the checks of the validator. -/
structure Library where
  ToLower : GoString → GoString
  setOther : Field → GoString → Field × Option GoString
  checks : RuleChecks Field

/-- `setFieldValue` of `uriBinding.go`: the field after the call and the
error.  For the integer kinds the error of the conversion goes to
`printError`, which prints it, and the function returns nil. -/
def setFieldValue (lib : Library) (field : Field) (paramValue : GoString) :
    Field × Option GoString :=
  match field.kind with
  | Kind.String => ({ field with value := Value.str paramValue }, none)
  | Kind.Int => ((intField paramValue 0 field).1, none)
  | Kind.Int8 => ((intField paramValue 8 field).1, none)
  | Kind.Int16 => ((intField paramValue 16 field).1, none)
  | Kind.Int32 => ((intField paramValue 32 field).1, none)
  | Kind.Int64 => ((intField paramValue 64 field).1, none)
  | Kind.Uint => ((uintField paramValue 0 field).1, none)
  | Kind.Uint8 => ((uintField paramValue 8 field).1, none)
  | Kind.Uint16 => ((uintField paramValue 16 field).1, none)
  | Kind.Uint32 => ((uintField paramValue 32 field).1, none)
  | Kind.Uint64 => ((uintField paramValue 64 field).1, none)
  | _ => lib.setOther field paramValue

/-- `findParamCaseInsensitive` of `uriBinding.go`; the list `params` is the
map in the order this call ranges over it. -/
def findParamCaseInsensitive (lib : Library) (params : Params) (key : GoString) :
    GoString × Bool :=
  match params.find? (fun kv => lib.ToLower kv.1 == lib.ToLower key) with
  | some kv => (kv.2, true)
  | none => ([], false)

/-- `mapUriParams` of `uriBinding.go`, over the fields of the struct: the
fields after the call and the error. -/
def mapUriParams (lib : Library) (params : Params) : List Field → List Field × Option GoString
  | [] => ([], none)
  | fieldVal :: rest =>
    if ¬ fieldVal.canSet then
      (fieldVal :: (mapUriParams lib params rest).1, (mapUriParams lib params rest).2)
    else if fieldVal.uri = [] then
      (fieldVal :: (mapUriParams lib params rest).1, (mapUriParams lib params rest).2)
    else
      match findParamCaseInsensitive lib params fieldVal.uri with
      | (_, false) =>
        (fieldVal :: (mapUriParams lib params rest).1, (mapUriParams lib params rest).2)
      | (paramValue, true) =>
        match setFieldValue lib fieldVal paramValue with
        | (fieldVal', some err) =>
          (fieldVal' :: rest,
            some ("error setting field ".toList ++ fieldVal.Name ++ ": ".toList ++ err))
        | (fieldVal', none) =>
          (fieldVal' :: (mapUriParams lib params rest).1, (mapUriParams lib params rest).2)

/-- `Validator.Validate` of `validator.go`, over the fields of the struct. -/
def Validate (lib : Library) : List Field → Option GoString
  | [] => none
  | fieldVal :: rest =>
    if fieldVal.v ≠ [] then
      match validateField lib.checks fieldVal fieldVal.v with
      | some err =>
        some ("validation error for field ".toList ++ fieldVal.Name ++ ": ".toList ++ err)
      | none => Validate lib rest
    else Validate lib rest

/-- `URIBinding.BindURI` of `uriBinding.go`, called with a pointer to a
struct whose fields are `fields`: the fields after the call and the error. -/
def BindURI (lib : Library) (params : Params) (fields : List Field) :
    List Field × Option GoString :=
  match mapUriParams lib params fields with
  | (fields', some err) => (fields', some ("error binding uri: ".toList ++ err))
  | (fields', none) => (fields', Validate lib fields')

/-- The conversion `setFieldValue` tries for a field of an integer kind:
`ParseInt` or `ParseUint` at the size of the kind; `none` for other kinds. -/
def Kind.parse (k : Kind) (val : GoString) : Option (Except NumError Value) :=
  match k with
  | Kind.Int => some ((strconv.ParseInt val 0).map Value.int)
  | Kind.Int8 => some ((strconv.ParseInt val 8).map Value.int)
  | Kind.Int16 => some ((strconv.ParseInt val 16).map Value.int)
  | Kind.Int32 => some ((strconv.ParseInt val 32).map Value.int)
  | Kind.Int64 => some ((strconv.ParseInt val 64).map Value.int)
  | Kind.Uint => some ((strconv.ParseUint val 0).map Value.uint)
  | Kind.Uint8 => some ((strconv.ParseUint val 8).map Value.uint)
  | Kind.Uint16 => some ((strconv.ParseUint val 16).map Value.uint)
  | Kind.Uint32 => some ((strconv.ParseUint val 32).map Value.uint)
  | Kind.Uint64 => some ((strconv.ParseUint val 64).map Value.uint)
  | _ => none

/-- The zero value of an integer kind. -/
def Kind.zero (k : Kind) : Value :=
  match k with
  | Kind.Uint | Kind.Uint8 | Kind.Uint16 | Kind.Uint32 | Kind.Uint64 => Value.uint 0
  | _ => Value.int 0

/-- On the walk of the segments from `node`, the child that each segment
names is there, and no child before it in the list of children is a
parameter. -/
def noParamBefore : List GoString → Node → Bool
  | [], _ => true
  | q :: rest, node =>
    match FindNodePath node q with
    | some c =>
      (node.children.takeWhile (fun d => d.path != q)).all (fun d => !HasPrefix d.path [':'])
        && noParamBefore rest c
    | none => false

/-! ## The status of the response -/

/-- What the functions the user registered write to the response themselves:
for a middleware (by its identity) and for a route handler, the status of the
first `WriteHeader` its body makes (`c.Status`, `c.SendString`, ...), before it
calls `Next`, if it makes one. -/
structure Writes where
  middleware : Nat → Option Nat
  handler : HandlerFunc → Option Nat

/-- The status of the response after a trace: the status of the first
`WriteHeader` on the `http.ResponseWriter`, by a body that ran or by the
dispatcher (`http.NotFound`, `http.Error`); `net/http` drops every later call
as superfluous.  `none`: nothing wrote a status. -/
def responseStatus (w : Writes) : List Event → Option Nat
  | [] => none
  | Event.middleware id :: rest =>
    match w.middleware id with
    | some code => some code
    | none => responseStatus w rest
  | Event.handler h :: rest =>
    match w.handler h with
    | some code => some code
    | none => responseStatus w rest
  | Event.notFound :: _ => some 404
  | Event.error code :: _ => some code

/-! ## The trees as objects in memory (`tree.go`, `mux.go`)

The definitions above pass trees as values.  Here a `*Node` and a `*Tree` are
pointers, the functions write through them, and `buildTrees` allocates.  A
pointer is the index of the object among the objects of its type allocated so
far. -/

/-- The struct `Node` of `tree.go` in memory: `children` is a slice of
pointers. -/
structure NodeObj where
  path : GoString
  children : List Nat
  Handler : Option HandlerFunc
  CtxHandler : Option CtxFunc

/-- The struct `Tree` of `tree.go` in memory; `startNode` may be nil. -/
structure TreeObj where
  method : Method
  startNode : Option Nat

/-- The memory: the `Node` objects and the `Tree` objects allocated so far. -/
structure Memory where
  nodes : List NodeObj
  trees : List TreeObj

/-- The test `p.Handler != nil` through a node pointer. -/
def Memory.hasHandler (mem : Memory) (p : Nat) : Bool :=
  match mem.nodes[p]? with
  | some obj => obj.Handler.isSome
  | none => false

/-- `Node.FindNodePath` through the pointer `n`: the pointer to the first child
whose path is `path`, or nil. -/
def Memory.FindNodePath (mem : Memory) (n : Nat) (path : GoString) : Option Nat :=
  match mem.nodes[n]? with
  | some obj =>
    obj.children.find? (fun c =>
      match mem.nodes[c]? with
      | some child => child.path == path
      | none => false)
  | none => none

/-- `Node.ChangeNodeState` through the pointer `n`. -/
def Memory.ChangeNodeState (mem : Memory) (n : Nat) (handler : Route) (isFinalRoute : Bool) :
    Memory :=
  if isFinalRoute then
    match mem.nodes[n]? with
    | some obj => { mem with nodes := mem.nodes.set n { obj with Handler := some handler.h } }
    | none => mem
  else mem

/-- The object `Node.AddNode` allocates for `segment`. -/
def newChildObj (handler : Route) (isFinalRoute : Bool) (segment : GoString) : NodeObj :=
  if isFinalRoute then ⟨segment, [], some handler.h, some handler.CtxHandler⟩
  else ⟨segment, [], none, none⟩

/-- `Node.AddNode` through the pointer `n`: the memory after the call and the
pointer returned, `n` itself for the segments `""` and `"/"`, the new child
otherwise. -/
def Memory.AddNode (mem : Memory) (n : Nat) (handler : Route) (isFinalRoute : Bool)
    (segment : GoString) : Memory × Nat :=
  if segment = [] ∨ segment = ['/'] then (mem, n)
  else
    let child := mem.nodes.length
    match mem.nodes[n]? with
    | some obj =>
      ({ mem with nodes :=
          mem.nodes.set n { obj with children := obj.children ++ [child] }
            ++ [newChildObj handler isFinalRoute segment] }, child)
    | none => ({ mem with nodes := mem.nodes ++ [newChildObj handler isFinalRoute segment] }, child)

/-- The loop `for i, path := range paths` of `createTreeIdea`, run with the
cursor `node`: the memory after it and the error. -/
def Memory.insertPaths (handler : Route) : List GoString → Nat → Memory → Memory × Option GoString
  | [], _, mem => (mem, none)
  | path :: rest, node, mem =>
    match mem.FindNodePath node path with
    | some foundNode =>
      if rest = [] then
        if mem.hasHandler foundNode then (mem, some handler.path)
        else (mem.ChangeNodeState foundNode handler true, none)
      else Memory.insertPaths handler rest foundNode mem
    | none =>
      if rest = [] then ((mem.AddNode node handler true path).1, none)
      else
        Memory.insertPaths handler rest (mem.AddNode node handler false path).2
          (mem.AddNode node handler false path).1

/-- `Mux.createTreeIdea` on pointers: the memory after the call, the pointer
returned (nil with an error) and the error. -/
def Memory.createTreeIdea (mem : Memory) (handler : Route) (t : Option Nat) (m : Method) :
    Memory × Option Nat × Option GoString :=
  let alloc : Memory × Nat :=
    match t with
    | some t => (mem, t)
    | none =>
      (⟨mem.nodes ++ [⟨['/'], [], none, none⟩], mem.trees ++ [⟨m, some mem.nodes.length⟩]⟩,
        mem.trees.length)
  let t := alloc.2
  let mem : Memory :=
    match alloc.1.trees[t]? with
    | some ⟨method, none⟩ =>
      ⟨alloc.1.nodes ++ [⟨['/'], [], none, none⟩],
        alloc.1.trees.set t ⟨method, some alloc.1.nodes.length⟩⟩
    | _ => alloc.1
  match (mem.trees[t]?).bind (fun obj => obj.startNode) with
  | none => (mem, some t, none)
  | some startNode =>
    if handler.path = [] ∨ handler.path = ['/'] then
      if mem.hasHandler startNode then (mem, none, some handler.path)
      else (mem, some t, none)
    else if 2 ≤ (Split handler.path).length then
      let paths := (Split (TrimSpace handler.path)).map TrimSpace
      let r := Memory.insertPaths handler paths startNode mem
      match r.2 with
      | some err => (r.1, none, some err)
      | none => (r.1, some t, none)
    else
      match mem.FindNodePath startNode handler.path with
      | some foundNode =>
        if mem.hasHandler foundNode then (mem, none, some handler.path)
        else (mem.ChangeNodeState foundNode handler true, some t, none)
      | none => ((mem.AddNode startNode handler true handler.path).1, some t, none)

/-- The loop over the routes of one method in `Mux.buildTrees`; `t` is
`trees[method]`, assigned only when `createTreeIdea` returns no error. -/
def Memory.buildRoutes (m : Method) : List Route → Option Nat → Memory → Memory × Option Nat
  | [], t, mem => (mem, t)
  | handler :: rest, t, mem =>
    match (mem.createTreeIdea handler t m).2.2 with
    | some _ => Memory.buildRoutes m rest t (mem.createTreeIdea handler t m).1
    | none =>
      Memory.buildRoutes m rest (mem.createTreeIdea handler t m).2.1
        (mem.createTreeIdea handler t m).1

/-- The registry with its objects: the fields of `Mux`, with pointers to the
trees in `trees`, and the memory. -/
structure MuxState where
  handlers : Method → Option (List Route)
  middlewares : List Middleware
  automatic : Bool
  trees : Option (Method → Option Nat)
  mem : Memory

/-- The loop `for method = GET; method <= OPTIONS; method++` of
`Mux.buildTrees` over the methods still to visit, with the map `trees`. -/
def MuxState.buildMethods (r : MuxState) :
    List Method → (Method → Option Nat) → Memory → (Method → Option Nat) × Memory
  | [], trees, mem => (trees, mem)
  | method :: rest, trees, mem =>
    match r.handlers method with
    | some handlers =>
      let res := Memory.buildRoutes method handlers (trees method) mem
      MuxState.buildMethods r rest (fun m => if m = method then res.2 else trees m) res.1
    | none => MuxState.buildMethods r rest trees mem

/-- `Mux.buildTrees` of `mux.go` with the registry as state: the map returned
(a new map, empty at first) and the registry after the call.  The call does
not assign `r.trees`; its callers do. -/
def MuxState.buildTrees (r : MuxState) : (Method → Option Nat) × MuxState :=
  let res := r.buildMethods [GET, POST, PUT, DELETE, PATCH, HEAD, OPTIONS] (fun _ => none) r.mem
  (res.1, { r with mem := res.2 })

/-- `Mux.StartExecuting` of `engine.go` with the registry as state, up to
`http.ListenAndServe`. -/
def MuxState.StartExecuting (r : MuxState) (AutomaticMiddleware : Bool) : MuxState :=
  let r := { r with automatic := AutomaticMiddleware }
  { r.buildTrees.2 with trees := some r.buildTrees.1 }

/-- The registrations of a registry, as the value the definitions above work
on. -/
def MuxState.toMux (r : MuxState) : Mux := ⟨r.handlers, r.middlewares, r.automatic, none⟩

/-- The objects below the pointer `a` are the tree `n`, no object belongs to
two subtrees, and `F` holds exactly of the pointers to these objects. -/
inductive Owns (nodes : List NodeObj) : Nat → Node → (Nat → Prop) → Prop where
  | mk (a : Nat) (obj : NodeObj) (n : Node) (fp : Nat → Nat → Prop) :
      nodes[a]? = some obj →
      obj.path = n.path → obj.Handler = n.Handler → obj.CtxHandler = n.CtxHandler →
      obj.children.length = n.children.length →
      (∀ i c d, obj.children[i]? = some c → n.children[i]? = some d →
        Owns nodes c d (fp i)) →
      (∀ i j b, i < obj.children.length → j < obj.children.length → i ≠ j →
        fp i b → fp j b → False) →
      (∀ i, i < obj.children.length → ¬ fp i a) →
      Owns nodes a n (fun b => b = a ∨ ∃ i, i < obj.children.length ∧ fp i b)

/-- The `Tree` object at the pointer `t` is the tree `tree`, its nodes being
the objects `F`; nil stands for no tree. -/
def TreeOwns (mem : Memory) (t : Option Nat) (tree : Option Tree) (F : Nat → Prop) : Prop :=
  match t, tree with
  | none, none => ∀ b, ¬ F b
  | some t, some tree =>
    ∃ a, mem.trees[t]? = some ⟨tree.method, some a⟩ ∧ Owns mem.nodes a tree.startNode F
  | _, _ => False

/-- The object at `a` is `obj`, it has the fields of `n`, its children are the
children of `n`, one by one, with the objects `fp i` for the `i`-th, and no
object belongs to two of them or is `a` itself. -/
def OwnsAt (nodes : List NodeObj) (a : Nat) (obj : NodeObj) (n : Node)
    (fp : Nat → Nat → Prop) : Prop :=
  nodes[a]? = some obj ∧
  obj.path = n.path ∧ obj.Handler = n.Handler ∧ obj.CtxHandler = n.CtxHandler ∧
  obj.children.length = n.children.length ∧
  (∀ i c d, obj.children[i]? = some c → n.children[i]? = some d → Owns nodes c d (fp i)) ∧
  (∀ i j b, i < obj.children.length → j < obj.children.length → i ≠ j →
    fp i b → fp j b → False) ∧
  (∀ i, i < obj.children.length → ¬ fp i a)

/-- The pointers to the objects of a node and its subtrees. -/
def footprint (a : Nat) (obj : NodeObj) (fp : Nat → Nat → Prop) : Nat → Prop :=
  fun b => b = a ∨ ∃ i, i < obj.children.length ∧ fp i b

/-- A run from the memory `mem` to `mem'` that works below the pointer `a`,
whose objects were `F`: the `Tree` objects are as before, no `Node` object is
gone, the objects outside `F` are as before, and the objects below `a` now are
the tree `n'`, made of objects of `F` and of new ones. -/
def MemStep (mem mem' : Memory) (a : Nat) (n' : Node) (F : Nat → Prop) : Prop :=
  mem'.trees = mem.trees ∧ mem.nodes.length ≤ mem'.nodes.length ∧
  (∀ b, b < mem.nodes.length → ¬ F b → mem'.nodes[b]? = mem.nodes[b]?) ∧
  ∃ F', Owns mem'.nodes a n' F' ∧ ∀ b, F' b → F b ∨ mem.nodes.length ≤ b

/-- A run from the memory `mem` to `mem'` that works on the tree at the
pointer `t`, whose nodes were `F`: no object is gone, the `Tree` objects that
were there and the `Node` objects outside `F` are as before, and the pointer
`t'`, which is `t` or points to a new `Tree` object, now holds the tree
`tree'`, made of objects of `F` and of new ones. -/
def TreeStep (mem mem' : Memory) (t t' : Option Nat) (tree' : Option Tree)
    (F : Nat → Prop) : Prop :=
  mem.trees.length ≤ mem'.trees.length ∧
  (∀ i, i < mem.trees.length → mem'.trees[i]? = mem.trees[i]?) ∧
  mem.nodes.length ≤ mem'.nodes.length ∧
  (∀ b, b < mem.nodes.length → ¬ F b → mem'.nodes[b]? = mem.nodes[b]?) ∧
  (∀ k, t' = some k → t = some k ∨ mem.trees.length ≤ k) ∧
  ∃ F', TreeOwns mem' t' tree' F' ∧ ∀ b, F' b → F b ∨ mem.nodes.length ≤ b

/-! ## Facts about `Split` and `TrimSpace` -/

namespace strings

theorem Split_ne_nil (s : GoString) : Split s ≠ [] := by
  cases s with
  | nil => simp [Split]
  | cons c cs =>
    unfold Split
    split
    · simp
    · split <;> simp

theorem Split_of_not_mem {s : GoString} (h : '/' ∉ s) : Split s = [s] := by
  induction s with
  | nil => rfl
  | cons c cs ih =>
    have hc : c ≠ '/' := fun e => h (by simp [e])
    have hcs : '/' ∉ cs := fun e => h (by simp [e])
    simp [Split, hc, ih hcs]

theorem Split_append_slash {s : GoString} (h : '/' ∉ s) (t : GoString) :
    Split (s ++ '/' :: t) = s :: Split t := by
  induction s with
  | nil => simp [Split]
  | cons c cs ih =>
    have hc : c ≠ '/' := fun e => h (by simp [e])
    have hcs : '/' ∉ cs := fun e => h (by simp [e])
    simp [Split, hc, ih hcs]

theorem isSpace_slash : isSpace '/' = false := by decide

theorem isSpace_colon : isSpace ':' = false := by decide

theorem TrimSpace_nil : TrimSpace [] = [] := by
  simp [TrimSpace, List.rdropWhile]

/-- A string with no white space at either end is left alone by `TrimSpace`. -/
theorem TrimSpace_eq_self_of {s : GoString}
    (h1 : ∀ c rest, s = c :: rest → isSpace c = false)
    (h2 : ∀ hne : s ≠ [], isSpace (s.getLast hne) = false) : TrimSpace s = s := by
  have hd : s.dropWhile isSpace = s := by
    cases s with
    | nil => rfl
    | cons c rest => simp [List.dropWhile, h1 c rest rfl]
  unfold TrimSpace
  rw [hd, List.rdropWhile_eq_self_iff]
  intro hne
  simp [h2 hne]

/-- What `TrimSpace s = s` says about the ends of `s`. -/
theorem ends_of_TrimSpace_eq_self {s : GoString} (h : TrimSpace s = s) :
    (∀ c rest, s = c :: rest → isSpace c = false) ∧
      (∀ hne : s ≠ [], isSpace (s.getLast hne) = false) := by
  unfold TrimSpace at h
  have hpre := List.rdropWhile_prefix isSpace (s.dropWhile isSpace)
  have hsuf := List.dropWhile_suffix (l := s) isSpace
  have hlen1 : (s.dropWhile isSpace).length ≤ s.length := hsuf.length_le
  have hlen2 : ((s.dropWhile isSpace).rdropWhile isSpace).length
      ≤ (s.dropWhile isSpace).length := hpre.length_le
  rw [h] at hlen2
  have hd : s.dropWhile isSpace = s :=
    hsuf.sublist.eq_of_length (le_antisymm hlen1 hlen2)
  rw [hd] at h
  constructor
  · intro c rest hs
    subst hs
    by_contra hc
    have hc' : isSpace c = true := by simpa using hc
    have hl := congrArg List.length hd
    have hs2 := List.dropWhile_suffix (l := rest) isSpace
    simp [List.dropWhile, hc'] at hl
    have := hs2.length_le
    omega
  · intro hne
    have := List.rdropWhile_eq_self_iff.mp h hne
    simpa using this

end strings

/-! ## Paths built from segments -/

theorem joinPath_append (a b : List GoString) :
    joinPath (a ++ b) = joinPath a ++ joinPath b := by
  induction a with
  | nil => rfl
  | cons s rest ih => simp [joinPath, ih]

theorem Split_append_joinPath {s : GoString} (hs : '/' ∉ s) (segs : List GoString)
    (h : ∀ x ∈ segs, '/' ∉ x) : Split (s ++ joinPath segs) = s :: segs := by
  induction segs generalizing s with
  | nil => simpa [joinPath] using Split_of_not_mem hs
  | cons x rest ih =>
    have hx : '/' ∉ x := h x (by simp)
    have hr : ∀ y ∈ rest, '/' ∉ y := fun y hy => h y (by simp [hy])
    simp only [joinPath]
    rw [Split_append_slash hs, ih hx hr]

theorem Split_joinPath (s : GoString) (segs : List GoString)
    (h : ∀ x ∈ s :: segs, '/' ∉ x) : Split (joinPath (s :: segs)) = [] :: s :: segs := by
  have hs : '/' ∉ s := h s (by simp)
  have hr : ∀ y ∈ segs, '/' ∉ y := fun y hy => h y (by simp [hy])
  simp only [joinPath]
  have := Split_append_joinPath hs segs hr
  simp [Split, this]

theorem Split_TrimPrefix_joinPath (reqs : List GoString) (h : ∀ x ∈ reqs, '/' ∉ x) :
    (Split (TrimPrefix (joinPath reqs) ['/'])).filter (fun s => s ≠ []) =
      reqs.filter (fun s => s ≠ []) := by
  cases reqs with
  | nil => simp [joinPath, TrimPrefix, HasPrefix, Split]
  | cons r rest =>
    have hs : '/' ∉ r := h r (by simp)
    have hr : ∀ y ∈ rest, '/' ∉ y := fun y hy => h y (by simp [hy])
    simp [joinPath, TrimPrefix, HasPrefix, Split_append_joinPath hs rest hr]

theorem rdropWhile_append_cons {p : Char → Bool} {a : Char} (ha : p a = false)
    (l m : List Char) : (l ++ a :: m).rdropWhile p = l ++ a :: m.rdropWhile p := by
  induction m using List.reverseRecOn with
  | nil =>
    have : l ++ [a] = l ++ [a] := rfl
    simp [List.rdropWhile_concat, ha]
  | append_singleton m x ih =>
    have e : l ++ a :: (m ++ [x]) = (l ++ a :: m) ++ [x] := by simp
    rw [e, List.rdropWhile_concat, List.rdropWhile_concat, ih]
    split <;> simp

theorem TrimSpace_joinPath (segs : List GoString) (h : ∀ x ∈ segs, IsSegment x) :
    TrimSpace (joinPath segs) = joinPath segs := by
  induction segs using List.reverseRecOn with
  | nil => simp [joinPath, TrimSpace_nil]
  | append_singleton init l _ =>
    obtain ⟨hne, _, htrim⟩ := h l (by simp)
    have hlast := (ends_of_TrimSpace_eq_self htrim).2 hne
    apply TrimSpace_eq_self_of
    · intro c rest hc
      cases init with
      | nil =>
        simp [joinPath] at hc
        rw [← hc.1]; exact isSpace_slash
      | cons i is =>
        simp [joinPath] at hc
        rw [← hc.1]; exact isSpace_slash
    · intro hne2
      have e : joinPath (init ++ [l]) = (joinPath init ++ ['/']) ++ l := by
        simp [joinPath_append, joinPath]
      have : (joinPath (init ++ [l])).getLast hne2 = l.getLast hne := by
        simp only [e]
        rw [List.getLast_append_of_ne_nil]
      rw [this]; exact hlast

theorem map_eq_self {α : Type} (f : α → α) (l : List α) (h : ∀ x ∈ l, f x = x) :
    l.map f = l := by
  induction l with
  | nil => rfl
  | cons a rest ih =>
    simp only [List.map_cons, h a (by simp)]
    rw [ih (fun x hx => h x (by simp [hx]))]

theorem routePaths_joinPath (s : GoString) (segs : List GoString)
    (h : ∀ x ∈ s :: segs, IsSegment x) : routePaths (joinPath (s :: segs)) = [] :: s :: segs := by
  have hsl : ∀ x ∈ s :: segs, '/' ∉ x := fun x hx => (h x hx).2.1
  have htr : List.map TrimSpace (s :: segs) = s :: segs :=
    map_eq_self _ _ (fun x hx => (h x hx).2.2)
  unfold routePaths
  rw [TrimSpace_joinPath _ h, Split_joinPath s segs hsl]
  simp only [List.map_cons, TrimSpace_nil] at htr ⊢
  simp [htr]

/-! ## One level of the trie: `FindNodePath`, `replaceChild`, appended children -/

theorem FindNodePath_path {n : Node} {p : GoString} {c : Node}
    (h : FindNodePath n p = some c) : c.path = p := by
  have := List.find?_some h
  simpa using this

theorem find_cons_pos {q : GoString} {d : Node} (ds : List Node) (h : d.path = q) :
    (d :: ds).find? (fun node => node.path == q) = some d :=
  List.find?_cons_of_pos ds (by simp [h])

theorem find_cons_neg {q : GoString} {d : Node} (ds : List Node) (h : ¬ d.path = q) :
    (d :: ds).find? (fun node => node.path == q) = ds.find? (fun node => node.path == q) :=
  List.find?_cons_of_neg ds (by simp [h])

theorem replaceChild_self {p : GoString} {c : Node} {cs : List Node}
    (h : cs.find? (fun node => node.path == p) = some c) : replaceChild p c cs = cs := by
  induction cs with
  | nil => rfl
  | cons d ds ih =>
    by_cases hd : d.path = p
    · rw [find_cons_pos ds hd] at h
      simp only [Option.some.injEq] at h
      subst h
      simp [replaceChild, hd]
    · rw [find_cons_neg ds hd] at h
      simp [replaceChild, hd, ih h]

theorem find_replaceChild {p : GoString} {c' : Node} (hc : c'.path = p) (q : GoString)
    (cs : List Node) :
    (replaceChild p c' cs).find? (fun node => node.path == q) =
      if q = p then (cs.find? (fun node => node.path == p)).map (fun _ => c')
      else cs.find? (fun node => node.path == q) := by
  induction cs with
  | nil => simp [replaceChild]
  | cons d ds ih =>
    by_cases hd : d.path = p
    · by_cases hq : q = p
      · subst hq
        simp only [replaceChild, hd, if_true]
        rw [find_cons_pos ds hc, find_cons_pos ds hd]
        rfl
      · have h1 : ¬ c'.path = q := fun e => hq (by rw [← e, hc])
        have h2 : ¬ d.path = q := fun e => hq (by rw [← e, hd])
        simp only [replaceChild, hd, if_true, hq, if_false]
        rw [find_cons_neg ds h1, find_cons_neg ds h2]
    · by_cases hq : q = p
      · subst hq
        simp only [replaceChild, hd, if_false, if_true] at ih ⊢
        rw [find_cons_neg _ hd, find_cons_neg _ hd, ih]
      · simp only [replaceChild, hd, if_false, hq] at ih ⊢
        by_cases hdq : d.path = q
        · rw [find_cons_pos _ hdq, find_cons_pos _ hdq]
        · rw [find_cons_neg _ hdq, find_cons_neg _ hdq, ih]

theorem find_append_single (cs : List Node) (d : Node) (q : GoString) :
    (cs ++ [d]).find? (fun node => node.path == q) =
      match cs.find? (fun node => node.path == q) with
      | some c => some c
      | none => if d.path = q then some d else none := by
  rw [List.find?_append]
  cases h : cs.find? (fun node => node.path == q) with
  | some c => simp
  | none =>
    by_cases hd : d.path = q
    · simp [find_cons_pos [] hd, hd]
    · simp [find_cons_neg [] hd, hd]

theorem Node_eta (node : Node) :
    ({ path := node.path, children := node.children, Handler := node.Handler,
       CtxHandler := node.CtxHandler } : Node) = node := by
  cases node; rfl

theorem AddNode_fields (n : Node) (handler : Route) (b : Bool) (s : GoString) :
    (AddNode n handler b s).path = n.path ∧ (AddNode n handler b s).Handler = n.Handler ∧
      (AddNode n handler b s).CtxHandler = n.CtxHandler := by
  unfold AddNode
  split <;> simp

theorem newChild_path (handler : Route) (b : Bool) (s : GoString) :
    (newChild handler b s).path = s := by
  unfold newChild
  split <;> rfl

/-- The insertion loop never touches the fields of the node it starts from,
only its children. -/
theorem insertPaths_fields (handler : Route) (paths : List GoString) (node : Node) :
    (insertPaths handler paths node).1.path = node.path ∧
      (insertPaths handler paths node).1.Handler = node.Handler ∧
      (insertPaths handler paths node).1.CtxHandler = node.CtxHandler := by
  induction paths generalizing node with
  | nil => simp [insertPaths]
  | cons path rest ih =>
    unfold insertPaths
    split
    · split
      · split <;> simp
      · simp
    · split
      · exact AddNode_fields _ _ _ _
      · split
        · exact ih node
        · simp

/-! ## The insertion walk -/

/-- A route whose walk ends on a node that has a handler is rejected, and the
node the walk started from is left as it was. -/
theorem insertPaths_reject (handler : Route) (paths : List GoString) (node n : Node)
    (q : GoString) (hlast : paths.getLast? = some q) (hq : q ≠ [] ∧ q ≠ ['/'])
    (hw : walk paths node = some n) (hn : n.Handler.isSome) :
    insertPaths handler paths node = (node, some handler.path) := by
  induction paths generalizing node with
  | nil => simp at hlast
  | cons path rest ih =>
    unfold walk at hw
    unfold insertPaths
    cases hf : FindNodePath node path with
    | some foundNode =>
      rw [hf] at hw
      simp only at hw ⊢
      by_cases hr : rest = []
      · subst hr
        simp only [walk, Option.some.injEq] at hw
        subst hw
        simp [hn]
      · have hlast' : rest.getLast? = some q := by
          cases rest with
          | nil => exact absurd rfl hr
          | cons a as => simpa [List.getLast?_cons_cons] using hlast
        have := ih foundNode hlast' hw
        simp only [hr, if_false, this]
        have hs := replaceChild_self (p := path) hf
        simp [hs, Node_eta]
    | none =>
      rw [hf] at hw
      simp only at hw ⊢
      by_cases hp : path = [] ∨ path = ['/']
      · simp only [hp, if_true] at hw
        by_cases hr : rest = []
        · subst hr
          simp at hlast
          subst hlast
          exact absurd hp (by simp [hq.1, hq.2])
        · have hlast' : rest.getLast? = some q := by
            cases rest with
            | nil => exact absurd rfl hr
            | cons a as => simpa [List.getLast?_cons_cons] using hlast
          simp only [hr, if_false, hp, if_true]
          exact ih node hlast' hw
      · simp [hp] at hw

theorem getLast?_cons_of_ne_nil {α : Type} (a : α) {rest : List α} (h : rest ≠ []) :
    (a :: rest).getLast? = rest.getLast? := by
  cases rest with
  | nil => exact absurd rfl h
  | cons b bs => simp [List.getLast?_cons_cons]

/-! ### The six branches of the insertion loop -/

theorem insertPaths_found_last_taken (handler : Route) {path : GoString} {node f : Node}
    (hf : FindNodePath node path = some f) (hh : f.Handler.isSome) :
    insertPaths handler [path] node = (node, some handler.path) := by
  simp [insertPaths, hf, hh]

theorem insertPaths_found_last_free (handler : Route) {path : GoString} {node f : Node}
    (hf : FindNodePath node path = some f) (hh : ¬ f.Handler.isSome) :
    insertPaths handler [path] node =
      ({ node with children :=
          replaceChild path (ChangeNodeState f handler true) node.children }, none) := by
  simp [insertPaths, hf, hh]

theorem insertPaths_found_more (handler : Route) {path : GoString} {rest : List GoString}
    {node f : Node} (hf : FindNodePath node path = some f) (hr : rest ≠ []) :
    insertPaths handler (path :: rest) node =
      ({ node with children := replaceChild path (insertPaths handler rest f).1 node.children },
        (insertPaths handler rest f).2) := by
  simp [insertPaths, hf, hr]

theorem insertPaths_new_last (handler : Route) {path : GoString} {node : Node}
    (hf : FindNodePath node path = none) :
    insertPaths handler [path] node = (AddNode node handler true path, none) := by
  simp [insertPaths, hf]

theorem insertPaths_skip (handler : Route) {path : GoString} {rest : List GoString}
    {node : Node} (hf : FindNodePath node path = none) (hp : path = [] ∨ path = ['/'])
    (hr : rest ≠ []) :
    insertPaths handler (path :: rest) node = insertPaths handler rest node := by
  rw [insertPaths, hf]
  simp only [hr, if_false, hp, if_true]

theorem insertPaths_new_more (handler : Route) {path : GoString} {rest : List GoString}
    {node : Node} (hf : FindNodePath node path = none) (hp : ¬ (path = [] ∨ path = ['/']))
    (hr : rest ≠ []) :
    insertPaths handler (path :: rest) node =
      ({ node with children :=
          node.children ++ [(insertPaths handler rest (newChild handler false path)).1] },
        (insertPaths handler rest (newChild handler false path)).2) := by
  rw [insertPaths, hf]
  simp only [hr, if_false, hp]

theorem FindNodePath_replaceChild {p : GoString} {c' : Node} (hc : c'.path = p) (q : GoString)
    (node : Node) :
    FindNodePath { node with children := replaceChild p c' node.children } q =
      if q = p then (FindNodePath node p).map (fun _ => c') else FindNodePath node q := by
  simp only [FindNodePath]
  exact find_replaceChild hc q node.children

theorem FindNodePath_append (node : Node) (d : Node) (q : GoString) :
    FindNodePath { node with children := node.children ++ [d] } q =
      match FindNodePath node q with
      | some c => some c
      | none => if d.path = q then some d else none := by
  simp only [FindNodePath]
  exact find_append_single node.children d q

theorem ChangeNodeState_path (f : Node) (handler : Route) (b : Bool) :
    (ChangeNodeState f handler b).path = f.path := by
  unfold ChangeNodeState; split <;> rfl

/-- The insertion loop adds no child named `""` or `"/"` to the node it
starts from. -/
theorem insertPaths_find_none (handler : Route) (paths : List GoString) (node : Node)
    (q : GoString) (hq : q = [] ∨ q = ['/']) (hf : FindNodePath node q = none) :
    FindNodePath (insertPaths handler paths node).1 q = none := by
  induction paths generalizing node with
  | nil => simpa [insertPaths] using hf
  | cons path rest ih =>
    cases hp : FindNodePath node path with
    | some f =>
      have hne : ¬ q = path := by
        intro e; rw [e, hp] at hf; simp at hf
      have hfp := FindNodePath_path hp
      by_cases hr : rest = []
      · subst hr
        by_cases hh : f.Handler.isSome
        · rw [insertPaths_found_last_taken handler hp hh]; exact hf
        · rw [insertPaths_found_last_free handler hp hh]
          simp only
          rw [FindNodePath_replaceChild (by rw [ChangeNodeState_path, hfp]), if_neg hne]
          exact hf
      · rw [insertPaths_found_more handler hp hr]
        simp only
        rw [FindNodePath_replaceChild (by rw [(insertPaths_fields _ _ _).1, hfp]), if_neg hne]
        exact hf
    | none =>
      by_cases hr : rest = []
      · subst hr
        rw [insertPaths_new_last handler hp]
        simp only [AddNode]
        split
        · exact hf
        · rename_i hnot
          rw [FindNodePath_append, hf]
          have : ¬ (newChild handler true path).path = q := by
            rw [newChild_path]; intro e; rw [e] at hnot; exact hnot hq
          simp [this]
      · by_cases hpe : path = [] ∨ path = ['/']
        · rw [insertPaths_skip handler hp hpe hr]; exact ih node hf
        · rw [insertPaths_new_more handler hp hpe hr]
          simp only
          rw [FindNodePath_append, hf]
          have : ¬ (insertPaths handler rest (newChild handler false path)).1.path = q := by
            rw [(insertPaths_fields _ _ _).1, newChild_path]
            intro e; rw [e] at hpe; exact hpe hq
          simp [this]

/-- A route that is accepted leaves its handler on the node its walk ends on. -/
theorem insertPaths_attach (handler : Route) (paths : List GoString) (node : Node)
    (q : GoString) (hlast : paths.getLast? = some q) (hq : q ≠ [] ∧ q ≠ ['/'])
    (hok : (insertPaths handler paths node).2 = none) :
    ∃ n, walk paths (insertPaths handler paths node).1 = some n ∧
      n.Handler = some handler.h := by
  induction paths generalizing node with
  | nil => simp at hlast
  | cons path rest ih =>
    cases hp : FindNodePath node path with
    | some f =>
      have hfp := FindNodePath_path hp
      by_cases hr : rest = []
      · subst hr
        by_cases hh : f.Handler.isSome
        · rw [insertPaths_found_last_taken handler hp hh] at hok; simp at hok
        · rw [insertPaths_found_last_free handler hp hh]
          refine ⟨ChangeNodeState f handler true, ?_, by simp [ChangeNodeState]⟩
          simp only [walk]
          rw [FindNodePath_replaceChild (by rw [ChangeNodeState_path, hfp]), if_pos rfl, hp]
          rfl
      · rw [insertPaths_found_more handler hp hr] at hok ⊢
        have hlast' : rest.getLast? = some q := by
          rw [← getLast?_cons_of_ne_nil path hr]; exact hlast
        obtain ⟨n, hn1, hn2⟩ := ih f hlast' hok
        refine ⟨n, ?_, hn2⟩
        simp only [walk]
        rw [FindNodePath_replaceChild (by rw [(insertPaths_fields _ _ _).1, hfp]), if_pos rfl, hp]
        exact hn1
    | none =>
      by_cases hr : rest = []
      · subst hr
        have hpq : path = q := by simpa using hlast
        subst hpq
        have hnot : ¬ (path = [] ∨ path = ['/']) := by simp [hq.1, hq.2]
        rw [insertPaths_new_last handler hp]
        refine ⟨newChild handler true path, ?_, by simp [newChild]⟩
        simp only [AddNode, hnot, if_false, walk]
        rw [FindNodePath_append, hp]
        simp [newChild_path]
      · have hlast' : rest.getLast? = some q := by
          rw [← getLast?_cons_of_ne_nil path hr]; exact hlast
        by_cases hpe : path = [] ∨ path = ['/']
        · rw [insertPaths_skip handler hp hpe hr] at hok ⊢
          obtain ⟨n, hn1, hn2⟩ := ih node hlast' hok
          refine ⟨n, ?_, hn2⟩
          have := insertPaths_find_none handler rest node path hpe hp
          simp only [walk, this, hpe, if_true]
          exact hn1
        · rw [insertPaths_new_more handler hp hpe hr] at hok ⊢
          obtain ⟨n, hn1, hn2⟩ := ih _ hlast' hok
          refine ⟨n, ?_, hn2⟩
          simp only [walk]
          rw [FindNodePath_append, hp]
          simp only [(insertPaths_fields _ _ _).1, newChild_path, if_true]
          exact hn1

/-! ## Later insertions keep what earlier ones attached -/

theorem KeepsWalks_refl (c : Node) : KeepsWalks c c :=
  fun _ n _ hw hn => ⟨n, hw, hn⟩

/-- One level of the argument: if the node keeps its own handler, every child
found by name is replaced by one that keeps walks, and no child `""` or `"/"`
appears, then walks are kept. -/
theorem KeepsWalks_of_children (node node' : Node)
    (hH : ∀ x, node.Handler = some x → node'.Handler = some x)
    (h1 : ∀ q c, FindNodePath node q = some c →
      ∃ c', FindNodePath node' q = some c' ∧ KeepsWalks c c')
    (h2 : ∀ q, FindNodePath node q = none → (q = [] ∨ q = ['/']) →
      FindNodePath node' q = none) : KeepsWalks node node' := by
  intro ps
  induction ps with
  | nil =>
    intro n x hw hn
    simp only [walk, Option.some.injEq] at hw
    subst hw
    exact ⟨node', rfl, hH x hn⟩
  | cons q rest ih =>
    intro n x hw hn
    simp only [walk] at hw ⊢
    cases hf : FindNodePath node q with
    | some c =>
      rw [hf] at hw
      obtain ⟨c', hc1, hc2⟩ := h1 q c hf
      rw [hc1]
      exact hc2 rest n x hw hn
    | none =>
      rw [hf] at hw
      by_cases hq : q = [] ∨ q = ['/']
      · simp only [hq, if_true] at hw ⊢
        rw [h2 q hf hq]
        exact ih n x hw hn
      · simp [hq] at hw

theorem KeepsWalks_ChangeNodeState (f : Node) (handler : Route) (hh : ¬ f.Handler.isSome) :
    KeepsWalks f (ChangeNodeState f handler true) := by
  apply KeepsWalks_of_children
  · intro x hx; rw [hx] at hh; simp at hh
  · intro q c hc
    exact ⟨c, by simpa [ChangeNodeState, FindNodePath] using hc, KeepsWalks_refl c⟩
  · intro q hq _
    simpa [ChangeNodeState, FindNodePath] using hq

theorem KeepsWalks_replaceChild {node f c' : Node} {path : GoString}
    (hf : FindNodePath node path = some f) (hc : c'.path = path) (hk : KeepsWalks f c') :
    KeepsWalks node { node with children := replaceChild path c' node.children } := by
  apply KeepsWalks_of_children
  · intro x hx; exact hx
  · intro q c hq
    rw [FindNodePath_replaceChild hc]
    by_cases e : q = path
    · subst e
      rw [hf] at hq
      simp only [Option.some.injEq] at hq
      subst hq
      exact ⟨c', by simp [hf], hk⟩
    · exact ⟨c, by simp [e, hq], KeepsWalks_refl c⟩
  · intro q hq _
    rw [FindNodePath_replaceChild hc]
    have e : ¬ q = path := by intro e; rw [e, hf] at hq; simp at hq
    simp [e, hq]

theorem KeepsWalks_append {node d : Node} (hd : ¬ (d.path = [] ∨ d.path = ['/'])) :
    KeepsWalks node { node with children := node.children ++ [d] } := by
  apply KeepsWalks_of_children
  · intro x hx; exact hx
  · intro q c hq
    exact ⟨c, by rw [FindNodePath_append, hq], KeepsWalks_refl c⟩
  · intro q hq hq2
    rw [FindNodePath_append, hq]
    have : ¬ d.path = q := by intro e; rw [e] at hd; exact hd hq2
    simp [this]

/-- Whatever route is inserted next, the handlers that insertion walks reach
stay where they are. -/
theorem insertPaths_KeepsWalks (handler : Route) (paths : List GoString) (node : Node) :
    KeepsWalks node (insertPaths handler paths node).1 := by
  induction paths generalizing node with
  | nil => exact KeepsWalks_refl node
  | cons path rest ih =>
    cases hp : FindNodePath node path with
    | some f =>
      have hfp := FindNodePath_path hp
      by_cases hr : rest = []
      · subst hr
        by_cases hh : f.Handler.isSome
        · rw [insertPaths_found_last_taken handler hp hh]; exact KeepsWalks_refl node
        · rw [insertPaths_found_last_free handler hp hh]
          exact KeepsWalks_replaceChild hp (by rw [ChangeNodeState_path, hfp])
            (KeepsWalks_ChangeNodeState f handler hh)
      · rw [insertPaths_found_more handler hp hr]
        exact KeepsWalks_replaceChild hp (by rw [(insertPaths_fields _ _ _).1, hfp]) (ih f)
    | none =>
      by_cases hr : rest = []
      · subst hr
        rw [insertPaths_new_last handler hp]
        unfold AddNode
        split
        · exact KeepsWalks_refl node
        · rename_i hnot
          exact KeepsWalks_append (by rw [newChild_path]; exact hnot)
      · by_cases hpe : path = [] ∨ path = ['/']
        · rw [insertPaths_skip handler hp hpe hr]; exact ih node
        · rw [insertPaths_new_more handler hp hpe hr]
          exact KeepsWalks_append (by rw [(insertPaths_fields _ _ _).1, newChild_path]; exact hpe)

theorem KeepsWalks_trans {a b c : Node} (h1 : KeepsWalks a b) (h2 : KeepsWalks b c) :
    KeepsWalks a c := by
  intro ps n x hw hn
  obtain ⟨n', hw', hn'⟩ := h1 ps n x hw hn
  exact h2 ps n' x hw' hn'

/-! ## Later insertions keep the lookups that succeed -/

theorem searchChildren_matches {seg : GoString} {cs : List Node} {ps : Params} {x : Node}
    {p : Params} (h : searchChildren seg cs ps = some (x, p)) :
    x.path = seg ∨ HasPrefix x.path [':'] = true := by
  induction cs with
  | nil => simp [searchChildren] at h
  | cons d ds ih =>
    unfold searchChildren at h
    split at h
    · rename_i hd
      simp only [Option.some.injEq, Prod.mk.injEq] at h
      rw [← h.1]; exact Or.inl hd
    · split at h
      · rename_i hd
        simp only [Option.some.injEq, Prod.mk.injEq] at h
        rw [← h.1]; exact Or.inr hd
      · exact ih h

/-- The child a lookup descends into, when it has the name `path`, is the one
`FindNodePath` returns for `path`. -/
theorem searchChildren_find {seg path : GoString} {cs : List Node} {ps : Params} {x : Node}
    {p : Params} (h : searchChildren seg cs ps = some (x, p)) (hx : x.path = path) :
    cs.find? (fun node => node.path == path) = some x := by
  induction cs with
  | nil => simp [searchChildren] at h
  | cons d ds ih =>
    unfold searchChildren at h
    split at h
    · simp only [Option.some.injEq, Prod.mk.injEq] at h
      rw [← h.1] at hx ⊢
      exact find_cons_pos ds hx
    · split at h
      · simp only [Option.some.injEq, Prod.mk.injEq] at h
        rw [← h.1] at hx ⊢
        exact find_cons_pos ds hx
      · rename_i h1 h2
        have hd : ¬ d.path = path := by
          intro e
          rcases searchChildren_matches h with hm | hm
          · exact h1 (by rw [e, ← hx, hm])
          · exact h2 (by rw [e, ← hx]; exact hm)
        rw [find_cons_neg ds hd]
        exact ih h

theorem searchChildren_replaceChild {path : GoString} {c' : Node} (hc : c'.path = path)
    (seg : GoString) (cs : List Node) (ps : Params) :
    searchChildren seg (replaceChild path c' cs) ps =
      (searchChildren seg cs ps).map (fun r => (if r.1.path = path then c' else r.1, r.2)) := by
  induction cs with
  | nil => simp [replaceChild, searchChildren]
  | cons d ds ih =>
    by_cases hd : d.path = path
    · simp only [replaceChild, hd, if_true]
      unfold searchChildren
      rw [hc, hd]
      split
      · simp [hd]
      · split
        · simp [hd]
        · rename_i h1 h2
          cases hs : searchChildren seg ds ps with
          | none => simp
          | some r =>
            obtain ⟨x, p⟩ := r
            have hx : ¬ x.path = path := by
              intro e
              rcases searchChildren_matches hs with hm | hm
              · exact h1 (by rw [← e, hm])
              · exact h2 (by rw [← e]; exact hm)
            simp [hx]
    · simp only [replaceChild, hd, if_false]
      unfold searchChildren
      split
      · simp [hd]
      · split
        · simp [hd]
        · exact ih

theorem searchChildren_append {seg : GoString} {cs : List Node} {ps : Params}
    {r : Node × Params} (h : searchChildren seg cs ps = some r) (d : Node) :
    searchChildren seg (cs ++ [d]) ps = some r := by
  induction cs with
  | nil => simp [searchChildren] at h
  | cons e es ih =>
    simp only [List.cons_append]
    unfold searchChildren at h ⊢
    by_cases h1 : e.path = seg
    · simp only [h1, if_true] at h ⊢
      exact h
    · simp only [h1, if_false] at h ⊢
      by_cases h2 : HasPrefix e.path [':'] = true
      · simp only [h2, if_true] at h ⊢
        exact h
      · simp only [h2] at h ⊢
        exact ih h

theorem KeepsLookups_refl (c : Node) : KeepsLookups c c := fun _ _ _ _ => rfl

theorem KeepsLookups_of_children (node node' : Node)
    (hH : ∀ g, node.Handler = some g →
      node'.Handler = node.Handler ∧ node'.CtxHandler = node.CtxHandler)
    (h1 : ∀ seg ps x p, searchChildren seg node.children ps = some (x, p) →
      ∃ x', searchChildren seg node'.children ps = some (x', p) ∧ KeepsLookups x x') :
    KeepsLookups node node' := by
  intro segs
  induction segs with
  | nil =>
    intro params g hg
    simp only [searchSegments] at hg ⊢
    obtain ⟨e1, e2⟩ := hH g hg
    rw [e1, e2]
  | cons seg rest ih =>
    intro params g hg
    simp only [searchSegments] at hg ⊢
    by_cases hs : seg = []
    · simp only [hs, if_true] at hg ⊢
      exact ih params g hg
    · simp only [hs, if_false] at hg ⊢
      cases hc : searchChildren seg node.children params with
      | none => rw [hc] at hg; simp at hg
      | some r =>
        obtain ⟨x, p⟩ := r
        rw [hc] at hg
        obtain ⟨x', hx1, hx2⟩ := h1 seg params x p hc
        rw [hx1]
        exact hx2 rest p g hg

theorem KeepsLookups_ChangeNodeState (f : Node) (handler : Route) (hh : ¬ f.Handler.isSome) :
    KeepsLookups f (ChangeNodeState f handler true) := by
  apply KeepsLookups_of_children
  · intro g hg; rw [hg] at hh; simp at hh
  · intro seg ps x p hx
    exact ⟨x, by simpa [ChangeNodeState] using hx, KeepsLookups_refl x⟩

theorem KeepsLookups_replaceChild {node f c' : Node} {path : GoString}
    (hf : FindNodePath node path = some f) (hc : c'.path = path) (hk : KeepsLookups f c') :
    KeepsLookups node { node with children := replaceChild path c' node.children } := by
  apply KeepsLookups_of_children
  · intro g _; exact ⟨rfl, rfl⟩
  · intro seg ps x p hx
    simp only
    rw [searchChildren_replaceChild hc, hx]
    by_cases e : x.path = path
    · have := searchChildren_find hx e
      simp only [FindNodePath] at hf
      rw [hf] at this
      simp only [Option.some.injEq] at this
      subst this
      exact ⟨c', by simp [e], hk⟩
    · exact ⟨x, by simp [e], KeepsLookups_refl x⟩

theorem KeepsLookups_append (node d : Node) :
    KeepsLookups node { node with children := node.children ++ [d] } := by
  apply KeepsLookups_of_children
  · intro g _; exact ⟨rfl, rfl⟩
  · intro seg ps x p hx
    exact ⟨x, searchChildren_append hx d, KeepsLookups_refl x⟩

/-- Whatever route is inserted next, a lookup that found a handler finds the
same handler and the same parameters. -/
theorem insertPaths_KeepsLookups (handler : Route) (paths : List GoString) (node : Node) :
    KeepsLookups node (insertPaths handler paths node).1 := by
  induction paths generalizing node with
  | nil => exact KeepsLookups_refl node
  | cons path rest ih =>
    cases hp : FindNodePath node path with
    | some f =>
      have hfp := FindNodePath_path hp
      by_cases hr : rest = []
      · subst hr
        by_cases hh : f.Handler.isSome
        · rw [insertPaths_found_last_taken handler hp hh]; exact KeepsLookups_refl node
        · rw [insertPaths_found_last_free handler hp hh]
          exact KeepsLookups_replaceChild hp (by rw [ChangeNodeState_path, hfp])
            (KeepsLookups_ChangeNodeState f handler hh)
      · rw [insertPaths_found_more handler hp hr]
        exact KeepsLookups_replaceChild hp (by rw [(insertPaths_fields _ _ _).1, hfp]) (ih f)
    | none =>
      by_cases hr : rest = []
      · subst hr
        rw [insertPaths_new_last handler hp]
        unfold AddNode
        split
        · exact KeepsLookups_refl node
        · exact KeepsLookups_append node _
      · by_cases hpe : path = [] ∨ path = ['/']
        · rw [insertPaths_skip handler hp hpe hr]; exact ih node
        · rw [insertPaths_new_more handler hp hpe hr]
          exact KeepsLookups_append node _

theorem KeepsLookups_trans {a b c : Node} (h1 : KeepsLookups a b) (h2 : KeepsLookups b c) :
    KeepsLookups a c := by
  intro segs params g hg
  have e := h1 segs params g hg
  rw [h2 segs params g (by rw [e]; exact hg), e]

/-! ## `createTreeIdea` and `buildRoutes` in terms of the insertion loop -/

theorem Tree_eta (t : Tree) : ({ method := t.method, startNode := t.startNode } : Tree) = t := by
  cases t; rfl

theorem routePaths_ne_root {p : GoString} (h : EndsInSegment p) : ¬ (p = [] ∨ p = ['/']) := by
  obtain ⟨q, h1, h2, _⟩ := h
  rintro (e | e)
  · subst e
    have : routePaths [] = [[]] := by decide
    rw [this] at h1
    simp at h1
    exact h2 h1
  · subst e
    have : routePaths ['/'] = [[], []] := by decide
    rw [this] at h1
    simp at h1
    exact h2 h1

/-- Away from the root path, `createTreeIdea` is the insertion loop run on the
segment list of the path, from the root of the tree. -/
theorem createTreeIdea_eq (handler : Route) (t : Option Tree) (m : Method)
    (h : ¬ (handler.path = [] ∨ handler.path = ['/'])) :
    createTreeIdea handler t m =
      ({ orFresh t m with startNode :=
          (insertPaths handler (routePaths handler.path) (orFresh t m).startNode).1 },
        (insertPaths handler (routePaths handler.path) (orFresh t m).startNode).2) := by
  have e : (match t with | none => (⟨m, freshRoot⟩ : Tree) | some t => t) = orFresh t m := rfl
  unfold createTreeIdea routePaths
  simp only [e, h, if_false]
  by_cases hl : 2 ≤ (Split handler.path).length
  · simp only [hl, if_true]
  · simp only [hl, if_false]
    cases hf : FindNodePath (orFresh t m).startNode handler.path with
    | some f =>
      by_cases hh : f.Handler.isSome
      · rw [insertPaths_found_last_taken handler hf hh]
        simp [hh, Tree_eta]
      · rw [insertPaths_found_last_free handler hf hh]
        simp [hh]
    | none =>
      rw [insertPaths_new_last handler hf]

theorem createTreeIdea_root (handler : Route) (t : Option Tree) (m : Method)
    (h : handler.path = [] ∨ handler.path = ['/']) :
    createTreeIdea handler t m =
      (orFresh t m, if (orFresh t m).startNode.Handler.isSome then some handler.path else none) := by
  have e : (match t with | none => (⟨m, freshRoot⟩ : Tree) | some t => t) = orFresh t m := rfl
  unfold createTreeIdea
  simp only [e, h, if_true]
  split <;> rfl

theorem createTreeIdea_KeepsLookups (handler : Route) (t : Option Tree) (m : Method) :
    KeepsLookups (orFresh t m).startNode (createTreeIdea handler t m).1.startNode := by
  by_cases h : handler.path = [] ∨ handler.path = ['/']
  · rw [createTreeIdea_root handler t m h]; exact KeepsLookups_refl _
  · rw [createTreeIdea_eq handler t m h]; exact insertPaths_KeepsLookups _ _ _

theorem createTreeIdea_KeepsWalks (handler : Route) (t : Option Tree) (m : Method) :
    KeepsWalks (orFresh t m).startNode (createTreeIdea handler t m).1.startNode := by
  by_cases h : handler.path = [] ∨ handler.path = ['/']
  · rw [createTreeIdea_root handler t m h]; exact KeepsWalks_refl _
  · rw [createTreeIdea_eq handler t m h]; exact insertPaths_KeepsWalks _ _ _

theorem createTreeIdea_attach (handler : Route) (t : Option Tree) (m : Method)
    (hend : EndsInSegment handler.path) (hok : (createTreeIdea handler t m).2 = none) :
    ∃ n, walk (routePaths handler.path) (createTreeIdea handler t m).1.startNode = some n ∧
      n.Handler = some handler.h := by
  obtain ⟨q, h1, h2, h3⟩ := hend
  have hroot := routePaths_ne_root ⟨q, h1, h2, h3⟩
  rw [createTreeIdea_eq handler t m hroot] at hok ⊢
  exact insertPaths_attach handler _ _ q h1 ⟨h2, h3⟩ hok

theorem createTreeIdea_reject (handler : Route) (t : Tree) (m : Method) (n : Node)
    (hend : EndsInSegment handler.path)
    (hw : walk (routePaths handler.path) t.startNode = some n) (hn : n.Handler.isSome) :
    createTreeIdea handler (some t) m = (t, some handler.path) := by
  obtain ⟨q, h1, h2, h3⟩ := hend
  have hroot := routePaths_ne_root ⟨q, h1, h2, h3⟩
  rw [createTreeIdea_eq handler (some t) m hroot]
  have e : orFresh (some t) m = t := rfl
  rw [e, insertPaths_reject handler _ t.startNode n q h1 ⟨h2, h3⟩ hw hn]

theorem buildRoutes_append (m : Method) (a b : List Route) (t : Option Tree) :
    buildRoutes m (a ++ b) t = buildRoutes m b (buildRoutes m a t) := by
  induction a generalizing t with
  | nil => rfl
  | cons r rest ih =>
    simp only [List.cons_append, buildRoutes]
    split <;> exact ih _

/-- From an existing tree the loop of `buildTrees` always ends with a tree, and
that tree keeps the walks and the lookups of the one it started from. -/
theorem buildRoutes_some (m : Method) (routes : List Route) (t : Tree) :
    ∃ t', buildRoutes m routes (some t) = some t' ∧
      KeepsWalks t.startNode t'.startNode ∧ KeepsLookups t.startNode t'.startNode := by
  induction routes generalizing t with
  | nil => exact ⟨t, rfl, KeepsWalks_refl _, KeepsLookups_refl _⟩
  | cons r rest ih =>
    obtain ⟨t', h1, h2, h3⟩ := ih (createTreeIdea r (some t) m).1
    refine ⟨t', ?_, ?_, ?_⟩
    · simp only [buildRoutes]
      split <;> simpa using h1
    · exact KeepsWalks_trans (createTreeIdea_KeepsWalks r (some t) m) h2
    · exact KeepsLookups_trans (createTreeIdea_KeepsLookups r (some t) m) h3

/-! ## C1: duplicate routes -/

theorem KeepsLookups_InDepthSearch {a b : Node} (h : KeepsLookups a b) (p : GoString)
    (g : HandlerFunc) (hg : (InDepthSearch a p).1 = some g) :
    InDepthSearch b p = InDepthSearch a p :=
  h _ _ g hg

/-- C1, as stated, fails.  With `/:a` registered first, the second `/x` is
rejected but a lookup of `/x` returns the handler of `/:a` (1), not the
handler first registered for `/x` (2).  With the pattern `/a ` (a trailing
blank) registered twice and nothing else, the second registration is
rejected but a lookup of `/a ` finds no handler at all. -/
theorem duplicate_route_lookup_counterexample :
    (∃ t, buildRoutes GET [⟨1, 1, "/:a".toList⟩, ⟨2, 2, "/x".toList⟩] none = some t ∧
      createTreeIdea ⟨3, 3, "/x".toList⟩ (some t) GET = (t, some "/x".toList) ∧
      (InDepthSearch t.startNode "/x".toList).1 = some 1 ∧
      (InDepthSearch t.startNode "/x".toList).1 ≠ some 2) ∧
    (∃ t, buildRoutes GET [⟨1, 1, "/a ".toList⟩] none = some t ∧
      createTreeIdea ⟨2, 2, "/a ".toList⟩ (some t) GET = (t, some "/a ".toList) ∧
      InDepthSearch t.startNode "/a ".toList = (none, none, none) ∧
      (InDepthSearch t.startNode "/a ".toList).1 ≠ some 1) := by
  refine ⟨⟨_, rfl, rfl, ?_, ?_⟩, ⟨_, rfl, rfl, ?_, ?_⟩⟩
  · decide
  · decide
  · decide
  · decide

/-- C1 (amended).  Let the routes of a method be `pre`, then `r1`, then `mid`,
then `r2`, then `post`, where `r2` has the path of `r1`, a path whose last
segment is a real one (not the root path, no trailing slash).  If the
registration of `r1` is accepted and a lookup of the path right after it
returns the handler of `r1`, then `createTreeIdea` rejects `r2` with an error
that carries the path and leaves the tree as it was, and a lookup of the path
on the tree `buildTrees` returns still yields the handler of `r1`. -/
theorem duplicate_route_rejected (r : Mux) (m : Method) (hm : m ≤ OPTIONS)
    (pre mid post : List Route) (r1 r2 : Route)
    (hreg : r.handlers m = some (pre ++ r1 :: mid ++ r2 :: post))
    (hpath : r2.path = r1.path) (hend : EndsInSegment r1.path)
    (hok : (createTreeIdea r1 (buildRoutes m pre none) m).2 = none)
    (hlook : (InDepthSearch (createTreeIdea r1 (buildRoutes m pre none) m).1.startNode
      r1.path).1 = some r1.h) :
    ∃ t, buildRoutes m (pre ++ r1 :: mid) none = some t ∧
      createTreeIdea r2 (some t) m = (t, some r2.path) ∧
      ∃ t', buildTrees r m = some t' ∧ (InDepthSearch t'.startNode r1.path).1 = some r1.h := by
  obtain ⟨t, ht, hkw, hkl⟩ :=
    buildRoutes_some m mid (createTreeIdea r1 (buildRoutes m pre none) m).1
  have hstep : buildRoutes m (pre ++ r1 :: mid) none = some t := by
    rw [buildRoutes_append]
    simp only [buildRoutes, hok]
    exact ht
  obtain ⟨n, hn1, hn2⟩ := createTreeIdea_attach r1 (buildRoutes m pre none) m hend hok
  obtain ⟨n', hn1', hn2'⟩ := hkw _ n r1.h hn1 hn2
  have hrej : createTreeIdea r2 (some t) m = (t, some r2.path) :=
    createTreeIdea_reject r2 t m n' (by rw [hpath]; exact hend) (by rw [hpath]; exact hn1')
      (by rw [hn2']; rfl)
  refine ⟨t, hstep, hrej, ?_⟩
  obtain ⟨t', ht', _, hkl'⟩ := buildRoutes_some m post t
  refine ⟨t', ?_, ?_⟩
  · unfold buildTrees
    simp only [hm, if_true, hreg]
    rw [buildRoutes_append, hstep]
    simp only [buildRoutes, hrej, Option.map_some']
    exact ht'
  · rw [KeepsLookups_InDepthSearch (KeepsLookups_trans hkl hkl') r1.path r1.h hlook]
    exact hlook

/-- C1, witness: `/users`, `/users/:id`, `/users` registered under GET. -/
theorem duplicate_route_rejected_witness :
    ∃ t, buildRoutes GET ([] ++ (⟨1, 1, "/users".toList⟩ : Route) ::
        [⟨2, 2, "/users/:id".toList⟩]) none = some t ∧
      createTreeIdea ⟨3, 3, "/users".toList⟩ (some t) GET = (t, some "/users".toList) ∧
      ∃ t', buildTrees
          ⟨fun m => if m = GET then some ([] ++ (⟨1, 1, "/users".toList⟩ : Route) ::
            [⟨2, 2, "/users/:id".toList⟩] ++ ⟨3, 3, "/users".toList⟩ :: []) else none,
            [], false, none⟩ GET = some t' ∧
        (InDepthSearch t'.startNode "/users".toList).1 = some 1 :=
  duplicate_route_rejected _ GET (by decide) [] [⟨2, 2, "/users/:id".toList⟩] []
    ⟨1, 1, "/users".toList⟩ ⟨3, 3, "/users".toList⟩ rfl rfl
    ⟨"users".toList, by decide, by decide, by decide⟩ (by decide) (by decide)

/-! ## C2: a path and its parameter extension -/

theorem not_mem_rdropWhile {n : GoString} (h : '/' ∉ n) : '/' ∉ n.rdropWhile isSpace :=
  fun e => h ((List.rdropWhile_prefix isSpace n).subset e)

theorem TrimSpace_colon (n : GoString) :
    TrimSpace (':' :: n) = ':' :: n.rdropWhile isSpace := by
  unfold TrimSpace
  rw [List.dropWhile_cons_of_neg (by simp [isSpace_colon])]
  exact rdropWhile_append_cons isSpace_colon [] n

/-- The segment list of `/s/:n`: the name may lose white space, the colon
stays. -/
theorem routePaths_param {s : GoString} (hs : IsSegment s) {n : GoString} (hn : '/' ∉ n) :
    ∃ n', routePaths (joinPath [s, ':' :: n]) = [[], s, ':' :: n'] := by
  obtain ⟨_, hsl, htr⟩ := hs
  have hcn : '/' ∉ ':' :: n := by
    intro e
    rcases List.mem_cons.mp e with e | e
    · exact absurd e (by decide)
    · exact hn e
  have hn' := not_mem_rdropWhile hn
  have hcn' : '/' ∉ ':' :: n.rdropWhile isSpace := by
    intro e
    rcases List.mem_cons.mp e with e | e
    · exact absurd e (by decide)
    · exact hn' e
  have h1 : Split (joinPath [s, ':' :: n]) = [[], s, ':' :: n] :=
    Split_joinPath s [':' :: n] (by
      intro x hx
      simp only [List.mem_cons, List.mem_singleton, List.not_mem_nil, or_false] at hx
      rcases hx with e | e
      · rw [e]; exact hsl
      · rw [e]; exact hcn)
  have h2 : TrimSpace (joinPath [s, ':' :: n]) = joinPath [s, ':' :: n.rdropWhile isSpace] := by
    unfold TrimSpace
    have e : joinPath [s, ':' :: n] = ('/' :: (s ++ ['/'])) ++ ':' :: n := by
      simp [joinPath]
    have e' : joinPath [s, ':' :: n.rdropWhile isSpace] =
        ('/' :: (s ++ ['/'])) ++ ':' :: n.rdropWhile isSpace := by
      simp [joinPath]
    rw [e', e]
    have hd : (('/' :: (s ++ ['/'])) ++ ':' :: n).dropWhile isSpace =
        ('/' :: (s ++ ['/'])) ++ ':' :: n := by
      rw [List.cons_append, List.dropWhile_cons_of_neg (by simp [isSpace_slash])]
    rw [hd]
    exact rdropWhile_append_cons isSpace_colon _ n
  have h3 : Split (joinPath [s, ':' :: n.rdropWhile isSpace]) =
      [[], s, ':' :: n.rdropWhile isSpace] :=
    Split_joinPath s [':' :: n.rdropWhile isSpace] (by
      intro x hx
      simp only [List.mem_cons, List.mem_singleton, List.not_mem_nil, or_false] at hx
      rcases hx with e | e
      · rw [e]; exact hsl
      · rw [e]; exact hcn')
  refine ⟨(n.rdropWhile isSpace).rdropWhile isSpace, ?_⟩
  unfold routePaths
  rw [h1, h2, h3]
  simp [TrimSpace_nil, htr, TrimSpace_colon]

theorem InDepthSearch_joinPath (node : Node) (r : GoString) (reqs : List GoString)
    (h : ∀ x ∈ r :: reqs, '/' ∉ x) :
    InDepthSearch node (joinPath (r :: reqs)) = searchSegments (r :: reqs) node [] := by
  have hr : '/' ∉ r := h r (by simp)
  have hrest : ∀ y ∈ reqs, '/' ∉ y := fun y hy => h y (by simp [hy])
  unfold InDepthSearch
  simp [joinPath, TrimPrefix, HasPrefix, Split_append_joinPath hr reqs hrest]

theorem segment_ne {s : GoString} (hs : IsSegment s) : s ≠ [] ∧ s ≠ ['/'] := by
  refine ⟨hs.1, ?_⟩
  intro e
  exact hs.2.1 (by rw [e]; simp)

/-- C2, as stated, fails for a static segment with a trailing blank: `/a ` and
`/a /:n` are both accepted, but the lookup of `/a ` finds nothing, because the
pattern is trimmed when it is registered and the request is not. -/
theorem prefix_coexistence_counterexample :
    (createTreeIdea ⟨1, 1, "/a ".toList⟩ none GET).2 = none ∧
    (createTreeIdea ⟨2, 2, "/a /:n".toList⟩
      (some (createTreeIdea ⟨1, 1, "/a ".toList⟩ none GET).1) GET).2 = none ∧
    ∃ t, buildRoutes GET [⟨1, 1, "/a ".toList⟩, ⟨2, 2, "/a /:n".toList⟩] none = some t ∧
      InDepthSearch t.startNode "/a ".toList = (none, none, none) ∧
      (InDepthSearch t.startNode "/a ".toList).1 ≠ some 1 := by
  refine ⟨by decide, by decide, _, rfl, by decide, by decide⟩

theorem prefix_first (m : Method) (s n' : GoString) (h1 c1 h2 c2 : Nat) (p1 p2 : GoString)
    (hs : s ≠ [] ∧ s ≠ ['/']) (hp1 : ¬ (p1 = [] ∨ p1 = ['/'])) (hp2 : ¬ (p2 = [] ∨ p2 = ['/']))
    (e1 : routePaths p1 = [[], s]) (e2 : routePaths p2 = [[], s, ':' :: n']) :
    createTreeIdea ⟨h1, c1, p1⟩ none m =
      (⟨m, ⟨['/'], [⟨s, [], some h1, some c1⟩], none, none⟩⟩, none) ∧
    createTreeIdea ⟨h2, c2, p2⟩
      (some ⟨m, ⟨['/'], [⟨s, [], some h1, some c1⟩], none, none⟩⟩) m =
      (⟨m, ⟨['/'], [⟨s, [⟨':' :: n', [], some h2, some c2⟩], some h1, some c1⟩], none, none⟩⟩,
        none) := by
  constructor
  · rw [createTreeIdea_eq _ _ _ hp1]
    simp [e1, orFresh, freshRoot, insertPaths, FindNodePath, AddNode, newChild, hs.1, hs.2]
  · rw [createTreeIdea_eq _ _ _ hp2]
    simp [e2, orFresh, insertPaths, FindNodePath, AddNode, newChild, hs.1, hs.2, replaceChild]

theorem prefix_second (m : Method) (s n' : GoString) (h1 c1 h2 c2 : Nat) (p1 p2 : GoString)
    (hs : s ≠ [] ∧ s ≠ ['/']) (hp1 : ¬ (p1 = [] ∨ p1 = ['/'])) (hp2 : ¬ (p2 = [] ∨ p2 = ['/']))
    (e1 : routePaths p1 = [[], s]) (e2 : routePaths p2 = [[], s, ':' :: n']) :
    createTreeIdea ⟨h2, c2, p2⟩ none m =
      (⟨m, ⟨['/'], [⟨s, [⟨':' :: n', [], some h2, some c2⟩], none, none⟩], none, none⟩⟩,
        none) ∧
    createTreeIdea ⟨h1, c1, p1⟩
      (some ⟨m, ⟨['/'], [⟨s, [⟨':' :: n', [], some h2, some c2⟩], none, none⟩], none, none⟩⟩) m =
      (⟨m, ⟨['/'], [⟨s, [⟨':' :: n', [], some h2, some c2⟩], some h1, none⟩], none, none⟩⟩,
        none) := by
  constructor
  · rw [createTreeIdea_eq _ _ _ hp2]
    simp [e2, orFresh, freshRoot, insertPaths, FindNodePath, AddNode, newChild, hs.1, hs.2]
  · rw [createTreeIdea_eq _ _ _ hp1]
    simp [e1, orFresh, insertPaths, FindNodePath, ChangeNodeState, hs.1, hs.2, replaceChild]

theorem prefix_lookups (s n' : GoString) (h1 h2 : Nat) (x y z : Option Nat)
    (hs : IsSegment s) :
    (InDepthSearch ⟨['/'], [⟨s, [⟨':' :: n', [], some h2, x⟩], some h1, y⟩], none, z⟩
      (joinPath [s])).1 = some h1 ∧
    ∀ v, v ≠ [] → '/' ∉ v →
      (InDepthSearch ⟨['/'], [⟨s, [⟨':' :: n', [], some h2, x⟩], some h1, y⟩], none, z⟩
        (joinPath [s, v])).1 = some h2 := by
  constructor
  · rw [InDepthSearch_joinPath _ s [] (by simp [hs.2.1])]
    simp [searchSegments, searchChildren, hs.1]
  · intro v hv hsl
    rw [InDepthSearch_joinPath _ s [v] (by simp [hs.2.1, hsl])]
    by_cases e : ':' :: n' = v
    · simp [searchSegments, searchChildren, hs.1, hv, e]
    · simp [searchSegments, searchChildren, hs.1, hv, e, HasPrefix]

/-- C2 (amended).  For every segment `s` that is not empty, holds no slash and
has no white space at either end, and every parameter name `n` without slash:
registering `/s` and `/s/:n` under one method, in either order, is accepted
both times; on the tree `buildRoutes` ends with, `InDepthSearch("/s")`
returns the handler of `/s`, and `InDepthSearch("/s/v")` returns the handler
of `/s/:n` for every non-empty segment `v`. -/
theorem prefix_coexistence (m : Method) (s n : GoString) (h1 c1 h2 c2 : Nat)
    (hs : IsSegment s) (hn : '/' ∉ n) :
    ((createTreeIdea ⟨h1, c1, joinPath [s]⟩ none m).2 = none ∧
      (createTreeIdea ⟨h2, c2, joinPath [s, ':' :: n]⟩
        (some (createTreeIdea ⟨h1, c1, joinPath [s]⟩ none m).1) m).2 = none ∧
      ∃ t, buildRoutes m [⟨h1, c1, joinPath [s]⟩, ⟨h2, c2, joinPath [s, ':' :: n]⟩] none
          = some t ∧
        (InDepthSearch t.startNode (joinPath [s])).1 = some h1 ∧
        ∀ v, v ≠ [] → '/' ∉ v → (InDepthSearch t.startNode (joinPath [s, v])).1 = some h2) ∧
    ((createTreeIdea ⟨h2, c2, joinPath [s, ':' :: n]⟩ none m).2 = none ∧
      (createTreeIdea ⟨h1, c1, joinPath [s]⟩
        (some (createTreeIdea ⟨h2, c2, joinPath [s, ':' :: n]⟩ none m).1) m).2 = none ∧
      ∃ t, buildRoutes m [⟨h2, c2, joinPath [s, ':' :: n]⟩, ⟨h1, c1, joinPath [s]⟩] none
          = some t ∧
        (InDepthSearch t.startNode (joinPath [s])).1 = some h1 ∧
        ∀ v, v ≠ [] → '/' ∉ v → (InDepthSearch t.startNode (joinPath [s, v])).1 = some h2) := by
  obtain ⟨n', e2⟩ := routePaths_param hs hn
  have e1 : routePaths (joinPath [s]) = [[], s] :=
    routePaths_joinPath s [] (by simpa using hs)
  have hne := segment_ne hs
  have hp1 : ¬ (joinPath [s] = [] ∨ joinPath [s] = ['/']) := by
    simp [joinPath, hs.1]
  have hp2 : ¬ (joinPath [s, ':' :: n] = [] ∨ joinPath [s, ':' :: n] = ['/']) := by
    simp [joinPath, hs.1]
  obtain ⟨a1, a2⟩ := prefix_first m s n' h1 c1 h2 c2 _ _ hne hp1 hp2 e1 e2
  obtain ⟨b1, b2⟩ := prefix_second m s n' h1 c1 h2 c2 _ _ hne hp1 hp2 e1 e2
  have hA : buildRoutes m [⟨h1, c1, joinPath [s]⟩, ⟨h2, c2, joinPath [s, ':' :: n]⟩] none =
      some ⟨m, ⟨['/'], [⟨s, [⟨':' :: n', [], some h2, some c2⟩], some h1, some c1⟩],
        none, none⟩⟩ := by
    simp only [buildRoutes, a1, a2]
  have hB : buildRoutes m [⟨h2, c2, joinPath [s, ':' :: n]⟩, ⟨h1, c1, joinPath [s]⟩] none =
      some ⟨m, ⟨['/'], [⟨s, [⟨':' :: n', [], some h2, some c2⟩], some h1, none⟩],
        none, none⟩⟩ := by
    simp only [buildRoutes, b1, b2]
  exact ⟨⟨by rw [a1], by rw [a1, a2], _, hA, prefix_lookups s n' h1 h2 _ _ _ hs⟩,
    ⟨by rw [b1], by rw [b1, b2], _, hB, prefix_lookups s n' h1 h2 _ _ _ hs⟩⟩

/-- C2, witness: `/users` and `/users/:id`. -/
theorem prefix_coexistence_witness :
    (InDepthSearch (createTreeIdea ⟨2, 2, "/users/:id".toList⟩
      (some (createTreeIdea ⟨1, 1, "/users".toList⟩ none GET).1) GET).1.startNode
        "/users/42".toList).1 = some 2 := by
  obtain ⟨⟨_, _, t, ht, _, h⟩, _⟩ :=
    prefix_coexistence GET "users".toList "id".toList 1 1 2 2
      ⟨by decide, by decide, by decide⟩ (by decide)
  have e : t = (createTreeIdea ⟨2, 2, "/users/:id".toList⟩
      (some (createTreeIdea ⟨1, 1, "/users".toList⟩ none GET).1) GET).1 := by
    have : buildRoutes GET [⟨1, 1, joinPath ["users".toList]⟩,
        ⟨2, 2, joinPath ["users".toList, ':' :: "id".toList]⟩] none =
        some (createTreeIdea ⟨2, 2, "/users/:id".toList⟩
          (some (createTreeIdea ⟨1, 1, "/users".toList⟩ none GET).1) GET).1 := rfl
    rw [this] at ht
    exact (Option.some.inj ht).symm
  rw [← e]
  exact h "42".toList (by decide) (by decide)

/-! ## C3: one pattern, one request -/

theorem chainNode_path (handler : Route) (s : GoString) (segs : List GoString) :
    (chainNode handler s segs).path = s := by
  cases segs <;> rfl

/-- Inserting real segments below a node without children builds a chain. -/
theorem insertPaths_chain (handler : Route) (s : GoString) (segs : List GoString)
    (h : ∀ x ∈ s :: segs, x ≠ [] ∧ x ≠ ['/']) (p : GoString) (hh cc : Option Nat) :
    insertPaths handler (s :: segs) ⟨p, [], hh, cc⟩ =
      (⟨p, [chainNode handler s segs], hh, cc⟩, none) := by
  induction segs generalizing s p hh cc with
  | nil =>
    have hs := h s (by simp)
    rw [insertPaths_new_last handler (by simp [FindNodePath])]
    simp [AddNode, hs.1, hs.2, newChild, chainNode]
  | cons s' rest ih =>
    have hs := h s (by simp)
    have hnot : ¬ (s = [] ∨ s = ['/']) := by simp [hs.1, hs.2]
    rw [insertPaths_new_more handler (by simp [FindNodePath]) hnot (by simp)]
    have := ih s' (fun x hx => h x (by simp [hx])) s none none
    simp only [newChild] at this ⊢
    simp [this, chainNode]

theorem createTreeIdea_single (handler : Route) (m : Method) (s : GoString)
    (segs : List GoString) (h : ∀ x ∈ s :: segs, IsSegment x)
    (hp : handler.path = joinPath (s :: segs)) :
    createTreeIdea handler none m =
      (⟨m, ⟨['/'], [chainNode handler s segs], none, none⟩⟩, none) := by
  have hroot : ¬ (handler.path = [] ∨ handler.path = ['/']) := by
    rw [hp]; simp [joinPath, (h s (by simp)).1]
  rw [createTreeIdea_eq _ _ _ hroot, hp, routePaths_joinPath s segs h]
  have e : (orFresh none m).startNode = ⟨['/'], [], none, none⟩ := rfl
  rw [e, insertPaths_skip handler (by simp [FindNodePath]) (Or.inl rfl) (by simp),
    insertPaths_chain handler s segs (fun x hx => segment_ne (h x hx))]
  rfl

theorem Params.set_of_not_mem (params : Params) (k v : GoString)
    (h : k ∉ params.map Prod.fst) : params.set k v = params ++ [(k, v)] := by
  induction params with
  | nil => rfl
  | cons kv rest ih =>
    obtain ⟨k', v'⟩ := kv
    have hk : ¬ k' = k := fun e => h (by simp [e])
    have hr : k ∉ rest.map Prod.fst := fun e => h (by simp [e])
    simp [Params.set, hk, ih hr]

theorem Params.setAll_of_nodup (params kvs : Params) (hn : (kvs.map Prod.fst).Nodup)
    (hd : ∀ k ∈ kvs.map Prod.fst, k ∉ params.map Prod.fst) :
    params.setAll kvs = params ++ kvs := by
  induction kvs generalizing params with
  | nil => simp [Params.setAll]
  | cons kv rest ih =>
    obtain ⟨k, v⟩ := kv
    simp only [List.map_cons, List.nodup_cons] at hn
    have hk : k ∉ params.map Prod.fst := hd k (by simp)
    have := ih (params ++ [(k, v)]) hn.2 (by
      intro k' hk'
      simp only [List.map_append, List.map_cons, List.map_nil, List.mem_append,
        List.mem_singleton, not_or]
      refine ⟨hd k' (by simp [hk']), ?_⟩
      intro e
      rw [e] at hk'
      exact hn.1 hk')
    simp only [Params.setAll, List.foldl_cons] at this ⊢
    rw [Params.set_of_not_mem params k v hk, this]
    simp

theorem paramNames_cons (s : GoString) (segs : List GoString) :
    paramNames (s :: segs) =
      if HasPrefix s [':'] then TrimPrefix s [':'] :: paramNames segs else paramNames segs := by
  simp only [paramNames, List.filter_cons]
  split <;> simp

theorem captures_cons (s r : GoString) (segs reqs : List GoString) :
    captures (s :: segs) (r :: reqs) =
      if HasPrefix s [':'] then (TrimPrefix s [':'], r) :: captures segs reqs
      else captures segs reqs := rfl

theorem captures_keys (segs reqs : List GoString) (h : List.Forall₂ Fits segs reqs) :
    (captures segs reqs).map Prod.fst = paramNames segs := by
  induction h with
  | nil => rfl
  | cons hsr _ ih =>
    rw [captures_cons, paramNames_cons]
    split
    · simp [ih]
    · exact ih

theorem searchSegments_step {r : GoString} {reqs : List GoString} {node child : Node}
    {ps ps' : Params} (hr : r ≠ [])
    (h : searchChildren r node.children ps = some (child, ps')) :
    searchSegments (r :: reqs) node ps = searchSegments reqs child ps' := by
  simp only [searchSegments, hr, if_false, h]

theorem searchChildren_single (s r : GoString) (c : Node) (ps : Params) (hc : c.path = s)
    (h : Fits s r) :
    searchChildren r [c] ps =
      some (c, if HasPrefix s [':'] then ps.set (TrimPrefix s [':']) r else ps) := by
  obtain ⟨_, _, hfit⟩ := h
  subst hc
  cases hp : HasPrefix c.path [':'] with
  | true =>
    rw [hp] at hfit
    simp only [if_true] at hfit
    have hne : ¬ c.path = r := fun e => hfit e.symm
    simp only [searchChildren, hne, if_false, hp, if_true]
  | false =>
    rw [hp] at hfit
    simp only [Bool.false_eq_true, if_false] at hfit
    simp only [searchChildren, hfit, if_true, Bool.false_eq_true, if_false]

theorem Params.setAll_cons (params : Params) (k v : GoString) (kvs : Params) :
    params.setAll ((k, v) :: kvs) = (params.set k v).setAll kvs := rfl

/-- The lookup of a fitting request in the chain of a single route. -/
theorem searchSegments_chain (handler : Route) (s r : GoString) (segs reqs : List GoString)
    (h : List.Forall₂ Fits (s :: segs) (r :: reqs)) (p : GoString) (hh cc : Option Nat)
    (params : Params) :
    searchSegments (r :: reqs) ⟨p, [chainNode handler s segs], hh, cc⟩ params =
      (some handler.h, some handler.CtxHandler,
        some (params.setAll (captures (s :: segs) (r :: reqs)))) := by
  induction segs generalizing s r reqs p hh cc params with
  | nil =>
    cases h with
    | cons hsr hrest =>
      cases hrest
      rw [searchSegments_step hsr.1
        (searchChildren_single s r _ params (chainNode_path handler s []) hsr), captures_cons]
      split <;> simp [searchSegments, chainNode, captures, Params.setAll]
  | cons s' rest ih =>
    cases h with
    | cons hsr hrest =>
      cases reqs with
      | nil => cases hrest
      | cons r' reqs' =>
        rw [searchSegments_step hsr.1
          (searchChildren_single s r _ params (chainNode_path handler s _) hsr)]
        have e : chainNode handler s (s' :: rest) =
            ⟨s, [chainNode handler s' rest], none, none⟩ := rfl
        rw [e, ih s' r' reqs' hrest, captures_cons (s := s)]
        split
        · rw [Params.setAll_cons]
        · rfl

theorem Fits_no_slash {segs reqs : List GoString} (h : List.Forall₂ Fits segs reqs) :
    ∀ x ∈ reqs, '/' ∉ x := by
  induction h with
  | nil => simp
  | cons hsr _ ih =>
    intro x hx
    rcases List.mem_cons.mp hx with e | e
    · rw [e]; exact hsr.2.1
    · exact ih x e

/-- C3, as stated, fails.  A request segment spelled like the parameter itself
is matched as a literal: `/users/:id` requested as `/users/:id` reaches the
handler with an empty map, `id` is not bound.  And a static segment written
with a trailing blank is stored trimmed, so the request that repeats it
finds nothing. -/
theorem parameter_capture_counterexample :
    InDepthSearch (createTreeIdea ⟨1, 1, "/users/:id".toList⟩ none GET).1.startNode
        "/users/:id".toList = (some 1, some 1, some []) ∧
    (InDepthSearch (createTreeIdea ⟨1, 1, "/users/:id".toList⟩ none GET).1.startNode
        "/users/:id".toList).2.2 ≠
      some (captures ["users".toList, ":id".toList] ["users".toList, ":id".toList]) ∧
    InDepthSearch (createTreeIdea ⟨1, 1, "/a /:id".toList⟩ none GET).1.startNode
        "/a /7".toList = (none, none, none) ∧
    (InDepthSearch (createTreeIdea ⟨1, 1, "/a /:id".toList⟩ none GET).1.startNode
        "/a /7".toList).1 ≠ some 1 := by
  refine ⟨by decide, by decide, by decide, by decide⟩

/-- C3 (amended).  Take a pattern `/s1/.../sk`, `k ≥ 1`, whose segments are
not empty, hold no slash and have no white space at either end, with pairwise
distinct parameter names, and a request `/r1/.../rk` of non-empty segments
where `ri = si` at each static position and `ri ≠ si` at each parameter
position.  On the tree built from the pattern alone `InDepthSearch` returns
the handler of the route and the map that binds the name of each parameter
segment to the request segment at its position, and nothing else. -/
theorem parameter_capture (m : Method) (h c : Nat) (s r : GoString)
    (segs reqs : List GoString) (hseg : ∀ x ∈ s :: segs, IsSegment x)
    (hfit : List.Forall₂ Fits (s :: segs) (r :: reqs))
    (hnames : (paramNames (s :: segs)).Nodup) :
    InDepthSearch (createTreeIdea ⟨h, c, joinPath (s :: segs)⟩ none m).1.startNode
        (joinPath (r :: reqs)) =
      (some h, some c, some (captures (s :: segs) (r :: reqs))) := by
  rw [createTreeIdea_single ⟨h, c, joinPath (s :: segs)⟩ m s segs hseg rfl]
  simp only
  rw [InDepthSearch_joinPath _ r reqs (Fits_no_slash hfit), searchSegments_chain _ s r segs reqs hfit,
    Params.setAll_of_nodup [] _ (by rw [captures_keys _ _ hfit]; exact hnames) (by simp)]
  rfl

/-- C3, witness: `/users/:userId/posts/:postId` requested as
`/users/john/posts/456` binds `userId` to `john` and `postId` to `456`. -/
theorem parameter_capture_witness :
    InDepthSearch (createTreeIdea ⟨1, 1, "/users/:userId/posts/:postId".toList⟩ none
        GET).1.startNode "/users/john/posts/456".toList =
      (some 1, some 1,
        some [("userId".toList, "john".toList), ("postId".toList, "456".toList)]) :=
  parameter_capture GET 1 1 "users".toList "users".toList
    [":userId".toList, "posts".toList, ":postId".toList]
    ["john".toList, "posts".toList, "456".toList]
    (by
      intro x hx
      simp only [List.mem_cons, List.mem_singleton, List.not_mem_nil, or_false] at hx
      rcases hx with e | e | e | e <;> subst e <;> exact ⟨by decide, by decide, by decide⟩)
    (List.Forall₂.cons ⟨by decide, by decide, by decide⟩
      (List.Forall₂.cons ⟨by decide, by decide, by decide⟩
        (List.Forall₂.cons ⟨by decide, by decide, by decide⟩
          (List.Forall₂.cons ⟨by decide, by decide, by decide⟩ List.Forall₂.nil))))
    (by decide)

/-! ## The dispatcher -/

theorem serveMethods_skip (r : Mux) (trees : Method → Option Tree) (req : Request)
    (method : Method) (rest : List Method) (h : methodToString method ≠ req.Method) :
    serveMethods r trees req (method :: rest) = serveMethods r trees req rest := by
  rw [serveMethods]
  cases trees method with
  | none => rfl
  | some t => simp only [h, if_false]

theorem serveMethods_no_tree (r : Mux) (trees : Method → Option Tree) (req : Request)
    (method : Method) (rest : List Method) (h : trees method = none) :
    serveMethods r trees req (method :: rest) = serveMethods r trees req rest := by
  rw [serveMethods, h]

theorem serveMethods_hit (r : Mux) (trees : Method → Option Tree) (req : Request)
    (method : Method) (rest : List Method) (tree : Tree) (h : HandlerFunc)
    (c : Option CtxFunc) (p : Option Params) (hs : methodToString method = req.Method)
    (ht : trees method = some tree)
    (hl : InDepthSearch tree.startNode req.Path = (some h, c, p)) :
    serveMethods r trees req (method :: rest) = dispatch r req h c p := by
  rw [serveMethods, ht]
  simp only [hs, if_true, hl]

theorem methodToString_injective :
    ∀ m' ∈ [GET, POST, PUT, DELETE, PATCH, HEAD, OPTIONS],
      ∀ m ∈ [GET, POST, PUT, DELETE, PATCH, HEAD, OPTIONS],
        m' ≠ m → methodToString m' ≠ methodToString m := by
  decide

theorem mem_methods {m : Method} (hm : m ≤ OPTIONS) :
    m ∈ [GET, POST, PUT, DELETE, PATCH, HEAD, OPTIONS] := by
  have : m ≤ 6 := hm
  interval_cases m <;> decide

theorem serveMethods_matched (r : Mux) (trees : Method → Option Tree) (req : Request)
    (m : Method) (tree : Tree) (h : HandlerFunc) (c : Option CtxFunc) (p : Option Params)
    (hs : methodToString m = req.Method) (ht : trees m = some tree)
    (hl : InDepthSearch tree.startNode req.Path = (some h, c, p)) (l : List Method)
    (hmem : m ∈ l) (hinj : ∀ m' ∈ l, m' ≠ m → methodToString m' ≠ req.Method) :
    serveMethods r trees req l = dispatch r req h c p := by
  induction l with
  | nil => simp at hmem
  | cons method rest ih =>
    by_cases e : method = m
    · subst e
      exact serveMethods_hit r trees req method rest tree h c p hs ht hl
    · rw [serveMethods_skip r trees req method rest (hinj method (by simp) e)]
      have hm' : m ∈ rest := by
        rcases List.mem_cons.mp hmem with e' | e'
        · exact absurd e'.symm e
        · exact e'
      exact ih hm' (fun m' hm'' => hinj m' (by simp [hm'']))

/-- A request whose method has a tree in which the path leads to a handler is
dispatched to that handler. -/
theorem ServeHTTP_matched (r : Mux) (req : Request) (m : Method) (tree : Tree)
    (h : HandlerFunc) (c : Option CtxFunc) (p : Option Params) (hm : m ≤ OPTIONS)
    (hs : methodToString m = req.Method) (ht : r.builtTrees m = some tree)
    (hl : InDepthSearch tree.startNode req.Path = (some h, c, p)) :
    ServeHTTP r req = dispatch r req h c p := by
  unfold ServeHTTP
  apply serveMethods_matched r _ req m tree h c p hs ht hl _ (mem_methods hm)
  intro m' hm' hne
  rw [← hs]
  exact methodToString_injective m' hm' m (mem_methods hm) hne

theorem serveMethods_none (r : Mux) (trees : Method → Option Tree) (req : Request)
    (l : List Method) (h : ∀ m ∈ l, methodToString m = req.Method → trees m = none) :
    serveMethods r trees req l = some [Event.notFound] := by
  induction l with
  | nil => rfl
  | cons method rest ih =>
    have hrest := ih (fun m hm => h m (by simp [hm]))
    by_cases e : methodToString method = req.Method
    · rw [serveMethods_no_tree r trees req method rest (h method (by simp) e)]
      exact hrest
    · rw [serveMethods_skip r trees req method rest e]
      exact hrest

theorem dispatch_no_middleware (r : Mux) (req : Request) (h : HandlerFunc)
    (c : Option CtxFunc) (p : Option Params)
    (hmw : findMatchingMiddleware r.middlewares req.Path = []) :
    dispatch r req h c p = some [Event.handler h] := by
  unfold dispatch requestFuel requestCtx
  rw [hmw]
  cases r.automatic <;> simp [autoLoop, Next]

/-! ## C4: a regex-marked segment at dispatch -/

/-- C4, as stated, fails: with only `/files/:|\d+|/download` registered,
`/files/abc/download` reaches the handler of the route; no 404 is sent. -/
theorem regex_segment_counterexample :
    ServeHTTP (InitMux.GET "/files/:|\\d+|/download".toList 1 1)
        ⟨"GET".toList, "/files/abc/download".toList⟩ = some [Event.handler 1] ∧
      ServeHTTP (InitMux.GET "/files/:|\\d+|/download".toList 1 1)
        ⟨"GET".toList, "/files/abc/download".toList⟩ ≠ some [Event.notFound] := by
  constructor <;> decide

/-- C4 (amended).  With only `/files/:|\d+|/download` registered for GET and no
middleware, in either dispatch mode, a request for `/files/v/download` reaches
the handler of the route for every non-empty segment `v`, `123` and `abc`
alike: traversal treats a segment that starts with `:` as a parameter, the
text between the bars is not used to match. -/
theorem regex_segment_matches_any (automatic : Bool) (h : HandlerFunc) (t : CtxFunc)
    (v : GoString) (hv : v ≠ []) (hsl : '/' ∉ v) :
    ServeHTTP ((InitMux.GET "/files/:|\\d+|/download".toList h t).setMiddlewareAutomatically
        automatic)
      ⟨"GET".toList, joinPath ["files".toList, v, "download".toList]⟩ =
      some [Event.handler h] := by
  have htree : Mux.builtTrees ((InitMux.GET "/files/:|\\d+|/download".toList h t).setMiddlewareAutomatically
      automatic) GET = some ⟨GET, ⟨['/'], [⟨"files".toList, [⟨":|\\d+|".toList,
        [⟨"download".toList, [], some h, some t⟩], none, none⟩], none, none⟩], none, none⟩⟩ := by
    rfl
  have hlook : ∃ c p, InDepthSearch ⟨['/'], [⟨"files".toList, [⟨":|\\d+|".toList,
        [⟨"download".toList, [], some h, some t⟩], none, none⟩], none, none⟩], none, none⟩
      (joinPath ["files".toList, v, "download".toList]) = (some h, c, p) := by
    rw [InDepthSearch_joinPath _ _ _ (by
      intro x hx
      simp only [List.mem_cons, List.mem_singleton, List.not_mem_nil, or_false] at hx
      rcases hx with e | e | e
      · subst e; decide
      · subst e; exact hsl
      · subst e; decide)]
    by_cases e : ":|\\d+|".toList = v
    · subst e
      exact ⟨some t, some [], rfl⟩
    · have e1 : "files".toList ≠ [] := by decide
      have e2 : "download".toList ≠ [] := by decide
      have e3 : HasPrefix ":|\\d+|".toList [':'] = true := by decide
      refine ⟨some t, some [("|\\d+|".toList, v)], ?_⟩
      simp only [searchSegments, searchChildren, e1, e2, hv, e, e3, if_true, if_false]
      rfl
  obtain ⟨c, p, hl⟩ := hlook
  rw [ServeHTTP_matched _ _ GET _ h c p (by decide) rfl htree hl]
  exact dispatch_no_middleware _ _ _ _ _ rfl

/-- C4, witness: `/files/123/download` reaches the handler, in automatic mode. -/
theorem regex_segment_matches_any_witness :
    ServeHTTP ((InitMux.GET "/files/:|\\d+|/download".toList 1 1).setMiddlewareAutomatically true)
      ⟨"GET".toList, "/files/123/download".toList⟩ = some [Event.handler 1] :=
  regex_segment_matches_any true 1 1 "123".toList (by decide) (by decide)

/-! ## C5: precedence follows insertion order -/

theorem searchChildren_first (seg : GoString) (pre : List Node) (c : Node) (post : List Node)
    (params : Params)
    (hpre : ∀ x ∈ pre, x.path ≠ seg ∧ HasPrefix x.path [':'] = false)
    (hc : c.path = seg ∨ HasPrefix c.path [':'] = true) :
    searchChildren seg (pre ++ c :: post) params =
      some (c, if c.path = seg then params else params.set (TrimPrefix c.path [':']) seg) := by
  induction pre with
  | nil =>
    simp only [List.nil_append, searchChildren]
    by_cases e : c.path = seg
    · simp only [e, if_true]
    · rcases hc with hc | hc
      · exact absurd hc e
      · simp only [e, if_false, hc, if_true]
  | cons d ds ih =>
    have hd := hpre d (by simp)
    simp only [List.cons_append, searchChildren, hd.1, if_false, hd.2, Bool.false_eq_true]
    exact ih (fun x hx => hpre x (by simp [hx]))

/-- C5.  At a node `InDepthSearch` descends into the first child, in the order
of the children list, whose path is the request segment or starts with `:`;
`AddNode` appends, so that order is the order of insertion.  With `/users/:id`
registered before `/users/profile`, a request for `/users/profile` goes to the
`:id` route with `id = profile`; with `/users/profile` registered first,
`/users/profile` goes to the static route and `/users/123` to the `:id` route. -/
theorem insertion_order_precedence :
    (∀ (seg : GoString) (pre : List Node) (c : Node) (post : List Node) (params : Params),
      (∀ x ∈ pre, x.path ≠ seg ∧ HasPrefix x.path [':'] = false) →
      (c.path = seg ∨ HasPrefix c.path [':'] = true) →
      searchChildren seg (pre ++ c :: post) params =
        some (c, if c.path = seg then params else params.set (TrimPrefix c.path [':']) seg)) ∧
    (∀ (seg : GoString) (rest : List GoString) (node : Node) (pre : List Node) (c : Node)
      (post : List Node) (params : Params), seg ≠ [] → node.children = pre ++ c :: post →
      (∀ x ∈ pre, x.path ≠ seg ∧ HasPrefix x.path [':'] = false) →
      (c.path = seg ∨ HasPrefix c.path [':'] = true) →
      searchSegments (seg :: rest) node params =
        searchSegments rest c
          (if c.path = seg then params else params.set (TrimPrefix c.path [':']) seg)) ∧
    (∀ (n : Node) (handler : Route) (b : Bool) (seg : GoString), seg ≠ [] → seg ≠ ['/'] →
      (AddNode n handler b seg).children = n.children ++ [newChild handler b seg]) ∧
    (∃ t, ((InitMux.GET "/users/:id".toList 1 1).GET "/users/profile".toList 2 2).builtTrees GET
        = some t ∧
      InDepthSearch t.startNode "/users/profile".toList =
        (some 1, some 1, some [("id".toList, "profile".toList)]) ∧
      ServeHTTP ((InitMux.GET "/users/:id".toList 1 1).GET "/users/profile".toList 2 2)
        ⟨"GET".toList, "/users/profile".toList⟩ = some [Event.handler 1]) ∧
    (∃ t, ((InitMux.GET "/users/profile".toList 1 1).GET "/users/:id".toList 2 2).builtTrees GET
        = some t ∧
      InDepthSearch t.startNode "/users/profile".toList = (some 1, some 1, some []) ∧
      InDepthSearch t.startNode "/users/123".toList =
        (some 2, some 2, some [("id".toList, "123".toList)]) ∧
      ServeHTTP ((InitMux.GET "/users/profile".toList 1 1).GET "/users/:id".toList 2 2)
        ⟨"GET".toList, "/users/profile".toList⟩ = some [Event.handler 1] ∧
      ServeHTTP ((InitMux.GET "/users/profile".toList 1 1).GET "/users/:id".toList 2 2)
        ⟨"GET".toList, "/users/123".toList⟩ = some [Event.handler 2]) := by
  refine ⟨searchChildren_first, ?_, ?_, ⟨_, rfl, by decide, by decide⟩,
    ⟨_, rfl, by decide, by decide, by decide, by decide⟩⟩
  · intro seg rest node pre c post params hseg hch hpre hc
    exact searchSegments_step hseg
      (by rw [hch]; exact searchChildren_first seg pre c post params hpre hc)
  · intro n handler b seg h1 h2
    simp [AddNode, h1, h2]

/-- C5, witness: among the children `profile`, `:id`, `:name` the segment
`123` selects `:id`, the first that starts with a colon. -/
theorem insertion_order_precedence_witness :
    searchChildren "123".toList
      ([⟨"profile".toList, [], some 1, some 1⟩] ++
        (⟨":id".toList, [], some 2, some 2⟩ : Node) :: [⟨":name".toList, [], some 3, some 3⟩]) [] =
      some (⟨":id".toList, [], some 2, some 2⟩, [("id".toList, "123".toList)]) :=
  insertion_order_precedence.1 "123".toList [⟨"profile".toList, [], some 1, some 1⟩]
    ⟨":id".toList, [], some 2, some 2⟩ [⟨":name".toList, [], some 3, some 3⟩] []
    (by
      intro x hx
      simp only [List.mem_singleton] at hx
      subst hx
      exact ⟨by decide, by decide⟩)
    (Or.inr (by decide))

/-! ## C6, C7: automatic mode -/

theorem callMiddleware_plain (next : Run → Option (Run × Bool)) (f : MiddlewareFunc)
    (s : Run) (h0 : f.nexts = 0) (hr : f.ret = Ret.ok) :
    callMiddleware next f s =
      some ({ s with trace := s.trace ++ [Event.middleware f.id] }, false) := by
  simp [callMiddleware, h0, hr, runNexts]

theorem autoLoop_plain (fuel : Nat) (path : GoString) (mws : List Middleware) (s : Run)
    (h : ∀ mw ∈ mws, pathMatch mw.Path path = true →
      mw.Handler.nexts = 0 ∧ mw.Handler.ret = Ret.ok) :
    autoLoop fuel path mws s =
      some ({ s with trace := s.trace ++
        (findMatchingMiddleware mws path).map (fun mw => Event.middleware mw.Handler.id) },
        false) := by
  induction mws generalizing s with
  | nil => simp [autoLoop, findMatchingMiddleware]
  | cons mw rest ih =>
    have hrest := fun s => ih s (fun x hx => h x (by simp [hx]))
    by_cases hp : pathMatch mw.Path path = true
    · obtain ⟨h0, hr⟩ := h mw (by simp) hp
      simp only [autoLoop, hp, if_true, callMiddleware_plain _ _ _ h0 hr, hrest]
      simp [findMatchingMiddleware, List.filter_cons, hp]
    · simp only [autoLoop, hp, hrest]
      simp [findMatchingMiddleware, List.filter_cons, hp]

theorem findMatchingMiddleware_idem (mws : List Middleware) (path : GoString) :
    findMatchingMiddleware (findMatchingMiddleware mws path) path =
      findMatchingMiddleware mws path := by
  simp [findMatchingMiddleware, List.filter_filter]

/-- C6.  In automatic mode, for a request that is matched to a handler, when
every middleware whose prefix matches the path returns nil without calling
`Next`: `ServeHTTP` runs exactly the middlewares whose prefix matches, each
once and in the order of registration, and then calls the handler of the
route, once. -/
theorem automatic_runs_matching_in_order (r : Mux) (req : Request) (m : Method)
    (tree : Tree) (h : HandlerFunc) (c : Option CtxFunc) (p : Option Params)
    (hauto : r.automatic = true) (hm : m ≤ OPTIONS)
    (hs : methodToString m = req.Method) (ht : r.builtTrees m = some tree)
    (hl : InDepthSearch tree.startNode req.Path = (some h, c, p))
    (hplain : ∀ mw ∈ r.middlewares, pathMatch mw.Path req.Path = true →
      mw.Handler.nexts = 0 ∧ mw.Handler.ret = Ret.ok) :
    ServeHTTP r req =
      some ((findMatchingMiddleware r.middlewares req.Path).map
        (fun mw => Event.middleware mw.Handler.id) ++ [Event.handler h]) := by
  rw [ServeHTTP_matched r req m tree h c p hm hs ht hl]
  unfold dispatch
  simp only [hauto, if_true]
  rw [autoLoop_plain _ _ _ _ (by
    intro mw hmw hp
    have : mw ∈ r.middlewares := by
      simp only [findMatchingMiddleware, List.mem_filter] at hmw
      exact hmw.1
    exact hplain mw this hp)]
  simp [findMatchingMiddleware_idem]

/-- C6, witness: of the middlewares at `/api`, `/admin` and `/` only the one
at `/api` matches `/api/users`; it runs, then the handler. -/
theorem automatic_runs_matching_in_order_witness :
    ServeHTTP
      (((((InitMux.USE "/api".toList ⟨10, 0, Ret.ok⟩).USE "/admin".toList ⟨11, 0, Ret.ok⟩).USE
        [] ⟨12, 0, Ret.ok⟩).GET "/api/users".toList 1 1).setMiddlewareAutomatically true)
      ⟨"GET".toList, "/api/users".toList⟩ =
      some [Event.middleware 10, Event.handler 1] :=
  automatic_runs_matching_in_order _ ⟨"GET".toList, "/api/users".toList⟩ GET _ 1 (some 1)
    (some []) rfl (by decide) rfl rfl (by decide) (by
      intro mw hmw _
      simp only [Mux.setMiddlewareAutomatically, Mux.GET, Mux.addMutationRoute, Mux.USE,
        InitMux, List.nil_append, List.cons_append, List.mem_cons, List.mem_singleton,
        List.not_mem_nil, or_false] at hmw
      rcases hmw with e | e | e <;> subst e <;> exact ⟨rfl, rfl⟩)

theorem OnlyMiddleware_append {tr : List Event} (h : OnlyMiddleware tr) (id : Nat) :
    OnlyMiddleware (tr ++ [Event.middleware id]) := by
  intro e he
  rcases List.mem_append.mp he with he | he
  · exact h e he
  · exact ⟨id, by simpa using he⟩

theorem runNexts_only (next : Run → Option (Run × Bool))
    (hnext : ∀ s s' b, next s = some (s', b) → OnlyMiddleware s.trace →
      OnlyMiddleware s'.trace)
    (k : Nat) (s s' : Run) (h : runNexts next k s = some s') (hs : OnlyMiddleware s.trace) :
    OnlyMiddleware s'.trace := by
  induction k generalizing s with
  | zero =>
    simp only [runNexts, Option.some.injEq] at h
    rw [← h]; exact hs
  | succ k ih =>
    simp only [runNexts] at h
    cases hn : next s with
    | none => rw [hn] at h; simp at h
    | some r =>
      obtain ⟨s1, b⟩ := r
      rw [hn] at h
      exact ih s1 h (hnext s s1 b hn hs)

theorem callMiddleware_only (next : Run → Option (Run × Bool))
    (hnext : ∀ s s' b, next s = some (s', b) → OnlyMiddleware s.trace →
      OnlyMiddleware s'.trace)
    (f : MiddlewareFunc) (s s' : Run) (b : Bool)
    (h : callMiddleware next f s = some (s', b)) (hs : OnlyMiddleware s.trace) :
    OnlyMiddleware s'.trace := by
  unfold callMiddleware at h
  cases hr : runNexts next f.nexts { s with trace := s.trace ++ [Event.middleware f.id] } with
  | none => rw [hr] at h; simp at h
  | some s1 =>
    rw [hr] at h
    have h1 : OnlyMiddleware s1.trace :=
      runNexts_only next hnext _ _ s1 hr (OnlyMiddleware_append hs f.id)
    cases hret : f.ret with
    | ok =>
      rw [hret] at h
      simp only [Option.some.injEq, Prod.mk.injEq] at h
      rw [← h.1]; exact h1
    | fail =>
      rw [hret] at h
      simp only [Option.some.injEq, Prod.mk.injEq] at h
      rw [← h.1]; exact h1
    | next =>
      rw [hret] at h
      exact hnext s1 s' b h h1

theorem Next_only (fuel : Nat) (s s' : Run) (b : Bool) (h : Next fuel s = some (s', b))
    (hs : OnlyMiddleware s.trace) : OnlyMiddleware s'.trace := by
  induction fuel generalizing s s' b with
  | zero => simp [Next] at h
  | succ fuel ih =>
    simp only [Next] at h
    split at h
    · split at h
      · exact callMiddleware_only (Next fuel) (fun a a' b' => ih a a' b') _ _ s' b h hs
      · simp only [Option.some.injEq, Prod.mk.injEq] at h
        rw [← h.1]; exact hs
    · simp only [Option.some.injEq, Prod.mk.injEq] at h
      rw [← h.1]; exact hs

theorem autoLoop_only (fuel : Nat) (path : GoString) (mws : List Middleware) (s s' : Run)
    (b : Bool) (h : autoLoop fuel path mws s = some (s', b)) (hs : OnlyMiddleware s.trace) :
    OnlyMiddleware s'.trace := by
  induction mws generalizing s with
  | nil =>
    simp only [autoLoop, Option.some.injEq, Prod.mk.injEq] at h
    rw [← h.1]; exact hs
  | cons mw rest ih =>
    simp only [autoLoop] at h
    split at h
    · cases hc : callMiddleware (Next fuel) mw.Handler s with
      | none => rw [hc] at h; simp at h
      | some r =>
        obtain ⟨s1, b1⟩ := r
        have h1 := callMiddleware_only (Next fuel) (Next_only fuel) _ _ s1 b1 hc hs
        rw [hc] at h
        cases b1 with
        | true =>
          simp only [Option.some.injEq, Prod.mk.injEq] at h
          rw [← h.1]; exact h1
        | false => exact ih s1 h h1
    · exact ih s h hs

theorem autoLoop_append (fuel : Nat) (path : GoString) (pre rest : List Middleware)
    (s s1 : Run) (h : autoLoop fuel path pre s = some (s1, false)) :
    autoLoop fuel path (pre ++ rest) s = autoLoop fuel path rest s1 := by
  induction pre generalizing s with
  | nil =>
    simp only [autoLoop, Option.some.injEq, Prod.mk.injEq] at h
    rw [← h.1]; rfl
  | cons mw pre ih =>
    simp only [List.cons_append, autoLoop] at h ⊢
    split
    · rename_i hp
      simp only [hp, if_true] at h
      cases hc : callMiddleware (Next fuel) mw.Handler s with
      | none => rw [hc] at h; simp at h
      | some r =>
        obtain ⟨s2, b2⟩ := r
        rw [hc] at h
        cases b2 with
        | true => simp at h
        | false => exact ih s2 h
    · rename_i hp
      simp only [hp] at h
      exact ih s h

theorem dispatcherStatus_of_only (tr : List Event) (h : OnlyMiddleware tr) (code : Nat) :
    dispatcherStatus (tr ++ [Event.error code]) = some code := by
  induction tr with
  | nil => rfl
  | cons e rest ih =>
    obtain ⟨id, he⟩ := h e (by simp)
    subst he
    simp only [List.cons_append, dispatcherStatus]
    exact ih (fun x hx => h x (by simp [hx]))

theorem responseStatus_append_error (w : Writes) (tr : List Event) (code : Nat) :
    responseStatus w (tr ++ [Event.error code]) =
      match responseStatus w tr with
      | some written => some written
      | none => some code := by
  induction tr with
  | nil => rfl
  | cons e rest ih =>
    cases e with
    | middleware id =>
      simp only [List.cons_append, responseStatus]
      cases w.middleware id with
      | some c => rfl
      | none => exact ih
    | handler h =>
      simp only [List.cons_append, responseStatus]
      cases w.handler h with
      | some c => rfl
      | none => exact ih
    | notFound => rfl
    | error c => rfl

theorem responseStatus_of_only (w : Writes) (tr : List Event) (h : OnlyMiddleware tr)
    (hw : ∀ id, Event.middleware id ∈ tr → w.middleware id = none) :
    responseStatus w tr = none := by
  induction tr with
  | nil => rfl
  | cons e rest ih =>
    obtain ⟨id, he⟩ := h e (by simp)
    subst he
    simp only [responseStatus, hw id (by simp)]
    exact ih (fun x hx => h x (by simp [hx])) (fun i hi => hw i (by simp [hi]))

/-- C7, as stated, fails.  In automatic mode a middleware that sets the status
401 itself (`c.Status(401)` or `c.SendString(.., 401)`) and then returns an
error makes `ServeHTTP` call `http.Error(.., 500)`, but the status of the
response is the 401 written first, not 500. -/
theorem automatic_abort_status_counterexample :
    ServeHTTP (((InitMux.USE "/api".toList ⟨11, 0, Ret.fail⟩).GET "/api/users".toList 1
        1).setMiddlewareAutomatically true) ⟨"GET".toList, "/api/users".toList⟩ =
      some [Event.middleware 11, Event.error 500] ∧
    responseStatus ⟨fun id => if id = 11 then some 401 else none, fun _ => none⟩
      [Event.middleware 11, Event.error 500] = some 401 ∧
    responseStatus ⟨fun id => if id = 11 then some 401 else none, fun _ => none⟩
      [Event.middleware 11, Event.error 500] ≠ some 500 := by
  refine ⟨by decide, by decide, by decide⟩

/-- C7, amended.  In automatic mode, for a request that is matched to a
handler: if the matching middlewares before the `i`-th all returned nil (state
`s1`) and the `i`-th, `mi`, returns an error (state `s2`), then the trace of
`ServeHTTP` is the trace up to the return of `mi` followed by
`http.Error(.., 500)` and nothing else: no later middleware runs and the
handler of the route is not called.  The status of the response is the status
a middleware that ran wrote first, if one did, and 500 otherwise; so it is 500
when no middleware that ran wrote a status. -/
theorem automatic_abort_on_error (r : Mux) (req : Request) (m : Method) (tree : Tree)
    (h : HandlerFunc) (c : Option CtxFunc) (p : Option Params)
    (hauto : r.automatic = true) (hm : m ≤ OPTIONS)
    (hs : methodToString m = req.Method) (ht : r.builtTrees m = some tree)
    (hl : InDepthSearch tree.startNode req.Path = (some h, c, p))
    (pre post : List Middleware) (mi : Middleware)
    (hsplit : findMatchingMiddleware r.middlewares req.Path = pre ++ mi :: post)
    (s1 s2 : Run)
    (hpre : autoLoop (requestFuel r req) req.Path pre ⟨requestCtx r req p, []⟩
      = some (s1, false))
    (hfail : callMiddleware (Next (requestFuel r req)) mi.Handler s1 = some (s2, true)) :
    ServeHTTP r req = some (s2.trace ++ [Event.error 500]) ∧
      dispatcherStatus (s2.trace ++ [Event.error 500]) = some 500 ∧
      (∀ g, Event.handler g ∉ s2.trace ++ [Event.error 500]) ∧
      OnlyMiddleware s2.trace ∧
      (∀ w : Writes, responseStatus w (s2.trace ++ [Event.error 500]) =
        match responseStatus w s2.trace with
        | some written => some written
        | none => some 500) ∧
      (∀ w : Writes, (∀ id, Event.middleware id ∈ s2.trace → w.middleware id = none) →
        responseStatus w (s2.trace ++ [Event.error 500]) = some 500) := by
  have hmi : pathMatch mi.Path req.Path = true := by
    have : mi ∈ findMatchingMiddleware r.middlewares req.Path := by rw [hsplit]; simp
    simp only [findMatchingMiddleware, List.mem_filter] at this
    exact this.2
  have honly1 : OnlyMiddleware s1.trace :=
    autoLoop_only _ _ _ _ s1 false hpre (by intro e he; simp at he)
  have honly2 : OnlyMiddleware s2.trace :=
    callMiddleware_only _ (Next_only _) _ _ s2 true hfail honly1
  refine ⟨?_, dispatcherStatus_of_only _ honly2 500, ?_, honly2,
    fun w => responseStatus_append_error w _ 500, ?_⟩
  · rw [ServeHTTP_matched r req m tree h c p hm hs ht hl]
    unfold dispatch
    simp only [hauto, if_true]
    rw [hsplit, autoLoop_append _ _ pre (mi :: post) _ s1 hpre]
    simp only [autoLoop, hmi, if_true, hfail]
  · intro g hg
    rcases List.mem_append.mp hg with hg | hg
    · obtain ⟨id, e⟩ := honly2 _ hg
      cases e
    · simp at hg
  · intro w hw
    rw [responseStatus_append_error, responseStatus_of_only w _ honly2 hw]

/-- C7, witness: `A`, `B`, `C` at `/api`, `B` returns an error: `A` and `B`
run, then the 500; `C` and the handler do not.  No middleware writes a
status, the response has 500. -/
theorem automatic_abort_on_error_witness :
    ServeHTTP
      (((((InitMux.USE "/api".toList ⟨10, 0, Ret.ok⟩).USE "/api".toList ⟨11, 0, Ret.fail⟩).USE
        "/api".toList ⟨12, 0, Ret.ok⟩).GET "/api/users".toList 1 1).setMiddlewareAutomatically
          true)
      ⟨"GET".toList, "/api/users".toList⟩ =
      some ([Event.middleware 10, Event.middleware 11] ++ [Event.error 500]) ∧
    responseStatus ⟨fun _ => none, fun _ => none⟩
      ([Event.middleware 10, Event.middleware 11] ++ [Event.error 500]) = some 500 :=
  ⟨(automatic_abort_on_error
    (((((InitMux.USE "/api".toList ⟨10, 0, Ret.ok⟩).USE "/api".toList ⟨11, 0, Ret.fail⟩).USE
        "/api".toList ⟨12, 0, Ret.ok⟩).GET "/api/users".toList 1 1).setMiddlewareAutomatically
          true)
    ⟨"GET".toList, "/api/users".toList⟩ GET _ 1 (some 1)
    (some []) rfl (by decide) rfl rfl (by decide)
    [⟨"/api".toList, ⟨10, 0, Ret.ok⟩⟩] [⟨"/api".toList, ⟨12, 0, Ret.ok⟩⟩]
    ⟨"/api".toList, ⟨11, 0, Ret.fail⟩⟩ rfl
    ⟨_, [Event.middleware 10]⟩ ⟨_, [Event.middleware 10, Event.middleware 11]⟩ rfl rfl).1,
   by decide⟩

/-! ## C8: manual mode -/

theorem callMiddleware_no_next (next : Run → Option (Run × Bool)) (f : MiddlewareFunc)
    (s : Run) (h0 : f.nexts = 0) (hr : f.ret ≠ Ret.next) :
    ∃ b, callMiddleware next f s =
      some ({ s with trace := s.trace ++ [Event.middleware f.id] }, b) := by
  unfold callMiddleware
  rw [h0]
  simp only [runNexts]
  cases hret : f.ret with
  | ok => exact ⟨false, rfl⟩
  | fail => exact ⟨true, rfl⟩
  | next => exact absurd hret hr

theorem Next_first (fuel : Nat) (c : Ctx) (tr : List Event) (mw : Middleware)
    (rest : List Middleware) (hi : c.middlewareIndex = -1) (hm : c.middlewares = mw :: rest) :
    Next (fuel + 1) ⟨c, tr⟩ =
      callMiddleware (Next fuel) mw.Handler ⟨{ c with middlewareIndex := 0 }, tr⟩ := by
  obtain ⟨ps, rp, idx, mws, hd, au⟩ := c
  simp only at hi hm
  subst hi hm
  have hlt : ((-1 : Int) + 1 < ((mw :: rest).length : Int)) := by
    simp only [List.length_cons]; omega
  simp only [Next, hlt, if_true]
  rfl

/-- C8, the code at the failing inputs.  In manual mode, for a request that is
matched to a handler and has a matching middleware: if the first matching
middleware returns (nil or an error) without calling `Next`, the trace of
`ServeHTTP` is that middleware followed by the call of the route handler.
`Next` never calls a handler; the call `handler(w, req)` follows the chain
unconditionally, so the handler runs although the chain was not continued. -/
theorem manual_handler_runs_without_next (r : Mux) (req : Request) (m : Method)
    (tree : Tree) (h : HandlerFunc) (c : Option CtxFunc) (p : Option Params)
    (hauto : r.automatic = false) (hm : m ≤ OPTIONS)
    (hs : methodToString m = req.Method) (ht : r.builtTrees m = some tree)
    (hl : InDepthSearch tree.startNode req.Path = (some h, c, p))
    (mw : Middleware) (rest : List Middleware)
    (hsplit : findMatchingMiddleware r.middlewares req.Path = mw :: rest)
    (h0 : mw.Handler.nexts = 0) (hret : mw.Handler.ret ≠ Ret.next) :
    ServeHTTP r req = some [Event.middleware mw.Handler.id, Event.handler h] := by
  rw [ServeHTTP_matched r req m tree h c p hm hs ht hl]
  unfold dispatch requestFuel requestCtx
  simp only [hauto, hsplit, List.length_cons]
  rw [Next_first _ _ _ mw rest rfl rfl]
  obtain ⟨b, hb⟩ := callMiddleware_no_next (Next (rest.length + 1)) mw.Handler
    ⟨{ params := p, routerPath := req.Path, middlewareIndex := 0, middlewares := mw :: rest,
       handler := c, automatic := false, keys := some [] }, []⟩ h0 hret
  simp only [Bool.false_eq_true, if_false]
  rw [hb]
  rfl

/-- C8, witness: manual mode (the default of `InitMux`), one middleware at
`/test` that returns nil without calling `Next`, the route `GET /test`. -/
theorem manual_handler_runs_without_next_witness :
    ServeHTTP ((InitMux.USE "/test".toList ⟨10, 0, Ret.ok⟩).GET "/test".toList 1 1)
      ⟨"GET".toList, "/test".toList⟩ = some [Event.middleware 10, Event.handler 1] :=
  manual_handler_runs_without_next
    ((InitMux.USE "/test".toList ⟨10, 0, Ret.ok⟩).GET "/test".toList 1 1)
    ⟨"GET".toList, "/test".toList⟩ GET _ 1 (some 1) (some []) rfl (by decide) rfl rfl
    (by decide) ⟨"/test".toList, ⟨10, 0, Ret.ok⟩⟩ [] rfl rfl (by decide)

/-! ## C9: methods without routes -/

theorem buildTrees_none (r : Mux) (m : Method) (h : (r.handlers m).getD [] = []) :
    buildTrees r m = none := by
  unfold buildTrees
  split
  · cases hh : r.handlers m with
    | none => rfl
    | some l =>
      rw [hh] at h
      simp only [Option.getD_some] at h
      subst h
      rfl
  · rfl

/-- C9.  If no route is registered under any method whose name is the method
of the request (which includes every request method outside `GET .. OPTIONS`),
`ServeHTTP` answers with `http.NotFound` and does nothing else, whatever the
path, the middleware and the routes of other methods are: no middleware runs,
no handler is called, the status is 404. -/
theorem unregistered_method_not_found (r : Mux) (req : Request)
    (htrees : r.trees = none ∨ r.trees = some (buildTrees r))
    (hno : ∀ m, m ≤ OPTIONS → methodToString m = req.Method → (r.handlers m).getD [] = []) :
    ServeHTTP r req = some [Event.notFound] ∧
      dispatcherStatus [Event.notFound] = some 404 := by
  refine ⟨?_, rfl⟩
  have hb : r.builtTrees = buildTrees r := by
    unfold Mux.builtTrees
    rcases htrees with e | e <;> rw [e]
  unfold ServeHTTP
  rw [hb]
  apply serveMethods_none
  intro m hm hs
  have hle : m ≤ OPTIONS := by
    simp only [List.mem_cons, List.mem_singleton, List.not_mem_nil, or_false] at hm
    rcases hm with e | e | e | e | e | e | e <;> subst e <;> decide
  exact buildTrees_none r m (hno m hle hs)

/-- C9, witness: routes under GET only; a POST and a TRACE request get 404. -/
theorem unregistered_method_not_found_witness :
    ServeHTTP ((InitMux.USE [] ⟨10, 0, Ret.ok⟩).GET "/users".toList 1 1)
        ⟨"POST".toList, "/users".toList⟩ = some [Event.notFound] ∧
      ServeHTTP ((InitMux.USE [] ⟨10, 0, Ret.ok⟩).GET "/users".toList 1 1)
        ⟨"TRACE".toList, "/users".toList⟩ = some [Event.notFound] :=
  ⟨(unregistered_method_not_found ((InitMux.USE [] ⟨10, 0, Ret.ok⟩).GET "/users".toList 1 1)
      ⟨"POST".toList, "/users".toList⟩ (Or.inl rfl) (by
        intro m hm hs
        have : m ≤ 6 := hm
        interval_cases m <;> first | rfl | exact absurd hs (by decide))).1,
    (unregistered_method_not_found ((InitMux.USE [] ⟨10, 0, Ret.ok⟩).GET "/users".toList 1 1)
      ⟨"TRACE".toList, "/users".toList⟩ (Or.inl rfl) (by
        intro m hm hs
        have : m ≤ 6 := hm
        interval_cases m <;> exact absurd hs (by decide))).1⟩

/-! ## C10: the root path -/

theorem buildRoutes_root_handler (m : Method) (routes : List Route) (t : Option Tree)
    (h : (orFresh t m).startNode.Handler = none) :
    (orFresh (buildRoutes m routes t) m).startNode.Handler = none := by
  induction routes generalizing t with
  | nil => exact h
  | cons r rest ih =>
    have h1 : (createTreeIdea r t m).1.startNode.Handler = none := by
      by_cases hr : r.path = [] ∨ r.path = ['/']
      · rw [createTreeIdea_root r t m hr]; exact h
      · rw [createTreeIdea_eq r t m hr]
        simp only
        rw [(insertPaths_fields _ _ _).2.1]; exact h
    simp only [buildRoutes]
    split
    · cases t with
      | none => exact ih none h
      | some t0 => exact ih (some (createTreeIdea r (some t0) m).1) h1
    · exact ih (some (createTreeIdea r t m).1) h1

/-- C10, the code.  Whatever was registered before under a method (the root
path included), registering the root path, `"/"` or `""`, is accepted, and the
root of the tree still has no handler, so `InDepthSearch("/")` returns nil:
`createTreeIdea` checks the root for a handler but never sets one.  A request
for `/` after `GET("/", h)` is answered 404. -/
theorem root_route_never_attached (m : Method) (routes : List Route) (h c : Nat) :
    (createTreeIdea ⟨h, c, ['/']⟩ (buildRoutes m routes none) m).2 = none ∧
    (createTreeIdea ⟨h, c, []⟩ (buildRoutes m routes none) m).2 = none ∧
    (InDepthSearch (createTreeIdea ⟨h, c, ['/']⟩ (buildRoutes m routes none) m).1.startNode
      ['/']).1 = none ∧
    (InDepthSearch (createTreeIdea ⟨h, c, []⟩ (buildRoutes m routes none) m).1.startNode
      ['/']).1 = none ∧
    ServeHTTP (InitMux.GET ['/'] h c) ⟨"GET".toList, ['/']⟩ = some [Event.notFound] := by
  have hroot := buildRoutes_root_handler m routes none rfl
  refine ⟨?_, ?_, ?_, ?_, ?_⟩
  · rw [createTreeIdea_root _ _ _ (Or.inr rfl)]
    simp [hroot]
  · rw [createTreeIdea_root _ _ _ (Or.inl rfl)]
    simp [hroot]
  · rw [createTreeIdea_root _ _ _ (Or.inr rfl)]
    exact hroot
  · rw [createTreeIdea_root _ _ _ (Or.inl rfl)]
    exact hroot
  · rfl

/-! ## The bound given to `Next` is never used up -/

theorem runNexts_total (next : Run → Option (Run × Bool)) (Q : Run → Prop)
    (hnext : ∀ s, Q s → ∃ s' b, next s = some (s', b) ∧ Q s') (k : Nat) (s : Run)
    (hs : Q s) : ∃ s', runNexts next k s = some s' ∧ Q s' := by
  induction k generalizing s with
  | zero => exact ⟨s, rfl, hs⟩
  | succ k ih =>
    obtain ⟨s1, b, h1, hq⟩ := hnext s hs
    obtain ⟨s2, h2, hq2⟩ := ih s1 hq
    exact ⟨s2, by simp only [runNexts, h1, h2], hq2⟩

theorem callMiddleware_total (next : Run → Option (Run × Bool)) (Q : Run → Prop)
    (hnext : ∀ s, Q s → ∃ s' b, next s = some (s', b) ∧ Q s')
    (htrace : ∀ s e, Q s → Q { s with trace := s.trace ++ [e] })
    (f : MiddlewareFunc) (s : Run) (hs : Q s) :
    ∃ s' b, callMiddleware next f s = some (s', b) ∧ Q s' := by
  obtain ⟨s1, h1, hq1⟩ :=
    runNexts_total next Q hnext f.nexts _ (htrace s (Event.middleware f.id) hs)
  unfold callMiddleware
  rw [h1]
  cases f.ret with
  | ok => exact ⟨s1, false, rfl, hq1⟩
  | fail => exact ⟨s1, true, rfl, hq1⟩
  | next => exact hnext s1 hq1

/-- With a bound of at least one and at least the number of middlewares from
the cursor on, `Next` returns; it keeps the list and never moves the cursor
back. -/
theorem Next_total (mws : List Middleware) (fuel : Nat) (i0 : Int) (hpos : 1 ≤ fuel)
    (hfuel : (mws.length : Int) - i0 ≤ fuel) (s : Run) (hs : CursorFrom mws i0 s) :
    ∃ s' b, Next fuel s = some (s', b) ∧ CursorFrom mws i0 s' := by
  induction fuel generalizing i0 s with
  | zero => omega
  | succ fuel ih =>
    obtain ⟨hm, hi⟩ := hs
    simp only [Next]
    split
    · rename_i hlt
      split
      · have hlt' : s.c.middlewareIndex + 1 < (mws.length : Int) := by
          rw [← hm]; exact hlt
        have hpos' : 1 ≤ fuel := by omega
        have hstep : ∀ a, CursorFrom mws (s.c.middlewareIndex + 1) a →
            ∃ a' b, Next fuel a = some (a', b) ∧
              CursorFrom mws (s.c.middlewareIndex + 1) a' := by
          intro a ha
          exact ih (s.c.middlewareIndex + 1) hpos' (by push_cast at hfuel; omega) a ha
        obtain ⟨s', b, h1, hq⟩ := callMiddleware_total (Next fuel)
          (CursorFrom mws (s.c.middlewareIndex + 1)) hstep (fun a e ha => ha) _
          { s with c := { s.c with middlewareIndex := s.c.middlewareIndex + 1 } }
          ⟨hm, le_refl _⟩
        exact ⟨s', b, h1, hq.1, by have := hq.2; omega⟩
      · exact ⟨_, false, rfl, hm, by simp only; omega⟩
    · exact ⟨_, false, rfl, hm, by simp only; omega⟩

theorem autoLoop_total (mws : List Middleware) (fuel : Nat) (hfuel : mws.length + 1 ≤ fuel)
    (path : GoString) (l : List Middleware) (s : Run) (hs : CursorFrom mws (-1) s) :
    ∃ s' b, autoLoop fuel path l s = some (s', b) := by
  have hnext : ∀ a, CursorFrom mws (-1) a →
      ∃ a' b, Next fuel a = some (a', b) ∧ CursorFrom mws (-1) a' :=
    fun a ha => Next_total mws fuel (-1) (by omega) (by omega) a ha
  induction l generalizing s with
  | nil => exact ⟨s, false, rfl⟩
  | cons mw rest ih =>
    simp only [autoLoop]
    split
    · obtain ⟨s1, b, h1, hq⟩ := callMiddleware_total (Next fuel) (CursorFrom mws (-1)) hnext
        (fun a e ha => ha) mw.Handler s hs
      rw [h1]
      cases b with
      | true => exact ⟨s1, true, rfl⟩
      | false => exact ih s1 hq
    · exact ih s hs

theorem dispatch_returns (r : Mux) (req : Request) (h : HandlerFunc) (c : Option CtxFunc)
    (p : Option Params) : ∃ tr, dispatch r req h c p = some tr := by
  unfold dispatch
  split
  · obtain ⟨s', b, h1⟩ := autoLoop_total (findMatchingMiddleware r.middlewares req.Path)
      (requestFuel r req) (le_refl _) req.Path
      (findMatchingMiddleware r.middlewares req.Path) ⟨requestCtx r req p, []⟩
      ⟨rfl, le_refl _⟩
    simp only [h1]
    cases b with
    | true => exact ⟨_, rfl⟩
    | false => exact ⟨_, rfl⟩
  · obtain ⟨s', b, h1, _⟩ := Next_total (findMatchingMiddleware r.middlewares req.Path)
      (requestFuel r req) (-1) (by unfold requestFuel; omega)
      (by unfold requestFuel; push_cast; omega)
      ⟨{ requestCtx r req p with
          middlewares := findMatchingMiddleware r.middlewares req.Path,
          middlewareIndex := -1, handler := c, automatic := r.automatic }, []⟩
      ⟨rfl, le_refl _⟩
    simp only [h1]
    exact ⟨_, rfl⟩

/-- `ServeHTTP` always returns a trace: the recursion bound of `Next` is
enough for every registry and every request. -/
theorem ServeHTTP_returns (r : Mux) (req : Request) : ∃ tr, ServeHTTP r req = some tr := by
  unfold ServeHTTP
  generalize [GET, POST, PUT, DELETE, PATCH, HEAD, OPTIONS] = l
  induction l with
  | nil => exact ⟨_, rfl⟩
  | cons method rest ih =>
    rw [serveMethods]
    split
    · split
      · split
        · exact dispatch_returns _ _ _ _ _
        · exact ih
      · exact ih
    · exact ih

/-! ## C11, C12: which middleware a path selects -/

theorem HasPrefix_iff (r p : GoString) : HasPrefix r p = true ↔ ∃ t, r = p ++ t := by
  induction p generalizing r with
  | nil => simp [HasPrefix]
  | cons d p ih =>
    cases r with
    | nil => simp [HasPrefix]
    | cons c r =>
      simp only [HasPrefix, Bool.and_eq_true, beq_iff_eq, ih, List.cons_append,
        List.cons.injEq]
      constructor
      · rintro ⟨e, t, ht⟩
        exact ⟨t, e, ht⟩
      · rintro ⟨t, e, ht⟩
        exact ⟨e, t, ht⟩

theorem get?_append_length (p t : GoString) : (p ++ t).get? p.length = t.get? 0 := by
  induction p with
  | nil => rfl
  | cons d p ih => simpa using ih

/-- `pathMatch` holds exactly for an empty prefix, for the path itself, and
for a path that goes on with a slash right after the prefix. -/
theorem pathMatch_iff (p r : GoString) :
    pathMatch p r = true ↔ p = [] ∨ r = p ∨ ∃ rest, r = p ++ '/' :: rest := by
  unfold pathMatch
  by_cases hp : p = []
  · simp [hp]
  · by_cases hr : r = p
    · simp [hr]
    · simp only [hp, if_false, hr, false_or]
      constructor
      · intro h
        split at h
        · rename_i hc
          simp only [Bool.and_eq_true, decide_eq_true_eq, beq_iff_eq] at hc
          obtain ⟨⟨hpre, _⟩, hget⟩ := hc
          obtain ⟨t, ht⟩ := (HasPrefix_iff r p).mp hpre
          subst ht
          rw [get?_append_length] at hget
          cases t with
          | nil => simp at hget
          | cons c rest =>
            simp only [List.get?_cons_zero, Option.some.injEq] at hget
            exact ⟨rest, by rw [hget]⟩
        · simp at h
      · rintro ⟨rest, hrest⟩
        subst hrest
        have h1 : HasPrefix (p ++ '/' :: rest) p = true := (HasPrefix_iff _ _).mpr ⟨_, rfl⟩
        have h2 : (p ++ '/' :: rest).get? p.length = some '/' := by
          rw [get?_append_length]; rfl
        have h3 : decide ((p ++ '/' :: rest).length > p.length) = true := by simp
        rw [h1, h2, h3]
        rfl

/-- C12.  For all strings `p` and `r`, `pathMatch(p, r)` is true if and only
if `p` is empty, or `r = p`, or `r = p ++ "/" ++ rest` for some `rest`; the
prefix `/use` does not match the path `/users`. -/
theorem pathMatch_characterised :
    (∀ p r : GoString,
      pathMatch p r = true ↔ p = [] ∨ r = p ∨ ∃ rest, r = p ++ '/' :: rest) ∧
    pathMatch "/use".toList "/users".toList = false :=
  ⟨pathMatch_iff, by decide⟩

/-- C11, the code.  `USE` stores the prefixes `""` and `"/"` as `"/"`, and
`pathMatch("/", r)` holds only for `r = "/"` and for paths that start with
`//`: the character after the prefix has to be a slash.  So for the route
`/test` the middleware registered at `/` is not selected and does not run,
in either mode; the trace of the request is the call of the handler alone. -/
theorem root_middleware_not_selected (f : MiddlewareFunc) (automatic : Bool) :
    (InitMux.USE [] f).middlewares = [⟨['/'], f⟩] ∧
    (InitMux.USE ['/'] f).middlewares = [⟨['/'], f⟩] ∧
    (∀ r : GoString, pathMatch ['/'] r = true ↔ r = ['/'] ∨ ∃ rest, r = '/' :: '/' :: rest) ∧
    findMatchingMiddleware (InitMux.USE ['/'] f).middlewares "/test".toList = [] ∧
    ServeHTTP (((InitMux.USE ['/'] f).GET "/test".toList 1 1).setMiddlewareAutomatically
      automatic) ⟨"GET".toList, "/test".toList⟩ = some [Event.handler 1] := by
  refine ⟨rfl, rfl, ?_, ?_, ?_⟩
  · intro r
    rw [pathMatch_iff]
    simp
  · rfl
  · have hl : InDepthSearch
        (⟨GET, ⟨['/'], [⟨"test".toList, [], some 1, some 1⟩], none, none⟩⟩ : Tree).startNode
        "/test".toList = (some 1, some 1, some []) := by decide
    rw [ServeHTTP_matched
      (((InitMux.USE ['/'] f).GET "/test".toList 1 1).setMiddlewareAutomatically automatic)
      ⟨"GET".toList, "/test".toList⟩ GET
      ⟨GET, ⟨['/'], [⟨"test".toList, [], some 1, some 1⟩], none, none⟩⟩
      1 (some 1) (some []) (by decide) rfl rfl hl]
    exact dispatch_no_middleware _ _ _ _ _ rfl

/-! ## C19: the chain of manual mode -/

/-- With the cursor before `rest` and every middleware of `rest` calling `Next`
once, `Next` runs `rest` in order, each once, returns nil and leaves the
cursor behind the last middleware. -/
theorem Next_chain (rest done : List Middleware) (fuel : Nat) (s : Run)
    (hm : s.c.middlewares = done ++ rest)
    (hi : s.c.middlewareIndex = (done.length : Int) - 1)
    (hfuel : rest.length + 1 ≤ fuel)
    (hall : ∀ mw ∈ rest, CallsNextOnce mw.Handler) :
    Next fuel s =
      some (⟨{ s.c with middlewareIndex := ((done.length + rest.length : Nat) : Int) },
        s.trace ++ rest.map (fun mw => Event.middleware mw.Handler.id)⟩, false) := by
  induction rest generalizing done fuel s with
  | nil =>
    obtain ⟨c, tr⟩ := s
    obtain ⟨ps, rp, idx, mws, hd, au, ks⟩ := c
    simp only at hm hi
    subst hm hi
    cases fuel with
    | zero => omega
    | succ fuel =>
      have hlt : ¬ ((done.length : Int) - 1 + 1 < ((done ++ []).length : Int)) := by
        simp
      simp only [Next, hlt, if_false, List.map_nil, List.append_nil, List.length_nil,
        Nat.add_zero]
      simp
  | cons mw rest ih =>
    obtain ⟨c, tr⟩ := s
    obtain ⟨ps, rp, idx, mws, hd, au, ks⟩ := c
    simp only at hm hi
    subst hm hi
    cases fuel with
    | zero => omega
    | succ fuel =>
      have hlt : (done.length : Int) - 1 + 1 < ((done ++ mw :: rest).length : Int) := by
        simp only [List.length_append, List.length_cons]; push_cast; omega
      have hidx : ((done.length : Int) - 1 + 1).toNat = done.length := by omega
      have hget : (done ++ mw :: rest).get? done.length = some mw := by
        rw [List.get?_eq_getElem?, List.getElem?_append_right (le_refl _)]; simp
      have hstep := ih (done ++ [mw]) fuel
        ⟨⟨ps, rp, (done.length : Int) - 1 + 1, done ++ mw :: rest, hd, au, ks⟩,
          tr ++ [Event.middleware mw.Handler.id]⟩
        (by simp) (by simp) (by simp only [List.length_cons] at hfuel; omega)
        (fun x hx => hall x (by simp [hx]))
      simp only [Next, hlt, if_true, hidx, hget]
      rcases hall mw (by simp) with ⟨h1, h2⟩ | ⟨h1, h2⟩
      · simp only [callMiddleware, h1, h2, runNexts, hstep]
        simp [Nat.add_assoc, Nat.add_comm 1]
      · simp only [callMiddleware, h1, h2, runNexts, hstep]
        simp [Nat.add_assoc, Nat.add_comm 1]

/-- C19.  In manual mode, for a request that is matched to a handler, when
every matching middleware calls `Next` exactly once and returns no error:
`ServeHTTP` runs the matching middlewares in the order of registration, each
once, and then calls the route handler, once.  The chain `Next` starts leaves
the cursor at `k`, the number of matching middlewares: from `-1`, the `k + 1`
calls of `Next` (one by the dispatcher, one by each middleware) moved it by
one each. -/
theorem manual_chain_runs_all (r : Mux) (req : Request) (m : Method) (tree : Tree)
    (h : HandlerFunc) (c : Option CtxFunc) (p : Option Params)
    (hauto : r.automatic = false) (hm : m ≤ OPTIONS)
    (hs : methodToString m = req.Method) (ht : r.builtTrees m = some tree)
    (hl : InDepthSearch tree.startNode req.Path = (some h, c, p))
    (honce : ∀ mw ∈ r.middlewares, pathMatch mw.Path req.Path = true →
      CallsNextOnce mw.Handler) :
    ServeHTTP r req =
      some ((findMatchingMiddleware r.middlewares req.Path).map
        (fun mw => Event.middleware mw.Handler.id) ++ [Event.handler h]) ∧
    ∃ s, Next (requestFuel r req) ⟨{ requestCtx r req p with handler := c }, []⟩
        = some (s, false) ∧
      s.c.middlewareIndex = ((findMatchingMiddleware r.middlewares req.Path).length : Int) ∧
      s.trace = (findMatchingMiddleware r.middlewares req.Path).map
        (fun mw => Event.middleware mw.Handler.id) := by
  have hall : ∀ mw ∈ findMatchingMiddleware r.middlewares req.Path,
      CallsNextOnce mw.Handler := by
    intro mw hmw
    simp only [findMatchingMiddleware, List.mem_filter] at hmw
    exact honce mw hmw.1 hmw.2
  have hchain := Next_chain (findMatchingMiddleware r.middlewares req.Path) []
    (requestFuel r req) ⟨{ requestCtx r req p with handler := c }, []⟩ rfl rfl
    (le_refl _) hall
  refine ⟨?_, _, hchain, by simp, by simp⟩
  rw [ServeHTTP_matched r req m tree h c p hm hs ht hl]
  unfold dispatch
  simp only [hauto, Bool.false_eq_true, if_false]
  have e : ({ requestCtx r req p with
      middlewares := findMatchingMiddleware r.middlewares req.Path,
      middlewareIndex := -1, handler := c, automatic := false } : Ctx) =
      { requestCtx r req p with handler := c } := by
    simp [requestCtx, hauto]
  rw [e, hchain]
  simp

/-- C19, witness: two middlewares at `/api`, one calling `Next` and returning
nil, one returning `c.Next()`; both run, in order, then the handler. -/
theorem manual_chain_runs_all_witness :
    ServeHTTP (((InitMux.USE "/api".toList ⟨10, 1, Ret.ok⟩).USE "/api".toList
        ⟨11, 0, Ret.next⟩).GET "/api/users".toList 1 1)
      ⟨"GET".toList, "/api/users".toList⟩ =
      some [Event.middleware 10, Event.middleware 11, Event.handler 1] :=
  (manual_chain_runs_all
    (((InitMux.USE "/api".toList ⟨10, 1, Ret.ok⟩).USE "/api".toList
        ⟨11, 0, Ret.next⟩).GET "/api/users".toList 1 1)
    ⟨"GET".toList, "/api/users".toList⟩ GET _ 1 (some 1) (some []) rfl (by decide) rfl rfl
    (by decide) (by
      intro mw hmw _
      simp only [Mux.GET, Mux.addMutationRoute, Mux.USE, InitMux, List.nil_append,
        List.cons_append, List.mem_cons, List.mem_singleton, List.not_mem_nil,
        or_false] at hmw
      rcases hmw with e | e <;> subst e
      · exact Or.inl ⟨rfl, rfl⟩
      · exact Or.inr ⟨rfl, rfl⟩)).1

/-! ## C13: `GetURLParam` in the route handler -/

/-- C13, the code at failing inputs.  For `/users/:id` and the request
`/users/123` the handler gets `123`.  The request `/users//123` is dispatched
to the route too and traversal binds `id` to `123` (empty request segments are
skipped), but in the handler `GetURLParam("id")` reads `urlSplit[2]`, the
empty piece between the two slashes, and returns `""` without error.  With the pattern `users/:id`
(no leading slash) the request `/users/5` is dispatched to the route and
`GetURLParam("id")` returns `users`.  With the pattern `/a//:id` the request
`/a/5` is dispatched to the route and `GetURLParam("id")` panics, the index 3
being out of range. -/
theorem GetURLParam_by_position :
    (∃ c, wrapperCtx (InitMux.GET "/users/:id".toList 1 1) ⟨1, 1, "/users/:id".toList⟩
        ⟨"GET".toList, "/users/123".toList⟩ = Result.ok c ∧
      GetURLParam c ⟨"GET".toList, "/users/123".toList⟩ "id".toList
        = Result.ok ("123".toList, none)) ∧
    (ServeHTTP (InitMux.GET "/users/:id".toList 1 1) ⟨"GET".toList, "/users//123".toList⟩
        = some [Event.handler 1] ∧
      (∃ t, (InitMux.GET "/users/:id".toList 1 1).builtTrees GET = some t ∧
        InDepthSearch t.startNode "/users//123".toList =
          (some 1, some 1, some [("id".toList, "123".toList)])) ∧
      ∃ c, wrapperCtx (InitMux.GET "/users/:id".toList 1 1) ⟨1, 1, "/users/:id".toList⟩
          ⟨"GET".toList, "/users//123".toList⟩ = Result.ok c ∧
        GetURLParam c ⟨"GET".toList, "/users//123".toList⟩ "id".toList
          = Result.ok ([], none)) ∧
    (ServeHTTP (InitMux.GET "users/:id".toList 1 1) ⟨"GET".toList, "/users/5".toList⟩
        = some [Event.handler 1] ∧
      ∃ c, wrapperCtx (InitMux.GET "users/:id".toList 1 1) ⟨1, 1, "users/:id".toList⟩
          ⟨"GET".toList, "/users/5".toList⟩ = Result.ok c ∧
        GetURLParam c ⟨"GET".toList, "/users/5".toList⟩ "id".toList
          = Result.ok ("users".toList, none)) ∧
    (ServeHTTP (InitMux.GET "/a//:id".toList 1 1) ⟨"GET".toList, "/a/5".toList⟩
        = some [Event.handler 1] ∧
      ∃ c, wrapperCtx (InitMux.GET "/a//:id".toList 1 1) ⟨1, 1, "/a//:id".toList⟩
          ⟨"GET".toList, "/a/5".toList⟩ = Result.ok c ∧
        GetURLParam c ⟨"GET".toList, "/a/5".toList⟩ "id".toList = Result.panic) := by
  refine ⟨⟨_, rfl, by decide⟩, ⟨by decide, ⟨_, rfl, by decide⟩, ⟨_, rfl, by decide⟩⟩,
    ⟨by decide, ⟨_, rfl, by decide⟩⟩, ⟨by decide, ⟨_, rfl, by decide⟩⟩⟩

/-! ## C16: a parameter name that occurs twice -/

theorem Params.get?_set (params : Params) (k v : GoString) :
    (params.set k v).get? k = some v := by
  induction params with
  | nil => simp [Params.set, Params.get?]
  | cons kv rest ih =>
    obtain ⟨k', v'⟩ := kv
    by_cases e : k' = k
    · simp [Params.set, Params.get?, e]
    · simp [Params.set, Params.get?, e, ih]

theorem Params.length_set_of_mem (params : Params) (k v : GoString)
    (h : (params.get? k).isSome) : (params.set k v).length = params.length := by
  induction params with
  | nil => simp [Params.get?] at h
  | cons kv rest ih =>
    obtain ⟨k', v'⟩ := kv
    by_cases e : k' = k
    · simp [Params.set, e]
    · simp only [Params.get?, e, if_false] at h
      simp [Params.set, e, ih h]

/-- C16, the code.  For `/:id/x/:id` requested as `/1/x/2` the map
`InDepthSearch` returns holds `id = 2` and nothing else: the second
occurrence overwrote the first.  In general a second `params[k] = v'` after
`params[k] = v` leaves `v'` under `k` and adds no entry.  The
numeric suffix exists only in `getParams`, which for the same pattern and
request returns `id = 1`, `id_1 = 2`. -/
theorem InDepthSearch_overwrites_repeated_name :
    InDepthSearch (createTreeIdea ⟨1, 1, "/:id/x/:id".toList⟩ none GET).1.startNode
        "/1/x/2".toList = (some 1, some 1, some [("id".toList, "2".toList)]) ∧
    (∀ (params : Params) (k v v' : GoString),
      ((params.set k v).set k v').get? k = some v' ∧
        ((params.set k v).set k v').length = (params.set k v).length) ∧
    getParams "/1/x/2".toList "/:id/x/:id".toList =
      Result.ok (some [("id".toList, "1".toList), ("id_1".toList, "2".toList)]) := by
  refine ⟨by decide, ?_, by decide⟩
  intro params k v v'
  exact ⟨Params.get?_set _ k v', Params.length_set_of_mem _ k v'
    (by rw [Params.get?_set]; rfl)⟩
/-! ## C17: a regex-marked segment at registration -/

theorem triple_of_fst {α β γ : Type} (x : α × β × γ) (a : α) (h : x.1 = a) :
    ∃ c p, x = (a, c, p) := by
  obtain ⟨x1, x2, x3⟩ := x
  exact ⟨x2, x3, by simp at h; rw [h]⟩

theorem parameter_route_lookup (s n' : GoString) (h : Nat) (x y z w : Option Nat)
    (hs : IsSegment s) (v : GoString) (hv : v ≠ []) (hsl : '/' ∉ v) :
    (InDepthSearch ⟨['/'], [⟨s, [⟨':' :: n', [], some h, x⟩], w, y⟩], none, z⟩
      (joinPath [s, v])).1 = some h := by
  rw [InDepthSearch_joinPath _ s [v] (by simp [hs.2.1, hsl])]
  by_cases e : ':' :: n' = v
  · simp [searchSegments, searchChildren, hs.1, hv, e]
  · simp [searchSegments, searchChildren, hs.1, hv, e, HasPrefix]

/-- C17, as stated, fails: the route `/x/:|[|`, whose pattern `[` does not
compile, is accepted by `createTreeIdea`, is part of the tree `buildTrees`
returns, and a request for `/x/5` is dispatched to its handler. -/
theorem uncompiled_regex_counterexample :
    (createTreeIdea ⟨1, 1, "/x/:|[|".toList⟩ none GET).2 = none ∧
    (createTreeIdea ⟨1, 1, "/x/:|[|".toList⟩ none GET).2 ≠ some "/x/:|[|".toList ∧
    (∃ t, buildTrees (InitMux.GET "/x/:|[|".toList 1 1) GET = some t ∧
      (InDepthSearch t.startNode "/x/5".toList).1 = some 1) ∧
    ServeHTTP (InitMux.GET "/x/:|[|".toList 1 1) ⟨"GET".toList, "/x/5".toList⟩
      = some [Event.handler 1] := by
  refine ⟨by decide, by decide, ⟨_, rfl, by decide⟩, by decide⟩

/-- C17 (amended).  Whatever text stands between the bars of a regex-marked
segment, compilable or not, the route `/x/:|text|` is registered like any
parameter route: `createTreeIdea` returns no error, the route is in the tree
`buildTrees` returns, and every request `/x/v` with a non-empty segment `v` is
dispatched to its handler, in either mode.  Registration compiles nothing. -/
theorem regex_text_unused_at_registration (automatic : Bool) (h : HandlerFunc) (t : CtxFunc)
    (text v : GoString) (htext : '/' ∉ text) (hv : v ≠ []) (hsl : '/' ∉ v) :
    (createTreeIdea ⟨h, t, joinPath ["x".toList, ':' :: '|' :: (text ++ ['|'])]⟩ none
      GET).2 = none ∧
    ServeHTTP ((InitMux.GET (joinPath ["x".toList, ':' :: '|' :: (text ++ ['|'])]) h
        t).setMiddlewareAutomatically automatic)
      ⟨"GET".toList, joinPath ["x".toList, v]⟩ = some [Event.handler h] := by
  have hx : IsSegment "x".toList := ⟨by decide, by decide, by decide⟩
  have hn : '/' ∉ '|' :: (text ++ ['|']) := by
    simp only [List.mem_cons, List.mem_append, List.mem_singleton, List.not_mem_nil,
      or_false, not_or]
    exact ⟨by decide, htext, by decide⟩
  obtain ⟨n', e2⟩ := routePaths_param hx hn
  have e1 : routePaths (joinPath ["x".toList]) = [[], "x".toList] :=
    routePaths_joinPath _ [] (by simpa using hx)
  obtain ⟨b1, _⟩ := prefix_second GET "x".toList n' 0 0 h t (joinPath ["x".toList])
    (joinPath ["x".toList, ':' :: '|' :: (text ++ ['|'])]) (segment_ne hx)
    (by simp [joinPath]) (by simp [joinPath]) e1 e2
  refine ⟨by rw [b1], ?_⟩
  have htree : Mux.builtTrees ((InitMux.GET (joinPath ["x".toList,
      ':' :: '|' :: (text ++ ['|'])]) h t).setMiddlewareAutomatically automatic) GET =
      some ⟨GET, ⟨['/'], [⟨"x".toList, [⟨':' :: n', [], some h, some t⟩], none, none⟩],
        none, none⟩⟩ := by
    have hb : Mux.builtTrees ((InitMux.GET (joinPath ["x".toList,
        ':' :: '|' :: (text ++ ['|'])]) h t).setMiddlewareAutomatically automatic) GET =
        buildRoutes GET [⟨h, t, joinPath ["x".toList, ':' :: '|' :: (text ++ ['|'])]⟩]
          none := rfl
    rw [hb]
    simp only [buildRoutes, b1]
  obtain ⟨c, p, hl⟩ := triple_of_fst _ _
    (parameter_route_lookup "x".toList n' h (some t) none none none hx v hv hsl)
  rw [ServeHTTP_matched _ _ GET _ h c p (by decide) rfl htree hl]
  exact dispatch_no_middleware _ _ _ _ _ rfl

/-- C17, witness: the pattern `[` and the request `/x/5`, automatic mode. -/
theorem regex_text_unused_at_registration_witness :
    ServeHTTP ((InitMux.GET "/x/:|[|".toList 1 1).setMiddlewareAutomatically true)
      ⟨"GET".toList, "/x/5".toList⟩ = some [Event.handler 1] :=
  (regex_text_unused_at_registration true 1 1 "[".toList "5".toList (by decide) (by decide)
    (by decide)).2

/-! ## C14: a pattern with a trailing slash -/

theorem routePaths_trailing_slash (s : GoString) (segs : List GoString)
    (h : ∀ x ∈ s :: segs, IsSegment x) :
    routePaths (joinPath (s :: segs) ++ ['/']) = [] :: s :: (segs ++ [[]]) := by
  have e : joinPath (s :: segs) ++ ['/'] = joinPath (s :: (segs ++ [[]])) := by
    have := joinPath_append (s :: segs) [[]]
    simp only [List.cons_append] at this
    rw [this]
    simp [joinPath]
  have hsl : ∀ x ∈ s :: (segs ++ [[]]), '/' ∉ x := by
    intro x hx
    simp only [List.mem_cons, List.mem_append, List.mem_singleton, List.not_mem_nil,
      or_false] at hx
    rcases hx with e | e | e
    · exact (h x (by simp [e])).2.1
    · exact (h x (by simp [e])).2.1
    · rw [e]; simp
  have hsplit := Split_joinPath s (segs ++ [[]]) hsl
  have htrim : TrimSpace (joinPath (s :: segs) ++ ['/']) = joinPath (s :: segs) ++ ['/'] := by
    apply TrimSpace_eq_self_of
    · intro c rest hc
      simp only [joinPath, List.cons_append, List.cons.injEq] at hc
      rw [← hc.1]; exact isSpace_slash
    · intro hne
      rw [List.getLast_append_of_ne_nil (by simp)]
      exact isSpace_slash
  have hmap : List.map TrimSpace (s :: (segs ++ [[]])) = s :: (segs ++ [[]]) := by
    apply map_eq_self
    intro x hx
    simp only [List.mem_cons, List.mem_append, List.mem_singleton, List.not_mem_nil,
      or_false] at hx
    rcases hx with e | e | e
    · exact (h x (by simp [e])).2.2
    · exact (h x (by simp [e])).2.2
    · rw [e]; exact TrimSpace_nil
  unfold routePaths
  rw [htrim, e, hsplit]
  simp only [List.length_cons, List.map_cons, TrimSpace_nil]
  have h2 : 2 ≤ (segs ++ [[]]).length + 1 + 1 := by omega
  simp only [List.map_cons] at hmap
  rw [if_pos h2, hmap]

/-- Below a node without children, real segments followed by a last empty one
build a chain and attach nothing. -/
theorem insertPaths_bare (handler : Route) (s : GoString) (segs : List GoString)
    (h : ∀ x ∈ s :: segs, x ≠ [] ∧ x ≠ ['/']) (p : GoString) (hh cc : Option Nat) :
    insertPaths handler (s :: (segs ++ [[]])) ⟨p, [], hh, cc⟩ =
      (⟨p, [bareChain s segs], hh, cc⟩, none) := by
  induction segs generalizing s p hh cc with
  | nil =>
    have hs := h s (by simp)
    have hnot : ¬ (s = [] ∨ s = ['/']) := by simp [hs.1, hs.2]
    rw [List.nil_append, insertPaths_new_more handler (by simp [FindNodePath]) hnot (by simp),
      insertPaths_new_last handler (by simp [FindNodePath, newChild])]
    simp [AddNode, newChild, bareChain]
  | cons s' rest ih =>
    have hs := h s (by simp)
    have hnot : ¬ (s = [] ∨ s = ['/']) := by simp [hs.1, hs.2]
    rw [List.cons_append,
      insertPaths_new_more handler (by simp [FindNodePath]) hnot (by simp)]
    have := ih s' (fun x hx => h x (by simp [hx])) s none none
    simp only [newChild] at this ⊢
    simp [this, bareChain]

theorem bareChain_children (seg p : GoString) (l : List GoString) (ps : Params) :
    searchChildren seg (bareChain p l).children ps = none ∨
      ∃ s l' ps', searchChildren seg (bareChain p l).children ps = some (bareChain s l', ps') := by
  cases l with
  | nil => exact Or.inl rfl
  | cons s l' =>
    simp only [bareChain, searchChildren]
    split
    · exact Or.inr ⟨s, l', _, rfl⟩
    · split
      · exact Or.inr ⟨s, l', _, rfl⟩
      · exact Or.inl rfl

theorem bareChain_lookup (segs : List GoString) (p : GoString) (l : List GoString)
    (ps : Params) : (searchSegments segs (bareChain p l) ps).1 = none := by
  induction segs generalizing p l ps with
  | nil => cases l <;> rfl
  | cons seg rest ih =>
    simp only [searchSegments]
    split
    · exact ih p l ps
    · rcases bareChain_children seg p l ps with e | ⟨s, l', ps', e⟩
      · rw [e]
      · rw [e]; exact ih s l' ps'

theorem createTreeIdea_trailing_slash (handler : Route) (m : Method) (s : GoString)
    (segs : List GoString) (h : ∀ x ∈ s :: segs, IsSegment x)
    (hp : handler.path = joinPath (s :: segs) ++ ['/']) :
    createTreeIdea handler none m = (⟨m, bareChain ['/'] (s :: segs)⟩, none) := by
  have hroot : ¬ (handler.path = [] ∨ handler.path = ['/']) := by
    rw [hp]; simp [joinPath]
  rw [createTreeIdea_eq _ _ _ hroot, hp, routePaths_trailing_slash s segs h]
  have e : (orFresh none m).startNode = ⟨['/'], [], none, none⟩ := rfl
  rw [e, insertPaths_skip handler (by simp [FindNodePath]) (Or.inl rfl) (by simp),
    insertPaths_bare handler s segs (fun x hx => segment_ne (h x hx))]
  rfl

theorem chain_self_lookup (handler : Route) (s : GoString) (segs : List GoString)
    (h : ∀ x ∈ s :: segs, x ≠ []) (p : GoString) (hh cc : Option Nat) (ps : Params) :
    searchSegments (s :: segs) ⟨p, [chainNode handler s segs], hh, cc⟩ ps =
      (some handler.h, some handler.CtxHandler, some ps) := by
  induction segs generalizing s p hh cc with
  | nil =>
    simp [searchSegments, searchChildren, chainNode, h s (by simp)]
  | cons s' rest ih =>
    have hc : searchChildren s [chainNode handler s (s' :: rest)] ps =
        some (chainNode handler s (s' :: rest), ps) := by
      simp [searchChildren, chainNode_path]
    have hstep : searchSegments (s :: s' :: rest)
        ⟨p, [chainNode handler s (s' :: rest)], hh, cc⟩ ps =
        searchSegments (s' :: rest) (chainNode handler s (s' :: rest)) ps :=
      searchSegments_step (h s (by simp)) hc
    rw [hstep]
    exact ih s' (fun x hx => h x (by simp [hx])) s none none

/-- No handler for the request in any tree of a method with its name: 404. -/
theorem ServeHTTP_not_found (r : Mux) (req : Request)
    (h : ∀ m t, methodToString m = req.Method → r.builtTrees m = some t →
      (InDepthSearch t.startNode req.Path).1 = none) :
    ServeHTTP r req = some [Event.notFound] := by
  unfold ServeHTTP
  generalize [GET, POST, PUT, DELETE, PATCH, HEAD, OPTIONS] = l
  induction l with
  | nil => rfl
  | cons method rest ih =>
    rw [serveMethods]
    split
    · rename_i t ht
      split
      · rename_i hs
        have := h method t hs ht
        split
        · rename_i hl
          rw [hl] at this
          simp at this
        · exact ih
      · exact ih
    · exact ih

/-- C14, the code.  Registering `p ++ "/"`, for a pattern `p = /s1/.../sk` of
real segments, on an empty tree is accepted and creates the nodes of `p`, but
attaches the handler nowhere: the last segment the loop sees is `""`, for which
`AddNode` returns without adding or marking anything.  No request path finds a
handler in that tree, `p` and `p ++ "/"` included, and every GET request is
answered 404; registering `p` itself does put the handler on the node that the
request `p` reaches. -/
theorem trailing_slash_route_unreachable (m : Method) (h c : Nat) (s : GoString)
    (segs : List GoString) (hseg : ∀ x ∈ s :: segs, IsSegment x) :
    (createTreeIdea ⟨h, c, joinPath (s :: segs) ++ ['/']⟩ none m).2 = none ∧
    (∀ path, (InDepthSearch
      (createTreeIdea ⟨h, c, joinPath (s :: segs) ++ ['/']⟩ none m).1.startNode path).1
        = none) ∧
    (∀ path, ServeHTTP (InitMux.GET (joinPath (s :: segs) ++ ['/']) h c)
      ⟨"GET".toList, path⟩ = some [Event.notFound]) ∧
    (InDepthSearch (createTreeIdea ⟨h, c, joinPath (s :: segs)⟩ none m).1.startNode
      (joinPath (s :: segs))).1 = some h := by
  have hbare := fun m' => createTreeIdea_trailing_slash
    ⟨h, c, joinPath (s :: segs) ++ ['/']⟩ m' s segs hseg rfl
  refine ⟨by rw [hbare], ?_, ?_, ?_⟩
  · intro path
    rw [hbare]
    exact bareChain_lookup _ _ _ _
  · intro path
    apply ServeHTTP_not_found
    intro m' t hs ht
    have hm' : m' = GET := by
      by_contra hne
      have hb : (InitMux.GET (joinPath (s :: segs) ++ ['/']) h c).builtTrees m' = none := by
        simp only [Mux.builtTrees, Mux.GET, Mux.addMutationRoute, InitMux, buildTrees, hne,
          if_false]
        split <;> rfl
      rw [hb] at ht
      simp at ht
    subst hm'
    have hb : (InitMux.GET (joinPath (s :: segs) ++ ['/']) h c).builtTrees GET =
        buildRoutes GET [⟨h, c, joinPath (s :: segs) ++ ['/']⟩] none := rfl
    rw [hb] at ht
    simp only [buildRoutes, hbare GET, Option.some.injEq] at ht
    rw [← ht]
    exact bareChain_lookup _ _ _ _
  · rw [createTreeIdea_single ⟨h, c, joinPath (s :: segs)⟩ m s segs hseg rfl]
    simp only
    rw [InDepthSearch_joinPath _ s segs (fun x hx => (hseg x hx).2.1),
      chain_self_lookup _ s segs (fun x hx => (hseg x hx).1)]

/-- C14, witness: `GET("/users/", h)`; the requests `/users` and `/users/` get
404. -/
theorem trailing_slash_route_unreachable_witness :
    ServeHTTP (InitMux.GET "/users/".toList 1 1) ⟨"GET".toList, "/users".toList⟩
        = some [Event.notFound] ∧
      ServeHTTP (InitMux.GET "/users/".toList 1 1) ⟨"GET".toList, "/users/".toList⟩
        = some [Event.notFound] :=
  ⟨(trailing_slash_route_unreachable GET 1 1 "users".toList []
      (by intro x hx; simp only [List.mem_singleton] at hx; subst hx
          exact ⟨by decide, by decide, by decide⟩)).2.2.1 "/users".toList,
    (trailing_slash_route_unreachable GET 1 1 "users".toList []
      (by intro x hx; simp only [List.mem_singleton] at hx; subst hx
          exact ⟨by decide, by decide, by decide⟩)).2.2.1 "/users/".toList⟩

/-! ## Every handler in a built tree comes from an accepted route -/

theorem realSegs_cons_real {q : GoString} (h : q ≠ [] ∧ q ≠ ['/']) (l : List GoString) :
    realSegs (q :: l) = q :: realSegs l := by
  simp [realSegs, List.filter_cons, h.1, h.2]

theorem realSegs_cons_skip {q : GoString} (h : q = [] ∨ q = ['/']) (l : List GoString) :
    realSegs (q :: l) = realSegs l := by
  rcases h with e | e <;> subst e <;> simp [realSegs, List.filter_cons]

theorem TreeSound_intro (Reg : List GoString → HandlerFunc → Prop) (pfx : List GoString)
    (node : Node)
    (hnames : ∀ q c, FindNodePath node q = some c → q ≠ [] ∧ q ≠ ['/'])
    (hH : ∀ h, node.Handler = some h → Reg pfx h)
    (hch : ∀ q c, FindNodePath node q = some c → TreeSound Reg (pfx ++ [q]) c) :
    TreeSound Reg pfx node := by
  intro qs
  induction qs with
  | nil =>
    intro n hw
    simp only [walk, Option.some.injEq] at hw
    subst hw
    exact ⟨hnames, fun h hh => by simpa [realSegs] using hH h hh⟩
  | cons q rest ih =>
    intro n hw
    simp only [walk] at hw
    cases hf : FindNodePath node q with
    | some c =>
      rw [hf] at hw
      obtain ⟨h1, h2⟩ := hch q c hf rest n hw
      refine ⟨h1, fun h hh => ?_⟩
      have := h2 h hh
      rw [realSegs_cons_real (hnames q c hf)]
      simpa using this
    | none =>
      rw [hf] at hw
      by_cases hq : q = [] ∨ q = ['/']
      · simp only [hq, if_true] at hw
        obtain ⟨h1, h2⟩ := ih n hw
        refine ⟨h1, fun h hh => ?_⟩
        rw [realSegs_cons_skip hq]
        exact h2 h hh
      · simp [hq] at hw

theorem TreeSound_names {Reg : List GoString → HandlerFunc → Prop} {pfx : List GoString}
    {node : Node} (h : TreeSound Reg pfx node) {q : GoString} {c : Node}
    (hf : FindNodePath node q = some c) : q ≠ [] ∧ q ≠ ['/'] :=
  (h [] node rfl).1 q c hf

theorem TreeSound_handler {Reg : List GoString → HandlerFunc → Prop} {pfx : List GoString}
    {node : Node} (h : TreeSound Reg pfx node) {g : HandlerFunc}
    (hg : node.Handler = some g) : Reg pfx g := by
  simpa [realSegs] using (h [] node rfl).2 g hg

theorem TreeSound_child {Reg : List GoString → HandlerFunc → Prop} {pfx : List GoString}
    {node : Node} (h : TreeSound Reg pfx node) {q : GoString} {c : Node}
    (hf : FindNodePath node q = some c) : TreeSound Reg (pfx ++ [q]) c := by
  intro qs n hw
  have hw' : walk (q :: qs) node = some n := by simp only [walk, hf]; exact hw
  obtain ⟨h1, h2⟩ := h (q :: qs) n hw'
  refine ⟨h1, fun g hg => ?_⟩
  have := h2 g hg
  rw [realSegs_cons_real (TreeSound_names h hf)] at this
  simpa using this

theorem TreeSound_mono {Reg Reg' : List GoString → HandlerFunc → Prop}
    (hmono : ∀ x g, Reg x g → Reg' x g) {pfx : List GoString} {node : Node}
    (h : TreeSound Reg pfx node) : TreeSound Reg' pfx node :=
  fun qs n hw => ⟨(h qs n hw).1, fun g hg => hmono _ _ ((h qs n hw).2 g hg)⟩

theorem TreeSound_leaf (Reg : List GoString → HandlerFunc → Prop) (pfx : List GoString)
    (node : Node) (hc : node.children = [])
    (hH : ∀ h, node.Handler = some h → Reg pfx h) : TreeSound Reg pfx node := by
  apply TreeSound_intro _ _ _ _ hH
  · intro q c hf; simp [FindNodePath, hc] at hf
  · intro q c hf; simp [FindNodePath, hc] at hf

theorem TreeSound_ChangeNodeState {Reg : List GoString → HandlerFunc → Prop}
    {pfx : List GoString} {f : Node} (h : TreeSound Reg pfx f) (handler : Route)
    (hnew : Reg pfx handler.h) : TreeSound Reg pfx (ChangeNodeState f handler true) := by
  apply TreeSound_intro
  · intro q c hf
    exact TreeSound_names h (by simpa [ChangeNodeState, FindNodePath] using hf)
  · intro g hg
    simp only [ChangeNodeState, if_true, Option.some.injEq] at hg
    rw [← hg]; exact hnew
  · intro q c hf
    exact TreeSound_child h (by simpa [ChangeNodeState, FindNodePath] using hf)

theorem TreeSound_replaceChild {Reg : List GoString → HandlerFunc → Prop}
    {pfx : List GoString} {node f c' : Node} {path : GoString} (h : TreeSound Reg pfx node)
    (hf : FindNodePath node path = some f) (hc : c'.path = path)
    (hc' : TreeSound Reg (pfx ++ [path]) c') :
    TreeSound Reg pfx { node with children := replaceChild path c' node.children } := by
  apply TreeSound_intro
  · intro q c hq
    rw [FindNodePath_replaceChild hc] at hq
    by_cases e : q = path
    · rw [e]; exact TreeSound_names h hf
    · simp only [e, if_false] at hq
      exact TreeSound_names h hq
  · intro g hg; exact TreeSound_handler h hg
  · intro q c hq
    rw [FindNodePath_replaceChild hc] at hq
    by_cases e : q = path
    · subst e
      simp only [if_true, hf, Option.map_some', Option.some.injEq] at hq
      rw [← hq]; exact hc'
    · simp only [e, if_false] at hq
      exact TreeSound_child h hq

theorem TreeSound_append {Reg : List GoString → HandlerFunc → Prop} {pfx : List GoString}
    {node d : Node} (h : TreeSound Reg pfx node) (hd : d.path ≠ [] ∧ d.path ≠ ['/'])
    (hd' : TreeSound Reg (pfx ++ [d.path]) d) :
    TreeSound Reg pfx { node with children := node.children ++ [d] } := by
  apply TreeSound_intro
  · intro q c hq
    rw [FindNodePath_append] at hq
    cases hf : FindNodePath node q with
    | some c0 => exact TreeSound_names h hf
    | none =>
      rw [hf] at hq
      by_cases e : d.path = q
      · rw [← e]; exact hd
      · simp [e] at hq
  · intro g hg; exact TreeSound_handler h hg
  · intro q c hq
    rw [FindNodePath_append] at hq
    cases hf : FindNodePath node q with
    | some c0 =>
      rw [hf] at hq
      simp only [Option.some.injEq] at hq
      rw [← hq]; exact TreeSound_child h hf
    | none =>
      rw [hf] at hq
      by_cases e : d.path = q
      · simp only [e, if_true, Option.some.injEq] at hq
        rw [← hq, ← e]; exact hd'
      · simp [e] at hq

/-- The insertion loop keeps the tree sound, when the route it inserts is one
`Reg` knows at the place its handler goes to. -/
theorem insertPaths_TreeSound {Reg : List GoString → HandlerFunc → Prop} (handler : Route)
    (paths : List GoString) :
    ∀ (pfx : List GoString) (node : Node), Reg (pfx ++ realSegs paths) handler.h →
      TreeSound Reg pfx node → TreeSound Reg pfx (insertPaths handler paths node).1 := by
  induction paths with
  | nil => intro pfx node _ hinv; simpa [insertPaths] using hinv
  | cons path rest ih =>
    intro pfx node hnew hinv
    cases hf : FindNodePath node path with
    | some f =>
      have hreal := TreeSound_names hinv hf
      have hpath := FindNodePath_path hf
      rw [realSegs_cons_real hreal] at hnew
      have hnew' : Reg ((pfx ++ [path]) ++ realSegs rest) handler.h := by simpa using hnew
      by_cases hr : rest = []
      · subst hr
        by_cases hh : f.Handler.isSome
        · rw [insertPaths_found_last_taken handler hf hh]; exact hinv
        · rw [insertPaths_found_last_free handler hf hh]
          exact TreeSound_replaceChild hinv hf
            (by rw [ChangeNodeState_path]; exact hpath)
            (TreeSound_ChangeNodeState (TreeSound_child hinv hf) handler
              (by simpa [realSegs] using hnew'))
      · rw [insertPaths_found_more handler hf hr]
        exact TreeSound_replaceChild hinv hf ((insertPaths_fields _ _ _).1.trans hpath)
          (ih _ _ hnew' (TreeSound_child hinv hf))
    | none =>
      by_cases hp : path = [] ∨ path = ['/']
      · rw [realSegs_cons_skip hp] at hnew
        by_cases hr : rest = []
        · subst hr
          rw [insertPaths_new_last handler hf]
          simp only [AddNode, hp, if_true]; exact hinv
        · rw [insertPaths_skip handler hf hp hr]
          exact ih _ _ hnew hinv
      · have hreal : path ≠ [] ∧ path ≠ ['/'] := by
          constructor
          · intro e; exact hp (Or.inl e)
          · intro e; exact hp (Or.inr e)
        rw [realSegs_cons_real hreal] at hnew
        have hnew' : Reg ((pfx ++ [path]) ++ realSegs rest) handler.h := by simpa using hnew
        by_cases hr : rest = []
        · subst hr
          rw [insertPaths_new_last handler hf]
          simp only [AddNode, hp, if_false]
          have hd : (newChild handler true path).path = path := rfl
          apply TreeSound_append hinv
          · rw [hd]; exact hreal
          · rw [hd]
            apply TreeSound_leaf _ _ _ rfl
            intro g hg
            have hg' : handler.h = g := by simpa [newChild] using hg
            rw [← hg']
            simpa [realSegs] using hnew'
        · rw [insertPaths_new_more handler hf hp hr]
          have hd : (insertPaths handler rest (newChild handler false path)).1.path = path :=
            (insertPaths_fields _ _ _).1
          apply TreeSound_append hinv
          · rw [hd]; exact hreal
          · rw [hd]
            apply ih _ _ hnew'
            apply TreeSound_leaf _ _ _ rfl
            intro g hg
            simp [newChild] at hg

/-- A node without children takes every route. -/
theorem insertPaths_no_children (handler : Route) (paths : List GoString) (node : Node)
    (hc : node.children = []) : (insertPaths handler paths node).2 = none := by
  induction paths generalizing node with
  | nil => simp [insertPaths]
  | cons path rest ih =>
    have hf : FindNodePath node path = none := by simp [FindNodePath, hc]
    by_cases hr : rest = []
    · subst hr; rw [insertPaths_new_last handler hf]
    · by_cases hp : path = [] ∨ path = ['/']
      · rw [insertPaths_skip handler hf hp hr]; exact ih node hc
      · rw [insertPaths_new_more handler hf hp hr]
        exact ih _ rfl

/-- An error of the insertion loop: the node is left as it was, the error
names the route, and the walk of the segments ends on a node that has a
handler already. -/
theorem insertPaths_error (handler : Route) (paths : List GoString) (node : Node)
    (e : GoString) (he : (insertPaths handler paths node).2 = some e) :
    (insertPaths handler paths node).1 = node ∧ e = handler.path ∧
      ∃ n, walk paths node = some n ∧ n.Handler.isSome := by
  induction paths generalizing node with
  | nil => simp [insertPaths] at he
  | cons path rest ih =>
    cases hf : FindNodePath node path with
    | some f =>
      by_cases hr : rest = []
      · subst hr
        by_cases hh : f.Handler.isSome
        · rw [insertPaths_found_last_taken handler hf hh] at he ⊢
          simp only [Option.some.injEq] at he
          exact ⟨rfl, he.symm, f, by simp [walk, hf], hh⟩
        · rw [insertPaths_found_last_free handler hf hh] at he
          simp at he
      · rw [insertPaths_found_more handler hf hr] at he ⊢
        obtain ⟨h1, h2, n, h3, h4⟩ := ih f he
        refine ⟨?_, h2, n, by simp only [walk, hf]; exact h3, h4⟩
        simp only [h1]
        rw [replaceChild_self (p := path) hf]
        exact Node_eta node
    | none =>
      by_cases hr : rest = []
      · subst hr
        rw [insertPaths_new_last handler hf] at he
        simp at he
      · by_cases hp : path = [] ∨ path = ['/']
        · rw [insertPaths_skip handler hf hp hr] at he ⊢
          obtain ⟨h1, h2, n, h3, h4⟩ := ih node he
          exact ⟨h1, h2, n, by simp only [walk, hf, hp, if_true]; exact h3, h4⟩
        · rw [insertPaths_new_more handler hf hp hr] at he
          simp only at he
          rw [insertPaths_no_children handler rest _ rfl] at he
          simp at he

theorem Accepted_append {m : Method} {routes : List Route} (r : Route) {x : List GoString}
    {g : HandlerFunc} (h : Accepted m routes x g) : Accepted m (routes ++ [r]) x g := by
  obtain ⟨pre, r', post, h1, h2, h3, h4⟩ := h
  exact ⟨pre, r', post ++ [r], by simp [h1], h2, h3, h4⟩

/-- Every handler in the tree `buildTrees` builds for a method sits at the end
of the segment list of a route that was accepted under that method. -/
theorem buildRoutes_sound (m : Method) (routes : List Route) :
    TreeSound (Accepted m routes) [] (orFresh (buildRoutes m routes none) m).startNode := by
  induction routes using List.reverseRecOn with
  | nil =>
    apply TreeSound_leaf _ _ _ rfl
    intro g hg
    simp [buildRoutes, orFresh, freshRoot] at hg
  | append_singleton pre r ih =>
    have ih' : TreeSound (Accepted m (pre ++ [r])) []
        (orFresh (buildRoutes m pre none) m).startNode :=
      TreeSound_mono (fun x g h => Accepted_append r h) ih
    rw [buildRoutes_append]
    by_cases hroot : r.path = [] ∨ r.path = ['/']
    · have hh := buildRoutes_root_handler m pre none rfl
      have e := createTreeIdea_root r (buildRoutes m pre none) m hroot
      simp only [hh, Option.isSome_none, Bool.false_eq_true, if_false] at e
      simp only [buildRoutes, e]
      exact ih'
    · have e := createTreeIdea_eq r (buildRoutes m pre none) m hroot
      cases herr : (insertPaths r (routePaths r.path)
          (orFresh (buildRoutes m pre none) m).startNode).2 with
      | some err =>
        obtain ⟨h1, _, _⟩ := insertPaths_error _ _ _ _ herr
        rw [h1, herr] at e
        simp only [buildRoutes, e]
        cases hb : buildRoutes m pre none with
        | none => rw [hb] at ih'; exact ih'
        | some t0 =>
          rw [hb] at ih'
          simpa [orFresh, Tree_eta] using ih'
      | none =>
        rw [herr] at e
        simp only [buildRoutes, e]
        have hacc : Accepted m (pre ++ [r]) ([] ++ realSegs (routePaths r.path)) r.h :=
          ⟨pre, r, [], rfl, by rw [e], rfl, rfl⟩
        exact insertPaths_TreeSound r _ _ _ hacc ih'

theorem filter_cons_nonempty {seg : GoString} (h : seg ≠ []) (rest : List GoString) :
    (seg :: rest).filter (fun s => decide (s ≠ [])) =
      seg :: rest.filter (fun s => decide (s ≠ [])) := by
  simp [List.filter_cons, h]

/-- A lookup that returns a handler went down the names of a route `Reg`
knows: name by name, the name is the request segment or a parameter. -/
theorem lookup_sound {Reg : List GoString → HandlerFunc → Prop} (segs : List GoString) :
    ∀ (pfx : List GoString) (node : Node) (ps : Params) (h : HandlerFunc)
      (c : Option CtxFunc) (p : Option Params), TreeSound Reg pfx node →
      searchSegments segs node ps = (some h, c, p) →
      ∃ qs, Reg (pfx ++ qs) h ∧
        List.Forall₂ Answers qs (segs.filter (fun s => decide (s ≠ []))) := by
  induction segs with
  | nil =>
    intro pfx node ps h c p hinv hl
    simp only [searchSegments, Prod.mk.injEq] at hl
    exact ⟨[], by simpa using TreeSound_handler hinv hl.1, by simp⟩
  | cons seg rest ih =>
    intro pfx node ps h c p hinv hl
    simp only [searchSegments] at hl
    by_cases hs : seg = []
    · simp only [hs, if_true] at hl
      obtain ⟨qs, h1, h2⟩ := ih pfx node ps h c p hinv hl
      exact ⟨qs, h1, by simpa [hs, List.filter_cons] using h2⟩
    · simp only [hs, if_false] at hl
      cases hsc : searchChildren seg node.children ps with
      | none => rw [hsc] at hl; simp at hl
      | some xp =>
        obtain ⟨x, ps'⟩ := xp
        rw [hsc] at hl
        simp only at hl
        have hfind : FindNodePath node x.path = some x := searchChildren_find hsc rfl
        obtain ⟨qs, h1, h2⟩ := ih (pfx ++ [x.path]) x ps' h c p (TreeSound_child hinv hfind) hl
        refine ⟨x.path :: qs, by simpa using h1, ?_⟩
        rw [filter_cons_nonempty hs]
        exact List.Forall₂.cons (searchChildren_matches hsc) h2

/-! ## C15: which registrations conflict -/

/-- C15, as stated, fails.  Two patterns that differ as strings do conflict
when they have the same segments after trimming and dropping the empty
pieces: `/a ` after `/a`, `/a//b` after `/a/b`, `users` after `/users` are each
rejected with the duplicate-route error, though no route with the same path
string was registered. -/
theorem duplicate_error_other_string_counterexample :
    ((createTreeIdea ⟨2, 2, "/a ".toList⟩
        (buildRoutes GET [⟨1, 1, "/a".toList⟩] none) GET).2 = some "/a ".toList ∧
      "/a ".toList ≠ "/a".toList) ∧
    ((createTreeIdea ⟨2, 2, "/a//b".toList⟩
        (buildRoutes GET [⟨1, 1, "/a/b".toList⟩] none) GET).2 = some "/a//b".toList ∧
      "/a//b".toList ≠ "/a/b".toList) ∧
    ((createTreeIdea ⟨2, 2, "users".toList⟩
        (buildRoutes GET [⟨1, 1, "/users".toList⟩] none) GET).2 = some "users".toList ∧
      "users".toList ≠ "/users".toList) := by
  refine ⟨⟨?_, ?_⟩, ⟨?_, ?_⟩, ⟨?_, ?_⟩⟩ <;> decide

/-- C15, amended.  When `createTreeIdea` returns an error for a route, on the
tree built from the routes registered before it under the method, the error
names the path of the route, the tree is left as it was, and among the earlier
routes there is one that was accepted and has the same segment list: the same
pieces after trimming, the empty ones and `/` dropped.  Routes with different
segment lists never conflict. -/
theorem duplicate_error_same_segments (m : Method) (routes : List Route) (r : Route)
    (e : GoString)
    (herr : (createTreeIdea r (buildRoutes m routes none) m).2 = some e) :
    e = r.path ∧
    (createTreeIdea r (buildRoutes m routes none) m).1 = orFresh (buildRoutes m routes none) m ∧
    ∃ pre r' post, routes = pre ++ r' :: post ∧
      (createTreeIdea r' (buildRoutes m pre none) m).2 = none ∧
      routeSegments r'.path = routeSegments r.path := by
  by_cases hroot : r.path = [] ∨ r.path = ['/']
  · have hh := buildRoutes_root_handler m routes none rfl
    rw [createTreeIdea_root r _ m hroot] at herr
    simp [hh] at herr
  · rw [createTreeIdea_eq r _ m hroot] at herr ⊢
    simp only at herr ⊢
    obtain ⟨h1, h2, n, h3, h4⟩ := insertPaths_error _ _ _ _ herr
    refine ⟨h2, by rw [h1], ?_⟩
    obtain ⟨g, hg⟩ := Option.isSome_iff_exists.mp h4
    obtain ⟨pre, r', post, a1, a2, a3, _⟩ := (buildRoutes_sound m routes _ n h3).2 g hg
    exact ⟨pre, r', post, a1, a2, by simpa [routeSegments] using a3⟩

/-- C15, witness: `/a ` after `/a`; both have the segment list `["a"]`. -/
theorem duplicate_error_same_segments_witness :
    (createTreeIdea ⟨2, 2, "/a ".toList⟩ (buildRoutes GET [⟨1, 1, "/a".toList⟩] none) GET).2 =
        some "/a ".toList ∧
      ∃ pre r' post, [(⟨1, 1, "/a".toList⟩ : Route)] = pre ++ r' :: post ∧
        (createTreeIdea r' (buildRoutes GET pre none) GET).2 = none ∧
        routeSegments r'.path = routeSegments "/a ".toList :=
  ⟨by decide,
    (duplicate_error_same_segments GET [⟨1, 1, "/a".toList⟩] ⟨2, 2, "/a ".toList⟩ "/a ".toList
      (by decide)).2.2⟩

/-! ## C18: traversal is sound -/

/-- C18.  In the tree `buildTrees` builds for a method, a lookup that returns
a handler returns the handler of a route registered under that method and
accepted into the tree; the segment list of that route is as long as the list
of the non-empty segments of the request, and segment by segment the route
segment is the request segment or a parameter (it starts with `:`).  A request
of that method for which the lookup returns no handler, because it ends on a
node without handler or because some segment matches no child, is answered
404. -/
theorem traversal_sound (r : Mux) (m : Method) (t : Tree) (ht : buildTrees r m = some t) :
    (∀ path h, (InDepthSearch t.startNode path).1 = some h →
      ∃ pre route post, r.handlers m = some (pre ++ route :: post) ∧
        (createTreeIdea route (buildRoutes m pre none) m).2 = none ∧ route.h = h ∧
        (routeSegments route.path).length = (requestSegments path).length ∧
        List.Forall₂ Answers (routeSegments route.path) (requestSegments path)) ∧
    (∀ req, methodToString m = req.Method → r.builtTrees = buildTrees r →
      (InDepthSearch t.startNode req.Path).1 = none →
      ServeHTTP r req = some [Event.notFound]) := by
  have hm : m ≤ OPTIONS := by
    by_contra hne
    simp [buildTrees, hne] at ht
  cases hreg : r.handlers m with
  | none => simp [buildTrees, hreg] at ht
  | some routes =>
    have hb : buildRoutes m routes none = some t := by
      simpa [buildTrees, hm, hreg] using ht
    constructor
    · intro path h hl
      obtain ⟨c, p, hl'⟩ := triple_of_fst _ _ hl
      have hs := buildRoutes_sound m routes
      rw [hb] at hs
      obtain ⟨qs, ⟨pre, route, post, a1, a2, a3, a4⟩, hq⟩ :=
        lookup_sound _ [] t.startNode [] h c p hs hl'
      simp only [List.nil_append] at a3
      subst a3
      exact ⟨pre, route, post, by rw [a1], a2, a4, hq.length_eq, hq⟩
    · intro req hs hbt hl
      apply ServeHTTP_not_found
      intro m' t' hs' ht'
      rw [hbt] at ht'
      by_cases e : m' = m
      · subst e
        rw [ht] at ht'
        simp only [Option.some.injEq] at ht'
        rw [← ht']; exact hl
      · have hm' : m' ≤ OPTIONS := by
          by_contra hne
          simp [buildTrees, hne] at ht'
        exact absurd (hs'.trans hs.symm)
          (methodToString_injective m' (mem_methods hm') m (mem_methods hm) e)

/-- C18, witness: only `/exists` is registered; the request `/does-not-exist`
is answered 404, and the handler `/exists` reaches is the one of a route whose
one segment is the request segment. -/
theorem traversal_sound_witness :
    buildTrees (InitMux.GET "/exists".toList 1 1) GET =
        some ⟨GET, ⟨['/'], [⟨"exists".toList, [], some 1, some 1⟩], none, none⟩⟩ ∧
      ServeHTTP (InitMux.GET "/exists".toList 1 1) ⟨"GET".toList, "/does-not-exist".toList⟩ =
        some [Event.notFound] :=
  ⟨rfl,
    (traversal_sound (InitMux.GET "/exists".toList 1 1) GET
      ⟨GET, ⟨['/'], [⟨"exists".toList, [], some 1, some 1⟩], none, none⟩⟩ rfl).2
      ⟨"GET".toList, "/does-not-exist".toList⟩ rfl rfl (by decide)⟩

/-! ## C21: a rejected route is skipped -/

/-- An error of `createTreeIdea` names the route, leaves the tree as it was,
and arises only on a tree that exists already. -/
theorem createTreeIdea_error (r : Route) (t : Option Tree) (m : Method) (e : GoString)
    (herr : (createTreeIdea r t m).2 = some e) :
    e = r.path ∧ (createTreeIdea r t m).1 = orFresh t m ∧ ∃ t0, t = some t0 := by
  by_cases hroot : r.path = [] ∨ r.path = ['/']
  · rw [createTreeIdea_root r t m hroot] at herr ⊢
    cases t with
    | none => simp [orFresh, freshRoot] at herr
    | some t0 =>
      refine ⟨?_, rfl, t0, rfl⟩
      simp only at herr
      split at herr
      · simp only [Option.some.injEq] at herr
        exact herr.symm
      · simp at herr
  · rw [createTreeIdea_eq r t m hroot] at herr ⊢
    simp only at herr ⊢
    obtain ⟨h1, h2, _⟩ := insertPaths_error _ _ _ _ herr
    refine ⟨h2, by rw [h1], ?_⟩
    cases t with
    | none =>
      rw [insertPaths_no_children r _ (orFresh none m).startNode rfl] at herr
      simp at herr
    | some t0 => exact ⟨t0, rfl⟩

/-- C21.  When `createTreeIdea` returns an error for a route, the error
carries the path of the route and the tree of the method is the tree as it
was before the call.  The loop of `buildTrees` then goes on with the routes
after it as if the rejected route were not in the list: the tree `buildTrees`
returns for the method is the tree built from the list without that route. -/
theorem rejected_route_skipped (m : Method) (t : Option Tree) (r : Route) (e : GoString)
    (herr : (createTreeIdea r t m).2 = some e) :
    e = r.path ∧
    (∃ t0, t = some t0 ∧ (createTreeIdea r t m).1 = t0) ∧
    (∀ post, buildRoutes m (r :: post) t = buildRoutes m post t) ∧
    (∀ (mux : Mux) (pre post : List Route), m ≤ OPTIONS →
      mux.handlers m = some (pre ++ r :: post) → buildRoutes m pre none = t →
      buildTrees mux m = buildRoutes m (pre ++ post) none) := by
  obtain ⟨h1, h2, t0, h3⟩ := createTreeIdea_error r t m e herr
  subst h3
  have hstep : ∀ post, buildRoutes m (r :: post) (some t0) = buildRoutes m post (some t0) := by
    intro post
    simp only [buildRoutes, herr, Option.map_some', h2]
    rfl
  refine ⟨h1, ⟨t0, rfl, h2⟩, hstep, ?_⟩
  intro mux pre post hm hh hpre
  simp only [buildTrees, hm, if_true, hh]
  rw [buildRoutes_append, buildRoutes_append, hpre, hstep]

/-- C21, witness: `/a`, `/a` again, then `/b`; the second `/a` is rejected and
the tree is the one built from `/a` and `/b`. -/
theorem rejected_route_skipped_witness :
    (createTreeIdea ⟨2, 2, "/a".toList⟩ (buildRoutes GET [⟨1, 1, "/a".toList⟩] none) GET).2
        = some "/a".toList ∧
      buildTrees (((InitMux.GET "/a".toList 1 1).GET "/a".toList 2 2).GET "/b".toList 3 3) GET =
        buildRoutes GET ([⟨1, 1, "/a".toList⟩] ++ [⟨3, 3, "/b".toList⟩]) none :=
  ⟨by decide,
    (rejected_route_skipped GET (buildRoutes GET [⟨1, 1, "/a".toList⟩] none)
      ⟨2, 2, "/a".toList⟩ "/a".toList (by decide)).2.2.2
      (((InitMux.GET "/a".toList 1 1).GET "/a".toList 2 2).GET "/b".toList 3 3)
      [⟨1, 1, "/a".toList⟩] [⟨3, 3, "/b".toList⟩] (by decide) rfl rfl⟩

/-! ## C22: only the non-empty segments of the request count -/

theorem searchSegments_filter (segs : List GoString) (node : Node) (ps : Params) :
    searchSegments (segs.filter (fun s => decide (s ≠ []))) node ps =
      searchSegments segs node ps := by
  induction segs generalizing node ps with
  | nil => rfl
  | cons seg rest ih =>
    by_cases hs : seg = []
    · subst hs
      rw [List.filter_cons_of_neg (by simp)]
      simp only [searchSegments, if_true]
      exact ih node ps
    · rw [filter_cons_nonempty hs]
      simp only [searchSegments, hs, if_false]
      cases searchChildren seg node.children ps with
      | none => rfl
      | some xp => exact ih xp.1 xp.2

theorem requestSegments_eq (path : GoString) :
    requestSegments path = (Split path).filter (fun s => decide (s ≠ [])) := by
  unfold requestSegments TrimPrefix
  cases path with
  | nil => rfl
  | cons c cs =>
    by_cases hc : c = '/'
    · subst hc
      simp [HasPrefix, Split, List.filter_cons]
    · have : HasPrefix (c :: cs) ['/'] = false := by simp [HasPrefix, hc]
      simp [this]

/-- C22.  `InDepthSearch` is the descent along the non-empty pieces of the
request path, so on every node two request paths with the same list of
non-empty pieces, that is two paths that differ only by repeated, leading or
trailing slashes, have the same result: handler, user handler and parameter
map. -/
theorem lookup_depends_on_segments (n : Node) (p1 p2 : GoString)
    (h : (Split p1).filter (fun s => decide (s ≠ [])) =
      (Split p2).filter (fun s => decide (s ≠ []))) :
    InDepthSearch n p1 = InDepthSearch n p2 ∧
    InDepthSearch n p1 = searchSegments ((Split p1).filter (fun s => decide (s ≠ []))) n [] := by
  have e : ∀ p, InDepthSearch n p =
      searchSegments ((Split p).filter (fun s => decide (s ≠ []))) n [] := by
    intro p
    rw [← requestSegments_eq, requestSegments, searchSegments_filter]
    rfl
  exact ⟨by rw [e p1, e p2, h], e p1⟩

/-- C22, witness: `//users///7/` and `/users/7` on the tree of `/users/:id`. -/
theorem lookup_depends_on_segments_witness :
    InDepthSearch (createTreeIdea ⟨1, 1, "/users/:id".toList⟩ none GET).1.startNode
        "//users///7/".toList =
      InDepthSearch (createTreeIdea ⟨1, 1, "/users/:id".toList⟩ none GET).1.startNode
        "/users/7".toList :=
  (lookup_depends_on_segments _ "//users///7/".toList "/users/7".toList (by decide)).1

/-! ## C26: registration keeps the lookups that succeed -/

/-- C26.  For every tree, every route and every request path: a lookup that
returns a handler before `createTreeIdea` returns the same handler, the same
user handler and the same parameter map on the tree after the call, whether
the call succeeded or reported a duplicate; and so it does on the tree after
any further list of registrations. -/
theorem registration_keeps_lookups (route : Route) (t : Tree) (m : Method) (r : GoString)
    (g : HandlerFunc) (hg : (InDepthSearch t.startNode r).1 = some g) :
    InDepthSearch (createTreeIdea route (some t) m).1.startNode r =
      InDepthSearch t.startNode r ∧
    ∀ routes, ∃ t', buildRoutes m routes (some t) = some t' ∧
      InDepthSearch t'.startNode r = InDepthSearch t.startNode r := by
  refine ⟨KeepsLookups_InDepthSearch (createTreeIdea_KeepsLookups route (some t) m) r g hg, ?_⟩
  intro routes
  obtain ⟨t', h1, _, h3⟩ := buildRoutes_some m routes t
  exact ⟨t', h1, KeepsLookups_InDepthSearch h3 r g hg⟩

/-- C26, witness: on the tree of `/users/:id`, the lookup of `/users/7` is the
same after `/users/profile` was added and after `/users/:id` was rejected. -/
theorem registration_keeps_lookups_witness :
    (InDepthSearch (createTreeIdea ⟨1, 1, "/users/:id".toList⟩ none GET).1.startNode
        "/users/7".toList).1 = some 1 ∧
      InDepthSearch (createTreeIdea ⟨2, 2, "/users/profile".toList⟩
          (some (createTreeIdea ⟨1, 1, "/users/:id".toList⟩ none GET).1) GET).1.startNode
          "/users/7".toList =
        InDepthSearch (createTreeIdea ⟨1, 1, "/users/:id".toList⟩ none GET).1.startNode
          "/users/7".toList :=
  ⟨by decide,
    (registration_keeps_lookups ⟨2, 2, "/users/profile".toList⟩
      (createTreeIdea ⟨1, 1, "/users/:id".toList⟩ none GET).1 GET "/users/7".toList 1
      (by decide)).1⟩

/-! ## C30: the children of a node have distinct paths -/

theorem DistinctChildren_intro (node : Node) (h1 : (node.children.map Node.path).Nodup)
    (h2 : ∀ c ∈ node.children, DistinctChildren c) : DistinctChildren node := by
  intro idxs n hn
  cases idxs with
  | nil =>
    simp only [nodeAt, Option.some.injEq] at hn
    subst hn; exact h1
  | cons i rest =>
    simp only [nodeAt] at hn
    cases hc : node.children.get? i with
    | none => rw [hc] at hn; simp at hn
    | some c =>
      rw [hc] at hn
      exact h2 c (List.get?_mem hc) rest n hn

theorem DistinctChildren_nodup {node : Node} (h : DistinctChildren node) :
    (node.children.map Node.path).Nodup := h [] node rfl

theorem DistinctChildren_child {node : Node} (h : DistinctChildren node) {c : Node}
    (hc : c ∈ node.children) : DistinctChildren c := by
  obtain ⟨i, hi⟩ := List.get?_of_mem hc
  intro idxs n hn
  exact h (i :: idxs) n (by simp only [nodeAt, hi]; exact hn)

theorem map_path_replaceChild {p : GoString} {c' : Node} (hc : c'.path = p) (cs : List Node) :
    (replaceChild p c' cs).map Node.path = cs.map Node.path := by
  induction cs with
  | nil => rfl
  | cons d ds ih =>
    by_cases hd : d.path = p
    · simp [replaceChild, hd, hc]
    · simp [replaceChild, hd, ih]

theorem mem_replaceChild {p : GoString} {c' c : Node} {cs : List Node}
    (h : c ∈ replaceChild p c' cs) : c = c' ∨ c ∈ cs := by
  induction cs with
  | nil => simp [replaceChild] at h
  | cons d ds ih =>
    by_cases hd : d.path = p
    · simp only [replaceChild, hd, if_true, List.mem_cons] at h
      rcases h with h | h
      · exact Or.inl h
      · exact Or.inr (List.mem_cons_of_mem _ h)
    · simp only [replaceChild, hd, if_false, List.mem_cons] at h
      rcases h with h | h
      · exact Or.inr (by simp [h])
      · rcases ih h with h' | h'
        · exact Or.inl h'
        · exact Or.inr (List.mem_cons_of_mem _ h')

theorem FindNodePath_mem {node : Node} {p : GoString} {f : Node}
    (h : FindNodePath node p = some f) : f ∈ node.children :=
  List.mem_of_find?_eq_some h

theorem FindNodePath_none_not_mem {node : Node} {p : GoString}
    (h : FindNodePath node p = none) : p ∉ node.children.map Node.path := by
  intro hp
  obtain ⟨c, hc, hcp⟩ := List.mem_map.mp hp
  have := List.find?_eq_none.mp h c hc
  simp [hcp] at this

theorem DistinctChildren_replaceChild {node c' : Node} {path : GoString}
    (h : DistinctChildren node) (hc : c'.path = path) (hc' : DistinctChildren c') :
    DistinctChildren { node with children := replaceChild path c' node.children } := by
  apply DistinctChildren_intro
  · simp only [map_path_replaceChild hc]
    exact DistinctChildren_nodup h
  · intro c hmem
    rcases mem_replaceChild hmem with e | e
    · rw [e]; exact hc'
    · exact DistinctChildren_child h e

theorem DistinctChildren_append {node d : Node} (h : DistinctChildren node)
    (hf : FindNodePath node d.path = none) (hd : DistinctChildren d) :
    DistinctChildren { node with children := node.children ++ [d] } := by
  apply DistinctChildren_intro
  · simp only [List.map_append, List.map_cons, List.map_nil]
    apply List.Nodup.append (DistinctChildren_nodup h) (List.nodup_singleton _)
    intro x hx hx'
    simp only [List.mem_singleton] at hx'
    subst hx'
    exact FindNodePath_none_not_mem hf hx
  · intro c hmem
    rcases List.mem_append.mp hmem with e | e
    · exact DistinctChildren_child h e
    · simp only [List.mem_singleton] at e
      rw [e]; exact hd

theorem DistinctChildren_leaf (node : Node) (hc : node.children = []) :
    DistinctChildren node := by
  apply DistinctChildren_intro
  · simp [hc]
  · intro c hmem; simp [hc] at hmem

theorem DistinctChildren_ChangeNodeState {f : Node} (h : DistinctChildren f) (handler : Route)
    (b : Bool) : DistinctChildren (ChangeNodeState f handler b) := by
  apply DistinctChildren_intro
  · have : (ChangeNodeState f handler b).children = f.children := by
      unfold ChangeNodeState; split <;> rfl
    rw [this]; exact DistinctChildren_nodup h
  · intro c hmem
    have : (ChangeNodeState f handler b).children = f.children := by
      unfold ChangeNodeState; split <;> rfl
    rw [this] at hmem
    exact DistinctChildren_child h hmem

/-- The insertion loop appends a child only under a name `FindNodePath` did
not find, so it keeps the children of every node distinct. -/
theorem insertPaths_DistinctChildren (handler : Route) (paths : List GoString) (node : Node)
    (h : DistinctChildren node) : DistinctChildren (insertPaths handler paths node).1 := by
  induction paths generalizing node with
  | nil => simpa [insertPaths] using h
  | cons path rest ih =>
    cases hf : FindNodePath node path with
    | some f =>
      have hfc := DistinctChildren_child h (FindNodePath_mem hf)
      have hpath := FindNodePath_path hf
      by_cases hr : rest = []
      · subst hr
        by_cases hh : f.Handler.isSome
        · rw [insertPaths_found_last_taken handler hf hh]; exact h
        · rw [insertPaths_found_last_free handler hf hh]
          exact DistinctChildren_replaceChild h
            (by rw [ChangeNodeState_path]; exact hpath)
            (DistinctChildren_ChangeNodeState hfc handler true)
      · rw [insertPaths_found_more handler hf hr]
        exact DistinctChildren_replaceChild h
          ((insertPaths_fields _ _ _).1.trans hpath) (ih f hfc)
    | none =>
      by_cases hp : path = [] ∨ path = ['/']
      · by_cases hr : rest = []
        · subst hr
          rw [insertPaths_new_last handler hf]
          simp only [AddNode, hp, if_true]; exact h
        · rw [insertPaths_skip handler hf hp hr]
          exact ih node h
      · by_cases hr : rest = []
        · subst hr
          rw [insertPaths_new_last handler hf]
          simp only [AddNode, hp, if_false]
          exact DistinctChildren_append h hf (DistinctChildren_leaf _ rfl)
        · rw [insertPaths_new_more handler hf hp hr]
          have hd : (insertPaths handler rest (newChild handler false path)).1.path = path :=
            (insertPaths_fields _ _ _).1
          exact DistinctChildren_append h (by rw [hd]; exact hf)
            (ih _ (DistinctChildren_leaf _ rfl))

theorem createTreeIdea_DistinctChildren (handler : Route) (t : Option Tree) (m : Method)
    (h : DistinctChildren (orFresh t m).startNode) :
    DistinctChildren (createTreeIdea handler t m).1.startNode := by
  by_cases hroot : handler.path = [] ∨ handler.path = ['/']
  · rw [createTreeIdea_root handler t m hroot]; exact h
  · rw [createTreeIdea_eq handler t m hroot]
    exact insertPaths_DistinctChildren _ _ _ h

theorem buildRoutes_DistinctChildren (m : Method) (routes : List Route) (t : Option Tree)
    (h : DistinctChildren (orFresh t m).startNode) :
    DistinctChildren (orFresh (buildRoutes m routes t) m).startNode := by
  induction routes generalizing t with
  | nil => exact h
  | cons r rest ih =>
    have h1 := createTreeIdea_DistinctChildren r t m h
    simp only [buildRoutes]
    split
    · cases t with
      | none => exact ih none h
      | some t0 => exact ih (some (createTreeIdea r (some t0) m).1) h1
    · exact ih (some (createTreeIdea r t m).1) h1

/-- C30.  In every tree `buildTrees` returns, for every registry and method,
the children of each node have pairwise distinct paths: a child is appended
only after `FindNodePath` found no child with that path. -/
theorem children_paths_distinct (r : Mux) (m : Method) (t : Tree)
    (ht : buildTrees r m = some t) (idxs : List Nat) (n : Node)
    (hn : nodeAt idxs t.startNode = some n) : (n.children.map Node.path).Nodup := by
  have hm : m ≤ OPTIONS := by
    by_contra hne
    simp [buildTrees, hne] at ht
  cases hreg : r.handlers m with
  | none => simp [buildTrees, hreg] at ht
  | some routes =>
    have hb : buildRoutes m routes none = some t := by
      simpa [buildTrees, hm, hreg] using ht
    have := buildRoutes_DistinctChildren m routes none (DistinctChildren_leaf _ rfl)
    rw [hb] at this
    exact this idxs n hn

/-- C30, witness: after `/a/b`, `/a/c`, `/a/b` again and `/a /d`, the node `a`
has the children `b`, `c`, `d`. -/
theorem children_paths_distinct_witness :
    (∃ n, nodeAt [0] (⟨GET, ⟨['/'], [⟨"a".toList,
        [⟨"b".toList, [], some 1, some 1⟩, ⟨"c".toList, [], some 2, some 2⟩,
          ⟨"d".toList, [], some 4, some 4⟩], none, none⟩], none, none⟩⟩ : Tree).startNode
        = some n ∧
      n.children.map Node.path = ["b".toList, "c".toList, "d".toList]) ∧
    (["b".toList, "c".toList, "d".toList] : List GoString).Nodup :=
  ⟨⟨_, rfl, rfl⟩,
    children_paths_distinct
      ((((InitMux.GET "/a/b".toList 1 1).GET "/a/c".toList 2 2).GET "/a/b".toList 3 3).GET
        "/a /d".toList 4 4) GET
      ⟨GET, ⟨['/'], [⟨"a".toList,
        [⟨"b".toList, [], some 1, some 1⟩, ⟨"c".toList, [], some 2, some 2⟩,
          ⟨"d".toList, [], some 4, some 4⟩], none, none⟩], none, none⟩⟩
      rfl [0] _ rfl⟩

/-! ## C28: the two parameter maps of a request -/

/-- C28, the code at failing inputs.  For `/users/:id` and the request
`/users/123` the map of `InDepthSearch`, which the middlewares see, and the
map of `getParams`, which `NewCtx` hands to the handler, agree.  For the
request `/users//123` traversal skips the empty piece and binds `id` to `123`,
`getParams` goes by position and binds `id` to the empty piece.  For the
request `/users/:id` traversal takes the segment as a literal and binds
nothing, `getParams` binds `id` to `:id`.  For the pattern `users/:id` and the
request `/users/5` traversal binds `id` to `5`, `getParams` returns the nil
map.  For `/:id/x/:id` and `/1/x/2` traversal keeps one entry, `getParams`
two.  Each of these requests is dispatched to the handler of the route. -/
theorem parameter_maps_differ :
    ((InDepthSearch (createTreeIdea ⟨1, 1, "/users/:id".toList⟩ none GET).1.startNode
        "/users/123".toList).2.2 = some [("id".toList, "123".toList)] ∧
      getParams "/users/123".toList "/users/:id".toList =
        Result.ok (some [("id".toList, "123".toList)])) ∧
    (ServeHTTP (InitMux.GET "/users/:id".toList 1 1) ⟨"GET".toList, "/users//123".toList⟩
        = some [Event.handler 1] ∧
      InDepthSearch (createTreeIdea ⟨1, 1, "/users/:id".toList⟩ none GET).1.startNode
        "/users//123".toList = (some 1, some 1, some [("id".toList, "123".toList)]) ∧
      getParams "/users//123".toList "/users/:id".toList =
        Result.ok (some [("id".toList, [])])) ∧
    (ServeHTTP (InitMux.GET "/users/:id".toList 1 1) ⟨"GET".toList, "/users/:id".toList⟩
        = some [Event.handler 1] ∧
      InDepthSearch (createTreeIdea ⟨1, 1, "/users/:id".toList⟩ none GET).1.startNode
        "/users/:id".toList = (some 1, some 1, some []) ∧
      getParams "/users/:id".toList "/users/:id".toList =
        Result.ok (some [("id".toList, ":id".toList)])) ∧
    (ServeHTTP (InitMux.GET "users/:id".toList 1 1) ⟨"GET".toList, "/users/5".toList⟩
        = some [Event.handler 1] ∧
      InDepthSearch (createTreeIdea ⟨1, 1, "users/:id".toList⟩ none GET).1.startNode
        "/users/5".toList = (some 1, some 1, some [("id".toList, "5".toList)]) ∧
      getParams "/users/5".toList "users/:id".toList = Result.ok none) ∧
    (InDepthSearch (createTreeIdea ⟨1, 1, "/:id/x/:id".toList⟩ none GET).1.startNode
        "/1/x/2".toList = (some 1, some 1, some [("id".toList, "2".toList)]) ∧
      getParams "/1/x/2".toList "/:id/x/:id".toList =
        Result.ok (some [("id".toList, "1".toList), ("id_1".toList, "2".toList)])) := by
  refine ⟨⟨?_, ?_⟩, ⟨?_, ?_, ?_⟩, ⟨?_, ?_, ?_⟩, ⟨?_, ?_, ?_⟩, ⟨?_, ?_⟩⟩ <;> decide

/-! ## C29: `getParams` out of range -/

/-- C29, the code at a failing input.  The pattern `/ /:x/b` has the pieces
`""`, `" "`, `":x"`, `"b"`; `createTreeIdea` trims the blank piece to `""` and
skips it, so the tree is `:x` with the child `b`.  The request `/ /b` is
matched to the handler (the segment `" "` is taken by `:x`) and dispatched;
`getParams` goes by position over the untrimmed pieces of the pattern, finds
`" " = " "` at index 1, binds `x` to `b` at index 2 and reads
`clientPathParts[3]` for the piece `b`: the request has three pieces, the read
is out of range and `NewCtx` panics. -/
theorem getParams_out_of_range :
    (createTreeIdea ⟨1, 1, "/ /:x/b".toList⟩ none GET).2 = none ∧
    InDepthSearch (createTreeIdea ⟨1, 1, "/ /:x/b".toList⟩ none GET).1.startNode
      "/ /b".toList = (some 1, some 1, some [("x".toList, " ".toList)]) ∧
    ServeHTTP (InitMux.GET "/ /:x/b".toList 1 1) ⟨"GET".toList, "/ /b".toList⟩
      = some [Event.handler 1] ∧
    getParams "/ /b".toList "/ /:x/b".toList = Result.panic ∧
    wrapperCtx (InitMux.GET "/ /:x/b".toList 1 1) ⟨1, 1, "/ /:x/b".toList⟩
      ⟨"GET".toList, "/ /b".toList⟩ = Result.panic := by
  exact ⟨by decide, by decide, by decide, by decide, rfl⟩

/-! ## C23: the key map of the handler's context -/

theorem Keys.get?_set_same (keys : Keys) (k : GoString) (v : Nat) :
    (keys.set k v).get? k = some v := by
  induction keys with
  | nil => simp [Keys.set, Keys.get?]
  | cons kv rest ih =>
    obtain ⟨k', v'⟩ := kv
    by_cases e : k' = k
    · simp [Keys.set, Keys.get?, e]
    · simp [Keys.set, Keys.get?, e, ih]

theorem GetKey_SetKey (d : Ctx) (k : GoString) (v : Nat) :
    (d.SetKey k v).GetKey k = (some v, none) := by
  unfold Ctx.SetKey Ctx.GetKey Ctx.InitKeys
  cases hk : d.keys with
  | none => simp [Keys.get?_set_same]
  | some keys => simp [hk, Keys.get?_set_same]

/-- C23.  The context the route handler gets is the one `NewCtx` builds in
the wrapper of `addMutationRoute`, from the request, the pattern and the
registry; the context `ServeHTTP` ran the middlewares on is no input of it.
Its key map is a new empty map, so `GetKey(k)` on it returns
`ErrKeyNotFound` for every key, whatever the context `d` of the middlewares
holds: in `d`, after `SetKey(k, v)`, `GetKey(k)` returns `v`. -/
theorem handler_context_fresh (r : Mux) (route : Route) (req : Request) (c : Ctx)
    (hc : wrapperCtx r route req = Result.ok c) :
    c.keys = some [] ∧
    (∀ k, c.GetKey k = (none, some ErrKeyNotFound)) ∧
    (∀ (d : Ctx) (k : GoString) (v : Nat),
      (d.SetKey k v).GetKey k = (some v, none) ∧
        c.GetKey k = (none, some ErrKeyNotFound)) := by
  have hk : c.keys = some [] := by
    unfold wrapperCtx NewCtx at hc
    split at hc
    · simp only [Result.ok.injEq] at hc
      rw [← hc]
    · simp at hc
    · simp at hc
  have hg : ∀ k, c.GetKey k = (none, some ErrKeyNotFound) := by
    intro k
    simp [Ctx.GetKey, hk, Keys.get?]
  exact ⟨hk, hg, fun d k v => ⟨GetKey_SetKey d k v, hg k⟩⟩

/-- C23, witness: `/users/:id` requested as `/users/7`; a middleware stored
`user = 5` in the context of the dispatcher, the handler does not find it. -/
theorem handler_context_fresh_witness :
    wrapperCtx (InitMux.GET "/users/:id".toList 1 1) ⟨1, 1, "/users/:id".toList⟩
        ⟨"GET".toList, "/users/7".toList⟩ =
      Result.ok ⟨some [("id".toList, "7".toList)], "/users/:id".toList, -1, [], some 1, false,
        some []⟩ ∧
    ((requestCtx (InitMux.GET "/users/:id".toList 1 1) ⟨"GET".toList, "/users/7".toList⟩
        (some [("id".toList, "7".toList)])).SetKey "user".toList 5).GetKey "user".toList
      = (some 5, none) ∧
    Ctx.GetKey ⟨some [("id".toList, "7".toList)], "/users/:id".toList, -1, [], some 1, false,
        some []⟩ "user".toList = (none, some ErrKeyNotFound) :=
  ⟨rfl,
    (handler_context_fresh (InitMux.GET "/users/:id".toList 1 1) ⟨1, 1, "/users/:id".toList⟩
      ⟨"GET".toList, "/users/7".toList⟩ _ rfl).2.2 _ "user".toList 5⟩

/-! ## C24: a rule with two or more `=` -/

theorem SplitOn_of_not_mem (sep : Char) (s : GoString) (h : sep ∉ s) :
    strings.SplitOn sep s = [s] := by
  induction s with
  | nil => rfl
  | cons c cs ih =>
    simp only [List.mem_cons, not_or] at h
    have hc : ¬ c = sep := fun e => h.1 e.symm
    simp [strings.SplitOn, hc, ih h.2]

theorem SplitOn_length (sep : Char) (s : GoString) :
    (strings.SplitOn sep s).length = s.count sep + 1 := by
  induction s with
  | nil => rfl
  | cons c cs ih =>
    by_cases hc : c = sep
    · subst hc
      simp [strings.SplitOn, ih]
    · have hne : (c == sep) = false := by simp [hc]
      simp only [strings.SplitOn, hc, if_false]
      rw [List.count_cons, hne]
      cases hs : strings.SplitOn sep cs with
      | nil => rw [hs] at ih; simp at ih
      | cons x xs => rw [hs] at ih; simpa using ih

theorem Contains_of_HasPrefix (s sub : GoString) (h : HasPrefix s sub = true) :
    strings.Contains s sub = true := by
  cases s with
  | nil =>
    cases sub with
    | nil => rfl
    | cons d p => simp [HasPrefix] at h
  | cons c cs => simp [strings.Contains, h]

theorem Contains_append_left (a b sub : GoString) (h : strings.Contains b sub = true) :
    strings.Contains (a ++ b) sub = true := by
  induction a with
  | nil => exact h
  | cons c cs ih => simp [strings.Contains, ih]

/-- C24.  For every field and every validation tag that is one rule (no `;`)
with two or more `=` in it, whatever the name before the first `=`, `regex`
included: `validateField` returns the error `invalid validation rule format:`
followed by the rule, before any check of the rule is run, and `Validate`
returns it wrapped in `validation error for field`; both messages contain
`invalid validation rule format`. -/
theorem invalid_rule_format (lib : Library) (f : Field) (tag : GoString)
    (hone : ';' ∉ tag) (heq : 2 ≤ tag.count '=') :
    validateField lib.checks f tag = some ("invalid validation rule format: ".toList ++ tag) ∧
    strings.Contains ("invalid validation rule format: ".toList ++ tag)
      "invalid validation rule format".toList = true ∧
    (f.v = tag →
      Validate lib [f] = some ("validation error for field ".toList ++ f.Name ++ ": ".toList
        ++ ("invalid validation rule format: ".toList ++ tag)) ∧
      strings.Contains ("validation error for field ".toList ++ f.Name ++ ": ".toList
        ++ ("invalid validation rule format: ".toList ++ tag))
        "invalid validation rule format".toList = true) := by
  have hne : tag ≠ [] := by
    intro e; subst e; simp at heq
  have h1 : validateField lib.checks f tag =
      some ("invalid validation rule format: ".toList ++ tag) := by
    have hl := SplitOn_length '=' tag
    have hl1 : ¬ (strings.SplitOn '=' tag).length = 1 := by omega
    have hl2 : (strings.SplitOn '=' tag).length ≠ 2 := by omega
    simp only [validateField, hne, if_false, SplitOn_of_not_mem ';' tag hone, validateRules,
      hl1, hl2, ne_eq, not_false_eq_true, if_true]
  have h2 : strings.Contains ("invalid validation rule format: ".toList ++ tag)
      "invalid validation rule format".toList = true := by
    apply Contains_of_HasPrefix
    exact (HasPrefix_iff _ _).mpr ⟨": ".toList ++ tag, rfl⟩
  refine ⟨h1, h2, ?_⟩
  intro hv
  constructor
  · simp only [Validate, hv, ne_eq, hne, not_false_eq_true, if_true, h1]
  · rw [List.append_assoc, List.append_assoc]
    exact Contains_append_left _ _ _ (Contains_append_left _ _ _ (Contains_append_left _ _ _ h2))

/-- C24, witness: the tag `invalid=rule=format` of the test, and the rule
`regex=^a=b$`. -/
theorem invalid_rule_format_witness :
    validateField (⟨fun _ _ => none, fun _ _ _ => none⟩ : RuleChecks Field)
        ⟨"Field".toList, Kind.String, true, [], "invalid=rule=format".toList,
          Value.str "test".toList⟩ "invalid=rule=format".toList
      = some "invalid validation rule format: invalid=rule=format".toList ∧
    validateField (⟨fun _ _ => none, fun _ _ _ => none⟩ : RuleChecks Field)
        ⟨"Field".toList, Kind.String, true, [], "regex=^a=b$".toList,
          Value.str "test".toList⟩ "regex=^a=b$".toList
      = some "invalid validation rule format: regex=^a=b$".toList :=
  ⟨(invalid_rule_format ⟨id, fun f _ => (f, none), ⟨fun _ _ => none, fun _ _ _ => none⟩⟩
      ⟨"Field".toList, Kind.String, true, [], "invalid=rule=format".toList,
        Value.str "test".toList⟩ "invalid=rule=format".toList (by decide) (by decide)).1,
    (invalid_rule_format ⟨id, fun f _ => (f, none), ⟨fun _ _ => none, fun _ _ _ => none⟩⟩
      ⟨"Field".toList, Kind.String, true, [], "regex=^a=b$".toList,
        Value.str "test".toList⟩ "regex=^a=b$".toList (by decide) (by decide)).1⟩

/-! ## C25: an integer field and a value that does not parse -/

theorem ParseUint_zero (bitSize : Nat) : strconv.ParseUint ['0'] bitSize = Except.ok 0 := by
  simp [strconv.ParseUint, strconv.parseLoop]

theorem ParseInt_zero (bitSize : Nat) : strconv.ParseInt ['0'] bitSize = Except.ok 0 := by
  have hp : ∀ b : Nat, ¬ (0 ≥ 2 ^ b) := by
    intro b
    have := Nat.two_pow_pos b
    omega
  have hz : HasPrefix ['0'] ['-'] = false := by decide
  have hz' : HasPrefix ['0'] ['+'] = false := by decide
  unfold strconv.ParseInt
  simp only [hz, hz']
  simp only [List.cons_ne_nil, if_false, Bool.false_eq_true, or_self, ParseUint_zero]
  have h2 := hp ((if bitSize = 0 then strconv.IntSize else bitSize) - 1)
  simp [h2]

theorem intField_ignored (val : GoString) (bitSize : Nat) (f : Field) (err : NumError)
    (hfail : (strconv.ParseInt val bitSize).map Value.int = Except.error err)
    (hleft : val ≠ [] ∨ f.value = Value.int 0) : (intField val bitSize f).1 = f := by
  unfold intField
  by_cases hv : val = []
  · subst hv
    rcases hleft with h | h
    · exact absurd rfl h
    · simp only [if_true, ParseInt_zero]
      rw [← h]
  · simp only [hv, if_false]
    cases hp : strconv.ParseInt val bitSize with
    | error e => rfl
    | ok i => rw [hp] at hfail; simp [Except.map] at hfail

theorem uintField_ignored (val : GoString) (bitSize : Nat) (f : Field) (err : NumError)
    (hfail : (strconv.ParseUint val bitSize).map Value.uint = Except.error err)
    (hleft : val ≠ [] ∨ f.value = Value.uint 0) : (uintField val bitSize f).1 = f := by
  unfold uintField
  by_cases hv : val = []
  · subst hv
    rcases hleft with h | h
    · exact absurd rfl h
    · simp only [if_true, ParseUint_zero]
      rw [← h]
  · simp only [hv, if_false]
    cases hp : strconv.ParseUint val bitSize with
    | error e => rfl
    | ok i => rw [hp] at hfail; simp [Except.map] at hfail

theorem setFieldValue_ignored (lib : Library) (f : Field) (val : GoString) (err : NumError)
    (hfail : f.kind.parse val = some (Except.error err))
    (hleft : val ≠ [] ∨ f.value = f.kind.zero) : setFieldValue lib f val = (f, none) := by
  unfold setFieldValue
  cases hk : f.kind <;> rw [hk] at hfail hleft <;>
    simp only [Kind.parse, Option.some.injEq, Kind.zero] at hfail hleft <;>
    first
    | exact absurd hfail (by simp)
    | (simp only; rw [intField_ignored val _ f err hfail hleft])
    | (simp only; rw [uintField_ignored val _ f err hfail hleft])

/-- C25.  For a field of an integer kind, signed or unsigned, with a `uri`
tag and no validation tag, and a parameter value found for the tag that does
not parse as a decimal integer of the size of the kind: `setFieldValue`
returns nil and leaves the field as it is.  The error of the conversion is
printed and dropped, and the empty value is read as `0`; so the field stays
as it was when the value is not empty, and stays at its zero value when it
was there before.  `mapUriParams` goes on with the fields after it,
`Validate` passes it over, and for a struct with this field alone `BindURI`
returns no error and the struct unchanged. -/
theorem unparsable_integer_ignored (lib : Library) (params : Params) (f : Field)
    (val : GoString) (err : NumError) (hv : f.v = [])
    (hfind : findParamCaseInsensitive lib params f.uri = (val, true))
    (hfail : f.kind.parse val = some (Except.error err))
    (hleft : val ≠ [] ∨ f.value = f.kind.zero) :
    setFieldValue lib f val = (f, none) ∧
    (∀ post, mapUriParams lib params (f :: post) =
      (f :: (mapUriParams lib params post).1, (mapUriParams lib params post).2)) ∧
    (∀ post, Validate lib (f :: post) = Validate lib post) ∧
    BindURI lib params [f] = ([f], none) := by
  have h1 := setFieldValue_ignored lib f val err hfail hleft
  have h2 : ∀ post, mapUriParams lib params (f :: post) =
      (f :: (mapUriParams lib params post).1, (mapUriParams lib params post).2) := by
    intro post
    simp only [mapUriParams, hfind, h1]
    split
    · rfl
    · split <;> rfl
  have h3 : ∀ post, Validate lib (f :: post) = Validate lib post := by
    intro post
    simp [Validate, hv]
  refine ⟨h1, h2, h3, ?_⟩
  have h4 : mapUriParams lib params [f] = ([f], none) := by
    rw [h2 []]; rfl
  have h5 : Validate lib [f] = none := by
    rw [h3 []]; rfl
  simp only [BindURI, h4, h5]

/-- C25, witness: the struct `Numbers` of the test, `Value int` with the tag
`uri:"value"`, and the parameter `value = not_a_number`. -/
theorem unparsable_integer_ignored_witness :
    BindURI ⟨id, fun f _ => (f, none), ⟨fun _ _ => none, fun _ _ _ => none⟩⟩
        [("value".toList, "not_a_number".toList)]
        [⟨"Value".toList, Kind.Int, true, "value".toList, [], Value.int 0⟩] =
      ([⟨"Value".toList, Kind.Int, true, "value".toList, [], Value.int 0⟩], none) :=
  (unparsable_integer_ignored ⟨id, fun f _ => (f, none), ⟨fun _ _ => none, fun _ _ _ => none⟩⟩
    [("value".toList, "not_a_number".toList)]
    ⟨"Value".toList, Kind.Int, true, "value".toList, [], Value.int 0⟩
    "not_a_number".toList NumError.ErrSyntax rfl rfl rfl (Or.inl (by decide))).2.2.2

/-! ## C27: static routes and their own path -/

theorem mem_realSegs {q : GoString} {l : List GoString} (h : q ∈ realSegs l) :
    q ≠ [] ∧ q ≠ ['/'] := by
  simp only [realSegs, List.mem_filter, decide_eq_true_eq] at h
  exact h.2

/-- In a tree whose children all have real names, the insertion walk of a list
is the walk of its real segments. -/
theorem walk_realSegs {Reg : List GoString → HandlerFunc → Prop} (ps : List GoString) :
    ∀ (pfx : List GoString) (node n : Node), TreeSound Reg pfx node →
      walk ps node = some n → walk (realSegs ps) node = some n := by
  induction ps with
  | nil => intro pfx node n _ hw; exact hw
  | cons q rest ih =>
    intro pfx node n hs hw
    simp only [walk] at hw
    cases hf : FindNodePath node q with
    | some c =>
      rw [hf] at hw
      rw [realSegs_cons_real (TreeSound_names hs hf)]
      simp only [walk, hf]
      exact ih _ c n (TreeSound_child hs hf) hw
    | none =>
      rw [hf] at hw
      by_cases hq : q = [] ∨ q = ['/']
      · simp only [hq, if_true] at hw
        rw [realSegs_cons_skip hq]
        exact ih pfx node n hs hw
      · simp [hq] at hw

/-- The lookup of a segment descends into the child with that name when no
child before it is a parameter, and binds nothing. -/
theorem searchChildren_named {seg : GoString} {cs : List Node} (ps : Params) {c : Node}
    (hf : cs.find? (fun node => node.path == seg) = some c)
    (hs : (cs.takeWhile (fun d => d.path != seg)).all (fun d => !HasPrefix d.path [':'])
      = true) :
    searchChildren seg cs ps = some (c, ps) := by
  induction cs with
  | nil => simp at hf
  | cons d ds ih =>
    by_cases hd : d.path = seg
    · rw [find_cons_pos ds hd] at hf
      simp only [Option.some.injEq] at hf
      subst hf
      simp [searchChildren, hd]
    · rw [find_cons_neg ds hd] at hf
      have hne : (d.path != seg) = true := by simp [hd]
      simp only [List.takeWhile_cons, hne, if_true, List.all_cons, Bool.and_eq_true,
        Bool.not_eq_true'] at hs
      simp only [searchChildren, hd, if_false, hs.1, Bool.false_eq_true]
      exact ih hf hs.2

/-- Where no parameter child stands before the children the segments name,
the lookup of the segments ends on the node their walk ends on. -/
theorem lookup_follows_walk (qs : List GoString) :
    ∀ (node : Node) (params : Params), (∀ q ∈ qs, q ≠ []) →
      noParamBefore qs node = true →
      ∃ n, walk qs node = some n ∧
        searchSegments qs node params = (n.Handler, n.CtxHandler, some params) := by
  induction qs with
  | nil => intro node params _ _; exact ⟨node, rfl, rfl⟩
  | cons q rest ih =>
    intro node params hne hfirst
    simp only [noParamBefore] at hfirst
    cases hf : FindNodePath node q with
    | none => rw [hf] at hfirst; simp at hfirst
    | some c =>
      rw [hf] at hfirst
      simp only [Bool.and_eq_true] at hfirst
      obtain ⟨n, hw, hl⟩ := ih c params (fun x hx => hne x (List.mem_cons_of_mem _ hx)) hfirst.2
      refine ⟨n, by simp only [walk, hf]; exact hw, ?_⟩
      simp only [searchSegments, hne q (by simp), if_false]
      rw [searchChildren_named params hf hfirst.1]
      exact hl

/-- C27, as stated, fails.  After `/:a`, the static route `/x` is registered
with success, but the lookup of `/x` on the built tree returns the handler of
`/:a`: the children are tried in the order of insertion.  The static route
`/a ` (with a blank) is registered with success under the trimmed name `a`,
and the lookup of `/a ` finds nothing. -/
theorem static_route_own_path_counterexample :
    ((createTreeIdea ⟨2, 2, "/x".toList⟩ (buildRoutes GET [⟨1, 1, "/:a".toList⟩] none) GET).2
        = none ∧
      ∃ t, buildRoutes GET [⟨1, 1, "/:a".toList⟩, ⟨2, 2, "/x".toList⟩] none = some t ∧
        (InDepthSearch t.startNode "/x".toList).1 = some 1 ∧
        (InDepthSearch t.startNode "/x".toList).1 ≠ some 2) ∧
    ((createTreeIdea ⟨1, 1, "/a ".toList⟩ none GET).2 = none ∧
      ∃ t, buildRoutes GET [⟨1, 1, "/a ".toList⟩] none = some t ∧
        (InDepthSearch t.startNode "/a ".toList).1 = none) := by
  refine ⟨⟨by decide, _, rfl, by decide, by decide⟩, ⟨by decide, _, rfl, by decide⟩⟩

/-- C27, amended.  Take a registration list, a route of it whose registration
succeeded, and the tree `t` built from the list.  If the pattern `p` of the
route ends in a segment (not in a slash), the segments of `p` are the
non-empty pieces of `p` as a request path (no piece has white space at either
end), and on the walk of `p` in `t` no node has a parameter child before the
child the next segment of `p` names, then `InDepthSearch(p)` on `t` returns
the handler registered with `p`.  Parameter routes elsewhere in the tree, or
registered after the children of `p`, do no harm. -/
theorem static_route_reachable (m : Method) (pre post : List Route) (r : Route) (t : Tree)
    (ht : buildRoutes m (pre ++ r :: post) none = some t)
    (hacc : (createTreeIdea r (buildRoutes m pre none) m).2 = none)
    (hend : EndsInSegment r.path)
    (hsegs : routeSegments r.path = requestSegments r.path)
    (hfirst : noParamBefore (routeSegments r.path) t.startNode = true) :
    (InDepthSearch t.startNode r.path).1 = some r.h := by
  obtain ⟨n, hw, hn⟩ := createTreeIdea_attach r (buildRoutes m pre none) m hend hacc
  obtain ⟨t', ht', hkw, _⟩ :=
    buildRoutes_some m post (createTreeIdea r (buildRoutes m pre none) m).1
  have hb : buildRoutes m (pre ++ r :: post) none = some t' := by
    rw [buildRoutes_append]
    simp only [buildRoutes, hacc]
    exact ht'
  rw [ht] at hb
  simp only [Option.some.injEq] at hb
  subst hb
  obtain ⟨n', hw', hn'⟩ := hkw _ n r.h hw hn
  have hs := buildRoutes_sound m (pre ++ r :: post)
  rw [ht] at hs
  have hw2 : walk (routeSegments r.path) t.startNode = some n' :=
    walk_realSegs _ _ _ _ hs hw'
  obtain ⟨n2, hw3, hl⟩ := lookup_follows_walk (routeSegments r.path) t.startNode []
    (fun q hq => (mem_realSegs hq).1) hfirst
  rw [hw2] at hw3
  simp only [Option.some.injEq] at hw3
  subst hw3
  have e : InDepthSearch t.startNode r.path =
      searchSegments (requestSegments r.path) t.startNode [] := by
    rw [requestSegments, searchSegments_filter]; rfl
  rw [e, ← hsegs, hl]
  exact hn'

/-- C27, witness: `/users/:id`, then `/about`, then `/:x`.  A parameter route
was registered before `/about` and another after it, but none put a parameter
child before the child `about` of the root: the lookup of `/about` returns its
handler. -/
theorem static_route_reachable_witness :
    buildRoutes GET ([⟨1, 1, "/users/:id".toList⟩] ++ ⟨2, 2, "/about".toList⟩ ::
        [⟨3, 3, "/:x".toList⟩]) none =
      some ⟨GET, ⟨['/'], [⟨"users".toList, [⟨":id".toList, [], some 1, some 1⟩], none, none⟩,
        ⟨"about".toList, [], some 2, some 2⟩, ⟨":x".toList, [], some 3, some 3⟩],
        none, none⟩⟩ ∧
    (InDepthSearch (⟨GET, ⟨['/'], [⟨"users".toList, [⟨":id".toList, [], some 1, some 1⟩],
        none, none⟩, ⟨"about".toList, [], some 2, some 2⟩,
        ⟨":x".toList, [], some 3, some 3⟩], none, none⟩⟩ : Tree).startNode
      "/about".toList).1 = some 2 :=
  ⟨rfl,
    static_route_reachable GET [⟨1, 1, "/users/:id".toList⟩] [⟨3, 3, "/:x".toList⟩]
      ⟨2, 2, "/about".toList⟩
      ⟨GET, ⟨['/'], [⟨"users".toList, [⟨":id".toList, [], some 1, some 1⟩], none, none⟩,
        ⟨"about".toList, [], some 2, some 2⟩, ⟨":x".toList, [], some 3, some 3⟩],
        none, none⟩⟩
      rfl (by decide) ⟨"about".toList, by decide, by decide, by decide⟩ (by decide)
      (by decide)⟩

/-! ## C20: `buildTrees` on objects in memory -/

theorem getElem?_of_lt {α : Type} (l : List α) {i : Nat} (h : i < l.length) :
    ∃ x, l[i]? = some x := ⟨l[i], List.getElem?_eq_getElem h⟩

theorem Owns_valid {nodes : List NodeObj} {a : Nat} {n : Node} {F : Nat → Prop}
    (h : Owns nodes a n F) : ∀ b, F b → b < nodes.length := by
  induction h with
  | mk a obj n fp hget _ _ _ hlen _ _ _ ih =>
    intro b hb
    rcases hb with e | ⟨i, hi, hb⟩
    · subst e
      exact (List.getElem?_eq_some_iff.mp hget).1
    · obtain ⟨c, hc⟩ := getElem?_of_lt obj.children hi
      obtain ⟨d, hd⟩ := getElem?_of_lt n.children (hlen ▸ hi)
      exact ih i c d hc hd b hb

theorem Owns_root {nodes : List NodeObj} {a : Nat} {n : Node} {F : Nat → Prop}
    (h : Owns nodes a n F) : F a := by
  cases h with
  | mk a obj n fp => exact Or.inl rfl

/-- The tree below a pointer stays what it is when none of its objects is
written. -/
theorem Owns_frame {nodes nodes' : List NodeObj} {a : Nat} {n : Node} {F : Nat → Prop}
    (h : Owns nodes a n F) (hsame : ∀ b, F b → nodes'[b]? = nodes[b]?) :
    Owns nodes' a n F := by
  induction h with
  | mk a obj n fp hget hp hh hc hlen hch hdisj hself ih =>
    refine Owns.mk a obj n fp ?_ hp hh hc hlen ?_ hdisj hself
    · rw [hsame a (Or.inl rfl)]; exact hget
    · intro i c d hci hdi
      have hi : i < obj.children.length := (List.getElem?_eq_some_iff.mp hci).1
      exact ih i c d hci hdi (fun b hb => hsame b (Or.inr ⟨i, hi, hb⟩))

theorem Owns_congr {nodes : List NodeObj} {a : Nat} {n : Node} {F F' : Nat → Prop}
    (h : Owns nodes a n F) (e : ∀ b, F b ↔ F' b) : Owns nodes a n F' := by
  have : F = F' := funext (fun b => propext (e b))
  rw [← this]; exact h

theorem OwnsAt.owns {nodes : List NodeObj} {a : Nat} {obj : NodeObj} {n : Node}
    {fp : Nat → Nat → Prop} (h : OwnsAt nodes a obj n fp) :
    Owns nodes a n (footprint a obj fp) := by
  obtain ⟨h1, h2, h3, h4, h5, h6, h7, h8⟩ := h
  exact Owns.mk a obj n fp h1 h2 h3 h4 h5 h6 h7 h8

theorem Owns.ownsAt {nodes : List NodeObj} {a : Nat} {n : Node} {F : Nat → Prop}
    (h : Owns nodes a n F) : ∃ obj fp, OwnsAt nodes a obj n fp ∧ F = footprint a obj fp := by
  cases h with
  | mk a obj n fp h1 h2 h3 h4 h5 h6 h7 h8 =>
    exact ⟨obj, fp, ⟨h1, h2, h3, h4, h5, h6, h7, h8⟩, rfl⟩

theorem OwnsAt.child_valid {nodes : List NodeObj} {a : Nat} {obj : NodeObj} {n : Node}
    {fp : Nat → Nat → Prop} (h : OwnsAt nodes a obj n fp) {i : Nat}
    (hi : i < obj.children.length) {b : Nat} (hb : fp i b) : b < nodes.length := by
  obtain ⟨c, hc⟩ := getElem?_of_lt obj.children hi
  obtain ⟨d, hd⟩ := getElem?_of_lt n.children (h.2.2.2.2.1 ▸ hi)
  exact Owns_valid (h.2.2.2.2.2.1 i c d hc hd) b hb

theorem MemStep_refl {mem : Memory} {a : Nat} {n : Node} {F : Nat → Prop}
    (h : Owns mem.nodes a n F) : MemStep mem mem a n F :=
  ⟨rfl, le_refl _, fun _ _ _ => rfl, F, h, fun _ hb => Or.inl hb⟩

theorem MemStep_trans {mem mem1 mem2 : Memory} {a : Nat} {n2 : Node} {F F1 : Nat → Prop}
    (t1 : mem1.trees = mem.trees) (l1 : mem.nodes.length ≤ mem1.nodes.length)
    (f1 : ∀ b, b < mem.nodes.length → ¬ F b → mem1.nodes[b]? = mem.nodes[b]?)
    (s1 : ∀ b, F1 b → F b ∨ mem.nodes.length ≤ b)
    (h2 : MemStep mem1 mem2 a n2 F1) : MemStep mem mem2 a n2 F := by
  obtain ⟨t2, l2, f2, F2, o2, s2⟩ := h2
  refine ⟨t2.trans t1, le_trans l1 l2, ?_, F2, o2, ?_⟩
  · intro b hb hF
    rw [f2 b (lt_of_lt_of_le hb l1) ?_, f1 b hb hF]
    intro hF1
    rcases s1 b hF1 with h | h
    · exact hF h
    · omega
  · intro b hb
    rcases s2 b hb with h | h
    · exact s1 b h
    · exact Or.inr (le_trans l1 h)

/-- A run below the `i0`-th child of a node is a run below the node: the
child is replaced by its new value, the other children stay. -/
theorem MemStep_child {mem mem' : Memory} {a : Nat} {obj : NodeObj} {n : Node}
    {fp : Nat → Nat → Prop} (hat : OwnsAt mem.nodes a obj n fp) {i0 : Nat} {c0 : Nat}
    {d' : Node} (hci : obj.children[i0]? = some c0)
    (hstep : MemStep mem mem' c0 d' (fp i0)) :
    MemStep mem mem' a { n with children := n.children.set i0 d' } (footprint a obj fp) := by
  have hat' := hat
  obtain ⟨hget, hp, hh, hc, hlen, hch, hdisj, hself⟩ := hat
  obtain ⟨htrees, hlenm, hframe, F0, hown, hsub⟩ := hstep
  have hi0 : i0 < obj.children.length := (List.getElem?_eq_some_iff.mp hci).1
  have ha : a < mem.nodes.length := (List.getElem?_eq_some_iff.mp hget).1
  refine ⟨htrees, hlenm, ?_, footprint a obj (Function.update fp i0 F0), ?_, ?_⟩
  · intro b hb hF
    exact hframe b hb (fun hfb => hF (Or.inr ⟨i0, hi0, hfb⟩))
  · apply OwnsAt.owns
    refine ⟨?_, hp, hh, hc, ?_, ?_, ?_, ?_⟩
    · rw [hframe a ha (hself i0 hi0)]; exact hget
    · simp [hlen]
    · intro i c d hc' hd'
      by_cases e : i = i0
      · subst e
        rw [hci] at hc'
        simp only [Option.some.injEq] at hc'
        subst hc'
        have hd2 : d = d' := by
          simp only at hd'
          rw [List.getElem?_set_self (hlen ▸ hi0)] at hd'
          exact (Option.some.inj hd').symm
        rw [hd2, Function.update_same]
        exact hown
      · simp only at hd'
        rw [List.getElem?_set_ne (Ne.symm e)] at hd'
        rw [Function.update_noteq e]
        have hi : i < obj.children.length := (List.getElem?_eq_some_iff.mp hc').1
        apply Owns_frame (hch i c d hc' hd')
        intro b hb
        exact hframe b (hat'.child_valid hi hb) (fun hb0 => hdisj i i0 b hi hi0 e hb hb0)
    · intro i j b hi hj hij hbi hbj
      by_cases ei : i = i0
      · subst ei
        rw [Function.update_same] at hbi
        rw [Function.update_noteq (Ne.symm hij)] at hbj
        rcases hsub b hbi with h | h
        · exact hdisj i j b hi hj hij h hbj
        · have := hat'.child_valid hj hbj
          omega
      · rw [Function.update_noteq ei] at hbi
        by_cases ej : j = i0
        · subst ej
          rw [Function.update_same] at hbj
          rcases hsub b hbj with h | h
          · exact hdisj i j b hi hj hij hbi h
          · have := hat'.child_valid hi hbi
            omega
        · rw [Function.update_noteq ej] at hbj
          exact hdisj i j b hi hj hij hbi hbj
    · intro i hi hb
      by_cases ei : i = i0
      · subst ei
        rw [Function.update_same] at hb
        rcases hsub a hb with h | h
        · exact hself i hi h
        · omega
      · rw [Function.update_noteq ei] at hb
        exact hself i hi hb
  · intro b hb
    rcases hb with e | ⟨i, hi, hb⟩
    · exact Or.inl (Or.inl e)
    · by_cases ei : i = i0
      · subst ei
        rw [Function.update_same] at hb
        rcases hsub b hb with h | h
        · exact Or.inl (Or.inr ⟨i, hi, h⟩)
        · exact Or.inr h
      · rw [Function.update_noteq ei] at hb
        exact Or.inl (Or.inr ⟨i, hi, hb⟩)

theorem find_aligned {α β : Type} (p : α → Bool) (q : β → Bool) (as : List α) :
    ∀ (bs : List β), as.length = bs.length →
      (∀ (i : Nat) (a : α) (b : β), as[i]? = some a → bs[i]? = some b → p a = q b) →
      (as.find? p = none ∧ bs.find? q = none) ∨
      ∃ (i : Nat) (a : α) (b : β), as[i]? = some a ∧ bs[i]? = some b ∧ as.find? p = some a ∧
        bs.find? q = some b ∧
          ∀ (j : Nat) (b' : β), j < i → bs[j]? = some b' → q b' = false := by
  induction as with
  | nil =>
    intro bs hlen _
    cases bs with
    | nil => exact Or.inl ⟨rfl, rfl⟩
    | cons b bs => simp at hlen
  | cons a as ih =>
    intro bs hlen h
    cases bs with
    | nil => simp at hlen
    | cons b bs =>
      have h0 : p a = q b := h 0 a b (by simp) (by simp)
      by_cases hp : p a = true
      · refine Or.inr ⟨0, a, b, by simp, by simp, ?_, ?_, ?_⟩
        · simp [List.find?_cons, hp]
        · simp [List.find?_cons, ← h0, hp]
        · intro j b' hj; omega
      · have hq : q b = false := by rw [← h0]; simpa using hp
        have hp' : p a = false := by simpa using hp
        rcases ih bs (by simpa using hlen)
            (fun i x y hx hy => h (i + 1) x y (by simpa using hx) (by simpa using hy)) with
          ⟨h1, h2⟩ | ⟨i, x, y, hx, hy, h1, h2, h3⟩
        · exact Or.inl ⟨by simp [List.find?_cons, hp', h1], by simp [List.find?_cons, hq, h2]⟩
        · refine Or.inr ⟨i + 1, x, y, by simpa using hx, by simpa using hy,
            by simp [List.find?_cons, hp', h1], by simp [List.find?_cons, hq, h2], ?_⟩
          intro j b' hj hb'
          cases j with
          | zero =>
            simp only [List.getElem?_cons_zero, Option.some.injEq] at hb'
            rw [← hb']; exact hq
          | succ k => exact h3 k b' (by omega) (by simpa using hb')

theorem replaceChild_eq_set (path : GoString) (new : Node) (bs : List Node) :
    ∀ (i : Nat) (b : Node), bs[i]? = some b → b.path = path →
      (∀ (j : Nat) (b' : Node), j < i → bs[j]? = some b' → (b'.path == path) = false) →
      replaceChild path new bs = bs.set i new := by
  induction bs with
  | nil => intro i b hb; simp at hb
  | cons d ds ih =>
    intro i b hb hq hfirst
    cases i with
    | zero =>
      simp only [List.getElem?_cons_zero, Option.some.injEq] at hb
      subst hb
      simp [replaceChild, hq]
    | succ k =>
      have hd : ¬ d.path = path := by
        have := hfirst 0 d (by omega) (by simp)
        simpa using this
      simp only [replaceChild, hd, if_false, List.set_cons_succ]
      rw [ih k b (by simpa using hb) hq
        (fun j b' hj hb' => hfirst (j + 1) b' (by omega) (by simpa using hb'))]

/-- `FindNodePath` through the pointer finds the child at the index at which
`FindNodePath` on the value finds it. -/
theorem heap_FindNodePath {mem : Memory} {a : Nat} {obj : NodeObj} {n : Node}
    {fp : Nat → Nat → Prop} (hat : OwnsAt mem.nodes a obj n fp) (path : GoString) :
    (mem.FindNodePath a path = none ∧ FindNodePath n path = none) ∨
    ∃ i c d, obj.children[i]? = some c ∧ n.children[i]? = some d ∧
      mem.FindNodePath a path = some c ∧ FindNodePath n path = some d ∧
      ∀ new, replaceChild path new n.children = n.children.set i new := by
  obtain ⟨hget, _, _, _, hlen, hch, _, _⟩ := hat
  have hal := find_aligned
    (fun c => match mem.nodes[c]? with
      | some child => child.path == path
      | none => false)
    (fun node : Node => node.path == path) obj.children n.children hlen
    (by
      intro i c d hc hd
      obtain ⟨objc, fpc, hatc, _⟩ := (hch i c d hc hd).ownsAt
      simp only [hatc.1, hatc.2.1])
  unfold Memory.FindNodePath FindNodePath
  rw [hget]
  rcases hal with ⟨h1, h2⟩ | ⟨i, c, d, hc, hd, h1, h2, h3⟩
  · exact Or.inl ⟨h1, h2⟩
  · refine Or.inr ⟨i, c, d, hc, hd, h1, h2, ?_⟩
    intro new
    have hdp : d.path = path := by
      have := List.find?_some h2
      simpa using this
    exact replaceChild_eq_set path new n.children i d hd hdp h3

theorem heap_hasHandler {mem : Memory} {c : Nat} {d : Node} {F : Nat → Prop}
    (h : Owns mem.nodes c d F) : mem.hasHandler c = d.Handler.isSome := by
  obtain ⟨obj, fp, hat, _⟩ := h.ownsAt
  simp only [Memory.hasHandler, hat.1, hat.2.2.1]

theorem heap_ChangeNodeState {mem : Memory} {c : Nat} {d : Node} {F : Nat → Prop}
    (h : Owns mem.nodes c d F) (handler : Route) :
    MemStep mem (mem.ChangeNodeState c handler true) c (ChangeNodeState d handler true) F := by
  obtain ⟨obj, fp, hat, hF⟩ := h.ownsAt
  subst hF
  have hat' := hat
  obtain ⟨hget, hp, hh, hc, hlen, hch, hdisj, hself⟩ := hat
  have hc' : c < mem.nodes.length := (List.getElem?_eq_some_iff.mp hget).1
  have hmem : (mem.ChangeNodeState c handler true).nodes =
      mem.nodes.set c { obj with Handler := some handler.h } := by
    simp [Memory.ChangeNodeState, hget]
  refine ⟨by simp [Memory.ChangeNodeState, hget], by rw [hmem]; simp, ?_,
    footprint c obj fp, ?_, fun b hb => Or.inl hb⟩
  · intro b _ hF
    have hne : c ≠ b := fun e => hF (Or.inl e.symm)
    rw [hmem, List.getElem?_set_ne hne]
  · rw [hmem]
    have e : footprint c obj fp =
        footprint c ({ obj with Handler := some handler.h } : NodeObj) fp := rfl
    rw [e]
    apply OwnsAt.owns
    refine ⟨by simp [hc'], hp, by simp [ChangeNodeState], hc, hlen, ?_, hdisj, hself⟩
    intro i x y hx hy
    have hi : i < obj.children.length := (List.getElem?_eq_some_iff.mp hx).1
    have hy' : d.children[i]? = some y := by simpa [ChangeNodeState] using hy
    apply Owns_frame (hch i x y hx hy')
    intro b hb
    have hne : c ≠ b := fun e => hself i hi (e ▸ hb)
    rw [List.getElem?_set_ne hne]
theorem Owns_leaf {nodes : List NodeObj} {a : Nat} {obj : NodeObj} {n : Node}
    (hget : nodes[a]? = some obj) (hp : obj.path = n.path) (hh : obj.Handler = n.Handler)
    (hc : obj.CtxHandler = n.CtxHandler) (ho : obj.children = []) (hn : n.children = []) :
    Owns nodes a n (fun b => b = a) := by
  have h := Owns.mk a obj n (fun _ _ => False) hget hp hh hc (by simp [ho, hn])
    (by intro i c d hci; simp [ho] at hci) (by intro i j b _ _ _ h _; exact h)
    (by intro i _ h; exact h)
  exact Owns_congr h (by intro b; simp)

theorem heap_AddNode_skip (mem : Memory) (a : Nat) (handler : Route) (fin : Bool)
    {segment : GoString} (h : segment = [] ∨ segment = ['/']) :
    mem.AddNode a handler fin segment = (mem, a) := by
  simp [Memory.AddNode, h]

/-- `AddNode` through the pointer `a`, for a real segment: one new object, the
last child of `a`; every other object is as before. -/
theorem heap_AddNode {mem : Memory} {a : Nat} {obj : NodeObj} {n : Node}
    {fp : Nat → Nat → Prop} (hat : OwnsAt mem.nodes a obj n fp) (handler : Route)
    (fin : Bool) {segment : GoString} (hreal : ¬ (segment = [] ∨ segment = ['/'])) :
    (mem.AddNode a handler fin segment).2 = mem.nodes.length ∧
    (mem.AddNode a handler fin segment).1.trees = mem.trees ∧
    (mem.AddNode a handler fin segment).1.nodes.length = mem.nodes.length + 1 ∧
    (∀ b, b < mem.nodes.length → b ≠ a →
      (mem.AddNode a handler fin segment).1.nodes[b]? = mem.nodes[b]?) ∧
    OwnsAt (mem.AddNode a handler fin segment).1.nodes a
      { obj with children := obj.children ++ [mem.nodes.length] }
      { n with children := n.children ++ [newChild handler fin segment] }
      (Function.update fp obj.children.length (fun b => b = mem.nodes.length)) := by
  have hat' := hat
  obtain ⟨hget, hp, hh, hc, hlen, hch, hdisj, hself⟩ := hat
  have ha : a < mem.nodes.length := (List.getElem?_eq_some_iff.mp hget).1
  have hmem : (mem.AddNode a handler fin segment).1.nodes =
      mem.nodes.set a { obj with children := obj.children ++ [mem.nodes.length] }
        ++ [newChildObj handler fin segment] := by
    simp [Memory.AddNode, hreal, hget]
  have hframe : ∀ b, b < mem.nodes.length → b ≠ a →
      (mem.AddNode a handler fin segment).1.nodes[b]? = mem.nodes[b]? := by
    intro b hb hne
    rw [hmem, List.getElem?_append_left (by simpa using hb), List.getElem?_set_ne (Ne.symm hne)]
  have hnew : (mem.AddNode a handler fin segment).1.nodes[mem.nodes.length]? =
      some (newChildObj handler fin segment) := by
    rw [hmem, List.getElem?_append_right (by simp)]
    simp
  refine ⟨by simp [Memory.AddNode, hreal, hget], by simp [Memory.AddNode, hreal, hget],
    by rw [hmem]; simp, hframe, ?_, hp, hh, hc, by simp [hlen], ?_, ?_, ?_⟩
  · rw [hmem, List.getElem?_append_left (by simpa using ha)]
    simp [ha]
  · intro i c d hci hdi
    simp only at hci hdi
    by_cases hi : i < obj.children.length
    · rw [List.getElem?_append_left hi] at hci
      rw [List.getElem?_append_left (hlen ▸ hi)] at hdi
      rw [Function.update_noteq (Nat.ne_of_lt hi)]
      apply Owns_frame (hch i c d hci hdi)
      intro b hb
      exact hframe b (hat'.child_valid hi hb) (fun e => hself i hi (e ▸ hb))
    · have hi' : i = obj.children.length := by
        have := (List.getElem?_eq_some_iff.mp hci).1
        simp only [List.length_append, List.length_singleton] at this
        omega
      subst hi'
      rw [List.getElem?_append_right (le_refl _)] at hci
      rw [hlen, List.getElem?_append_right (le_refl _)] at hdi
      simp only [Nat.sub_self, List.getElem?_cons_zero, Option.some.injEq] at hci hdi
      subst hci hdi
      rw [Function.update_same]
      apply Owns_leaf hnew <;> (cases fin <;> rfl)
  · intro i j b hi hj hij hbi hbj
    simp only [List.length_append, List.length_singleton] at hi hj
    by_cases ei : i = obj.children.length
    · subst ei
      rw [Function.update_same] at hbi
      rw [Function.update_noteq (Ne.symm hij)] at hbj
      have := hat'.child_valid (show j < obj.children.length by omega) hbj
      omega
    · rw [Function.update_noteq ei] at hbi
      by_cases ej : j = obj.children.length
      · subst ej
        rw [Function.update_same] at hbj
        have := hat'.child_valid (show i < obj.children.length by omega) hbi
        omega
      · rw [Function.update_noteq ej] at hbj
        exact hdisj i j b (by omega) (by omega) hij hbi hbj
  · intro i hi hb
    simp only [List.length_append, List.length_singleton] at hi
    by_cases ei : i = obj.children.length
    · subst ei
      rw [Function.update_same] at hb
      omega
    · rw [Function.update_noteq ei] at hb
      exact hself i (by omega) hb

theorem set_append_last (l : List Node) (x d : Node) (k : Nat) (hk : k = l.length) :
    (l ++ [x]).set k d = l ++ [d] := by
  subst hk
  simp

theorem footprint_AddNode {a len : Nat} {obj : NodeObj} {fp : Nat → Nat → Prop} {b : Nat}
    (h : footprint a ({ obj with children := obj.children ++ [len] } : NodeObj)
      (Function.update fp obj.children.length (fun b => b = len)) b) :
    footprint a obj fp b ∨ len ≤ b := by
  rcases h with e | ⟨i, hi, hb⟩
  · exact Or.inl (Or.inl e)
  · simp only [List.length_append, List.length_singleton] at hi
    by_cases ei : i = obj.children.length
    · subst ei
      rw [Function.update_same] at hb
      exact Or.inr (by omega)
    · rw [Function.update_noteq ei] at hb
      exact Or.inl (Or.inr ⟨i, by omega, hb⟩)

/-- The insertion loop on pointers does what the insertion loop on values
does: the same error, and below the cursor the objects are the tree the loop
on values returns; it writes no object outside the subtree of the cursor. -/
theorem heap_insertPaths (handler : Route) (paths : List GoString) :
    ∀ (a : Nat) (mem : Memory) (n : Node) (F : Nat → Prop), Owns mem.nodes a n F →
      (Memory.insertPaths handler paths a mem).2 = (insertPaths handler paths n).2 ∧
      MemStep mem (Memory.insertPaths handler paths a mem).1 a
        (insertPaths handler paths n).1 F := by
  induction paths with
  | nil =>
    intro a mem n F h
    exact ⟨rfl, MemStep_refl h⟩
  | cons path rest ih =>
    intro a mem n F h
    obtain ⟨obj, fp, hat, hF⟩ := h.ownsAt
    subst hF
    rcases heap_FindNodePath hat path with ⟨h1, h2⟩ | ⟨i, c, d, hc, hd, h1, h2, hset⟩
    · by_cases hp : path = [] ∨ path = ['/']
      · by_cases hr : rest = []
        · subst hr
          rw [insertPaths_new_last handler h2]
          simp only [Memory.insertPaths, h1, if_true, heap_AddNode_skip mem a handler true hp,
            AddNode, hp]
          exact ⟨trivial, MemStep_refl h⟩
        · rw [insertPaths_skip handler h2 hp hr]
          simp only [Memory.insertPaths, h1, hr, if_false,
            heap_AddNode_skip mem a handler false hp]
          exact ih a mem n _ h
      · by_cases hr : rest = []
        · subst hr
          rw [insertPaths_new_last handler h2]
          obtain ⟨_, ht, hl, hfr, hat1⟩ := heap_AddNode hat handler true hp
          simp only [Memory.insertPaths, h1, if_true, AddNode, hp, if_false]
          refine ⟨trivial, ht, by omega, ?_, _, hat1.owns, fun b hb => footprint_AddNode hb⟩
          intro b hb hF
          exact hfr b hb (fun e => hF (Or.inl e))
        · rw [insertPaths_new_more handler h2 hp hr]
          obtain ⟨hptr, ht, hl, hfr, hat1⟩ := heap_AddNode hat handler false hp
          simp only [Memory.insertPaths, h1, hr, if_false, hptr]
          have hci : ({ obj with children := obj.children ++ [mem.nodes.length] } :
              NodeObj).children[obj.children.length]? = some mem.nodes.length := by
            simp
          have hdi : ({ n with children := n.children ++ [newChild handler false path] } :
              Node).children[obj.children.length]? = some (newChild handler false path) := by
            simp [hat.2.2.2.2.1]
          have hown := hat1.2.2.2.2.2.1 _ _ _ hci hdi
          obtain ⟨ie, is⟩ := ih mem.nodes.length (mem.AddNode a handler false path).1
            (newChild handler false path) _ hown
          refine ⟨ie, ?_⟩
          have hstep := MemStep_child hat1 hci is
          simp only at hstep
          rw [set_append_last _ _ _ _ hat.2.2.2.2.1] at hstep
          exact MemStep_trans ht (by omega)
            (fun b hb hF => hfr b hb (fun e => hF (Or.inl e)))
            (fun b hb => footprint_AddNode hb) hstep
    · have hown := hat.2.2.2.2.2.1 i c d hc hd
      by_cases hr : rest = []
      · subst hr
        by_cases hh : d.Handler.isSome
        · rw [insertPaths_found_last_taken handler h2 hh]
          simp only [Memory.insertPaths, h1, if_true, heap_hasHandler hown, hh]
          exact ⟨trivial, MemStep_refl h⟩
        · rw [insertPaths_found_last_free handler h2 hh]
          have hh' : d.Handler.isSome = false := by simpa using hh
          simp only [Memory.insertPaths, h1, if_true, heap_hasHandler hown, hh',
            Bool.false_eq_true, if_false]
          refine ⟨trivial, ?_⟩
          rw [hset]
          exact MemStep_child hat hc (heap_ChangeNodeState hown handler)
      · rw [insertPaths_found_more handler h2 hr]
        obtain ⟨ie, is⟩ := ih c mem d _ hown
        simp only [Memory.insertPaths, h1, hr, if_false]
        refine ⟨ie, ?_⟩
        rw [hset]
        exact MemStep_child hat hc is
theorem TreeOwns_frame {mem mem' : Memory} {t : Option Nat} {tree : Option Tree}
    {F : Nat → Prop} (h : TreeOwns mem t tree F)
    (hn : ∀ b, b < mem.nodes.length → mem'.nodes[b]? = mem.nodes[b]?)
    (ht : ∀ i, i < mem.trees.length → mem'.trees[i]? = mem.trees[i]?) :
    TreeOwns mem' t tree F := by
  cases t with
  | none =>
    cases tree with
    | none => exact h
    | some tr => exact h
  | some k =>
    cases tree with
    | none => exact h
    | some tr =>
      obtain ⟨a, h1, h2⟩ := h
      refine ⟨a, ?_, Owns_frame h2 (fun b hb => hn b (Owns_valid h2 b hb))⟩
      rw [ht k (List.getElem?_eq_some_iff.mp h1).1]
      exact h1

theorem TreeStep_refl {mem : Memory} {t : Option Nat} {tree : Option Tree} {F : Nat → Prop}
    (h : TreeOwns mem t tree F) : TreeStep mem mem t t tree F :=
  ⟨le_refl _, fun _ _ => rfl, le_refl _, fun _ _ _ => rfl, fun _ hk => Or.inl hk, F, h,
    fun _ hb => Or.inl hb⟩

theorem TreeStep_trans {mem mem1 mem2 : Memory} {t t1 t2 : Option Nat}
    {tree1 tree2 : Option Tree} {F : Nat → Prop}
    (h1 : TreeStep mem mem1 t t1 tree1 F)
    (h2 : ∀ F1, TreeOwns mem1 t1 tree1 F1 → (∀ b, F1 b → F b ∨ mem.nodes.length ≤ b) →
      TreeStep mem1 mem2 t1 t2 tree2 F1) :
    TreeStep mem mem2 t t2 tree2 F := by
  obtain ⟨a1, b1, c1, d1, e1, F1, o1, s1⟩ := h1
  obtain ⟨a2, b2, c2, d2, e2, F2, o2, s2⟩ := h2 F1 o1 s1
  refine ⟨le_trans a1 a2, ?_, le_trans c1 c2, ?_, ?_, F2, o2, ?_⟩
  · intro i hi
    rw [b2 i (lt_of_lt_of_le hi a1), b1 i hi]
  · intro b hb hF
    rw [d2 b (lt_of_lt_of_le hb c1) ?_, d1 b hb hF]
    intro hF1
    rcases s1 b hF1 with h | h
    · exact hF h
    · omega
  · intro k hk
    rcases e2 k hk with h | h
    · exact e1 k h
    · exact Or.inr (le_trans a1 h)
  · intro b hb
    rcases s2 b hb with h | h
    · exact s1 b h
    · exact Or.inr (le_trans c1 h)

/-- Away from the root path, `createTreeIdea` on an existing `Tree` object is
the insertion loop on pointers, run from its start node. -/
theorem heap_createTreeIdea_eq (mem : Memory) (handler : Route) (ta : Nat) (m method : Method)
    (a : Nat) (hta : mem.trees[ta]? = some ⟨method, some a⟩)
    (h : ¬ (handler.path = [] ∨ handler.path = ['/'])) :
    mem.createTreeIdea handler (some ta) m =
      ((Memory.insertPaths handler (routePaths handler.path) a mem).1,
        (match (Memory.insertPaths handler (routePaths handler.path) a mem).2 with
          | some _ => none
          | none => some ta),
        (Memory.insertPaths handler (routePaths handler.path) a mem).2) := by
  unfold Memory.createTreeIdea routePaths
  simp only [hta, Option.some_bind, h, if_false]
  by_cases hl : 2 ≤ (Split handler.path).length
  · simp only [hl, if_true]
    cases (Memory.insertPaths handler (List.map TrimSpace (Split (TrimSpace handler.path))) a
      mem).2 <;> rfl
  · simp only [hl, if_false, Memory.insertPaths, if_true]
    cases mem.FindNodePath a handler.path with
    | none => rfl
    | some c =>
      simp only
      split <;> rfl

theorem heap_createTreeIdea_root (mem : Memory) (handler : Route) (ta : Nat) (m method : Method)
    (a : Nat) (hta : mem.trees[ta]? = some ⟨method, some a⟩)
    (h : handler.path = [] ∨ handler.path = ['/']) :
    mem.createTreeIdea handler (some ta) m =
      (mem, (if mem.hasHandler a then none else some ta),
        (if mem.hasHandler a then some handler.path else none)) := by
  unfold Memory.createTreeIdea
  simp only [hta, Option.some_bind, h, if_true]
  split <;> rfl

theorem heap_createTreeIdea_none (mem : Memory) (handler : Route) (m : Method) :
    mem.createTreeIdea handler none m =
      Memory.createTreeIdea
        ⟨mem.nodes ++ [⟨['/'], [], none, none⟩], mem.trees ++ [⟨m, some mem.nodes.length⟩]⟩
        handler (some mem.trees.length) m := by
  unfold Memory.createTreeIdea
  simp

/-- `createTreeIdea` on an existing `Tree` object does what `createTreeIdea`
on the value does: the same error, the pointer returned when there is none,
and at the pointer the tree the function on values returns. -/
theorem heap_createTreeIdea_some (mem : Memory) (handler : Route) (ta : Nat) (tree : Tree)
    (m : Method) (F : Nat → Prop) (h : TreeOwns mem (some ta) (some tree) F) :
    (mem.createTreeIdea handler (some ta) m).2.2 = (createTreeIdea handler (some tree) m).2 ∧
    ((createTreeIdea handler (some tree) m).2 = none →
      (mem.createTreeIdea handler (some ta) m).2.1 = some ta) ∧
    TreeStep mem (mem.createTreeIdea handler (some ta) m).1 (some ta) (some ta)
      (some (createTreeIdea handler (some tree) m).1) F := by
  obtain ⟨a, hta, hown⟩ := h
  by_cases hroot : handler.path = [] ∨ handler.path = ['/']
  · rw [heap_createTreeIdea_root mem handler ta m tree.method a hta hroot,
      createTreeIdea_root handler (some tree) m hroot]
    simp only [heap_hasHandler hown, orFresh]
    refine ⟨trivial, ?_, TreeStep_refl ⟨a, hta, hown⟩⟩
    intro he
    split at he
    · simp at he
    · rename_i hh
      simp [hh]
  · rw [heap_createTreeIdea_eq mem handler ta m tree.method a hta hroot,
      createTreeIdea_eq handler (some tree) m hroot]
    obtain ⟨he, ht, hl, hf, F', ho, hs⟩ :=
      heap_insertPaths handler (routePaths handler.path) a mem tree.startNode F hown
    simp only [orFresh]
    refine ⟨he, ?_, ?_⟩
    · intro hn
      rw [he, hn]
    · refine ⟨by rw [ht], fun i _ => by rw [ht], hl, hf, fun k hk => Or.inl hk, F', ?_, hs⟩
      exact ⟨a, by rw [ht]; exact hta, ho⟩

/-- `createTreeIdea` on pointers and on values, from nil or from a tree. -/
theorem heap_createTreeIdea (mem : Memory) (handler : Route) (t : Option Nat)
    (tree : Option Tree) (m : Method) (F : Nat → Prop) (h : TreeOwns mem t tree F) :
    (mem.createTreeIdea handler t m).2.2 = (createTreeIdea handler tree m).2 ∧
    ((createTreeIdea handler tree m).2 = none →
      (mem.createTreeIdea handler t m).2.1 = some (t.getD mem.trees.length)) ∧
    TreeStep mem (mem.createTreeIdea handler t m).1 t (some (t.getD mem.trees.length))
      (some (createTreeIdea handler tree m).1) F := by
  cases t with
  | some ta =>
    cases tree with
    | none => exact absurd h id
    | some tr => exact heap_createTreeIdea_some mem handler ta tr m F h
  | none =>
    cases tree with
    | some tr => exact absurd h id
    | none =>
      rw [heap_createTreeIdea_none]
      have hpure : createTreeIdea handler none m =
          createTreeIdea handler (some ⟨m, freshRoot⟩) m := rfl
      rw [hpure]
      have hnew : TreeOwns
          ⟨mem.nodes ++ [⟨['/'], [], none, none⟩], mem.trees ++ [⟨m, some mem.nodes.length⟩]⟩
          (some mem.trees.length) (some ⟨m, freshRoot⟩) (fun b => b = mem.nodes.length) := by
        refine ⟨mem.nodes.length, by simp, ?_⟩
        exact @Owns_leaf _ _ ⟨['/'], [], none, none⟩ _ (by simp) rfl rfl rfl rfl rfl
      obtain ⟨h1, h2, a1, b1, c1, d1, e1, F1, o1, s1⟩ :=
        heap_createTreeIdea_some _ handler mem.trees.length ⟨m, freshRoot⟩ m _ hnew
      simp only [Option.getD_none]
      refine ⟨h1, h2, ?_, ?_, ?_, ?_, ?_, F1, o1, ?_⟩
      · simp only [List.length_append, List.length_singleton] at a1
        omega
      · intro i hi
        rw [b1 i (by simp; omega), List.getElem?_append_left hi]
      · simp only [List.length_append, List.length_singleton] at c1
        omega
      · intro b hb _
        rw [d1 b (by simp; omega) (by omega), List.getElem?_append_left hb]
      · intro k hk
        simp only [Option.some.injEq] at hk
        exact Or.inr (by omega)
      · intro b hb
        rcases s1 b hb with e | e
        · exact Or.inr (by omega)
        · simp only [List.length_append, List.length_singleton] at e
          exact Or.inr (by omega)
/-- The loop over the routes of a method on pointers does what the loop on
values does. -/
theorem heap_buildRoutes (m : Method) (routes : List Route) :
    ∀ (mem : Memory) (t : Option Nat) (tree : Option Tree) (F : Nat → Prop),
      TreeOwns mem t tree F →
      TreeStep mem (Memory.buildRoutes m routes t mem).1 t (Memory.buildRoutes m routes t mem).2
        (buildRoutes m routes tree) F := by
  induction routes with
  | nil => intro mem t tree F h; exact TreeStep_refl h
  | cons handler rest ih =>
    intro mem t tree F h
    obtain ⟨he, hp, hstep⟩ := heap_createTreeIdea mem handler t tree m F h
    cases hpe : (createTreeIdea handler tree m).2 with
    | some e =>
      obtain ⟨_, h1, t0, h3⟩ := createTreeIdea_error handler tree m e hpe
      subst h3
      cases t with
      | none => exact absurd h id
      | some ta =>
        rw [hpe] at he
        simp only [Memory.buildRoutes, he, buildRoutes, hpe, Option.map_some']
        simp only [Option.getD_some] at hstep
        exact TreeStep_trans hstep (fun F1 o1 _ => ih _ (some ta) _ F1 o1)
    | none =>
      rw [hpe] at he
      have hp' := hp hpe
      simp only [Memory.buildRoutes, he, buildRoutes, hpe, hp']
      exact TreeStep_trans hstep (fun F1 o1 _ => ih _ _ _ F1 o1)

theorem mem_methods_iff (method : Method) :
    method ∈ [GET, POST, PUT, DELETE, PATCH, HEAD, OPTIONS] ↔ method ≤ OPTIONS := by
  constructor
  · intro h
    simp only [List.mem_cons, List.mem_singleton, List.not_mem_nil, or_false] at h
    rcases h with h | h | h | h | h | h | h <;> subst h <;> decide
  · exact mem_methods

/-- The loop over the methods: it writes no object that was there before, the
entries of the map for the methods visited hold the trees the loop on values
builds, made of new objects, and the other entries are as before. -/
theorem heap_buildMethods (r : MuxState) (l : List Method) :
    ∀ (trees : Method → Option Nat) (mem : Memory), l.Nodup →
      (∀ method ∈ l, trees method = none) →
      mem.nodes.length ≤ (r.buildMethods l trees mem).2.nodes.length ∧
      mem.trees.length ≤ (r.buildMethods l trees mem).2.trees.length ∧
      (∀ b, b < mem.nodes.length → (r.buildMethods l trees mem).2.nodes[b]? = mem.nodes[b]?) ∧
      (∀ i, i < mem.trees.length → (r.buildMethods l trees mem).2.trees[i]? = mem.trees[i]?) ∧
      (∀ method, method ∉ l → (r.buildMethods l trees mem).1 method = trees method) ∧
      (∀ method, method ∈ l → ∃ F,
        TreeOwns (r.buildMethods l trees mem).2 ((r.buildMethods l trees mem).1 method)
          (match r.handlers method with
            | some handlers => buildRoutes method handlers none
            | none => none) F ∧
        (∀ b, F b → mem.nodes.length ≤ b) ∧
        ∀ k, (r.buildMethods l trees mem).1 method = some k → mem.trees.length ≤ k) := by
  induction l with
  | nil =>
    intro trees mem _ _
    exact ⟨le_refl _, le_refl _, fun _ _ => rfl, fun _ _ => rfl, fun _ _ => rfl,
      fun _ h => absurd h (List.not_mem_nil _)⟩
  | cons method rest ih =>
    intro trees mem hnd hnone
    have hnd' : rest.Nodup := (List.nodup_cons.mp hnd).2
    have hnot : method ∉ rest := (List.nodup_cons.mp hnd).1
    cases hh : r.handlers method with
    | none =>
      obtain ⟨a1, b1, c1, d1, e1, f1⟩ := ih trees mem hnd'
        (fun x hx => hnone x (List.mem_cons_of_mem _ hx))
      simp only [MuxState.buildMethods, hh]
      refine ⟨a1, b1, c1, d1, fun x hx => e1 x (fun h => hx (List.mem_cons_of_mem _ h)), ?_⟩
      intro x hx
      rcases List.mem_cons.mp hx with e | e
      · subst e
        rw [e1 x hnot, hnone x (by simp), hh]
        exact ⟨fun _ => False, fun _ hb => hb, fun _ hb => absurd hb id,
          fun k hk => by simp at hk⟩
      · exact f1 x e
    | some handlers =>
      have hstart : TreeOwns mem (trees method) none (fun _ => False) := by
        rw [hnone method (by simp)]
        exact fun _ hb => hb
      obtain ⟨a0, b0, c0, d0, e0, F0, o0, s0⟩ :=
        heap_buildRoutes method handlers mem (trees method) none _ hstart
      simp only [hnone method (List.mem_cons_self _ _)] at a0 b0 c0 d0 e0 o0 s0
      obtain ⟨a1, b1, c1, d1, e1, f1⟩ := ih
        (fun m => if m = method then (Memory.buildRoutes method handlers none mem).2
          else trees m)
        (Memory.buildRoutes method handlers none mem).1 hnd'
        (fun x hx => by
          have hne : x ≠ method := fun e => hnot (e ▸ hx)
          simp only [hne, if_false]
          exact hnone x (List.mem_cons_of_mem _ hx))
      simp only [MuxState.buildMethods, hh, hnone method (List.mem_cons_self _ _)]
      refine ⟨le_trans c0 a1, le_trans a0 b1, ?_, ?_, ?_, ?_⟩
      · intro b hb
        rw [c1 b (lt_of_lt_of_le hb c0), d0 b hb id]
      · intro i hi
        rw [d1 i (lt_of_lt_of_le hi a0), b0 i hi]
      · intro x hx
        have hxr : x ∉ rest := fun h => hx (List.mem_cons_of_mem _ h)
        have hne : x ≠ method := fun e => hx (e ▸ List.mem_cons_self _ _)
        rw [e1 x hxr]
        simp only [hne, if_false]
      · intro x hx
        rcases List.mem_cons.mp hx with e | e
        · subst e
          rw [e1 x hnot, hh]
          simp only [if_true]
          refine ⟨F0, TreeOwns_frame o0 c1 d1, ?_, ?_⟩
          · intro b hb
            rcases s0 b hb with h | h
            · exact absurd h id
            · exact h
          · intro k hk
            rcases e0 k hk with h | h
            · simp at h
            · exact h
        · obtain ⟨F, o, s, p⟩ := f1 x e
          exact ⟨F, o, fun b hb => le_trans c0 (s b hb), fun k hk => le_trans a0 (p k hk)⟩
/-- One call of `buildTrees` on the registry in memory: it writes no object
that was there before, it leaves the fields of the registry as they are, and
for every method the map it returns holds, in new objects, the tree
`buildTrees` on values returns for the registrations. -/
theorem heap_buildTrees (r : MuxState) :
    r.buildTrees.2.handlers = r.handlers ∧ r.buildTrees.2.middlewares = r.middlewares ∧
    r.buildTrees.2.automatic = r.automatic ∧ r.buildTrees.2.trees = r.trees ∧
    (∀ b, b < r.mem.nodes.length → r.buildTrees.2.mem.nodes[b]? = r.mem.nodes[b]?) ∧
    (∀ i, i < r.mem.trees.length → r.buildTrees.2.mem.trees[i]? = r.mem.trees[i]?) ∧
    (∀ method, ∃ F,
      TreeOwns r.buildTrees.2.mem (r.buildTrees.1 method) (buildTrees r.toMux method) F ∧
      (∀ b, F b → r.mem.nodes.length ≤ b) ∧
      ∀ k, r.buildTrees.1 method = some k → r.mem.trees.length ≤ k) := by
  obtain ⟨_, _, c1, d1, e1, f1⟩ := heap_buildMethods r
    [GET, POST, PUT, DELETE, PATCH, HEAD, OPTIONS] (fun _ => none) r.mem (by decide)
    (fun _ _ => rfl)
  refine ⟨rfl, rfl, rfl, rfl, c1, d1, ?_⟩
  intro method
  by_cases hm : method ≤ OPTIONS
  · obtain ⟨F, o, s, p⟩ := f1 method ((mem_methods_iff method).mpr hm)
    refine ⟨F, ?_, s, p⟩
    have e : buildTrees r.toMux method =
        (match r.handlers method with
          | some handlers => buildRoutes method handlers none
          | none => none) := by
      simp only [buildTrees, hm, if_true, MuxState.toMux]
    rw [e]
    exact o
  · have hnot : method ∉ [GET, POST, PUT, DELETE, PATCH, HEAD, OPTIONS] :=
      fun h => hm ((mem_methods_iff method).mp h)
    have e : buildTrees r.toMux method = none := by
      simp only [buildTrees, hm, if_false]
    have e2 : r.buildTrees.1 method = none := e1 method hnot
    rw [e, e2]
    exact ⟨fun _ => False, fun _ hb => hb, fun _ hb => absurd hb id, fun k hk => by simp at hk⟩

theorem TreeOwns_valid {mem : Memory} {k : Nat} {tree : Option Tree} {F : Nat → Prop}
    (h : TreeOwns mem (some k) tree F) : k < mem.trees.length := by
  cases tree with
  | none => exact absurd h id
  | some tr =>
    obtain ⟨a, h1, _⟩ := h
    exact (List.getElem?_eq_some_iff.mp h1).1

theorem TreeOwns_nodes_valid {mem : Memory} {t : Option Nat} {tree : Option Tree}
    {F : Nat → Prop} (h : TreeOwns mem t tree F) : ∀ b, F b → b < mem.nodes.length := by
  cases t with
  | none =>
    cases tree with
    | none => exact fun b hb => absurd hb (h b)
    | some tr => exact absurd h id
  | some k =>
    cases tree with
    | none => exact absurd h id
    | some tr =>
      obtain ⟨a, _, h2⟩ := h
      exact Owns_valid h2

/-- C20.  With the trees as objects in memory and `buildTrees` writing
through pointers: after `StartExecuting` has called `buildTrees` and stored
the map in `r.trees`, call `buildTrees` again.  For every method both maps
hold the same tree, the one `buildTrees` builds on values for the
registrations: same paths, same order of children, same handlers.  The second
call builds it from new objects, writes none of the objects of the first, so
the stored trees are what they were, and leaves the routes, the middleware
list and `r.trees` as they are. -/
theorem buildTrees_twice (r : MuxState) (automatic : Bool) :
    (∀ method, ∃ F, TreeOwns (r.StartExecuting automatic).mem
      ((r.StartExecuting automatic).trees.bind (fun trees => trees method))
      (buildTrees r.toMux method) F) ∧
    (∀ method, ∃ F, TreeOwns (r.StartExecuting automatic).buildTrees.2.mem
      ((r.StartExecuting automatic).buildTrees.1 method) (buildTrees r.toMux method) F) ∧
    (∀ method, ∃ F, TreeOwns (r.StartExecuting automatic).buildTrees.2.mem
      ((r.StartExecuting automatic).trees.bind (fun trees => trees method))
      (buildTrees r.toMux method) F) ∧
    (∀ method k1 k2,
      (r.StartExecuting automatic).trees.bind (fun trees => trees method) = some k1 →
      (r.StartExecuting automatic).buildTrees.1 method = some k2 → k1 < k2) ∧
    (∀ b, b < (r.StartExecuting automatic).mem.nodes.length →
      (r.StartExecuting automatic).buildTrees.2.mem.nodes[b]? =
        (r.StartExecuting automatic).mem.nodes[b]?) ∧
    (r.StartExecuting automatic).buildTrees.2.handlers = r.handlers ∧
    (r.StartExecuting automatic).buildTrees.2.middlewares = r.middlewares ∧
    (r.StartExecuting automatic).buildTrees.2.trees = (r.StartExecuting automatic).trees := by
  obtain ⟨_, _, _, _, _, _, g1⟩ := heap_buildTrees { r with automatic := automatic }
  obtain ⟨_, _, _, _, e2, f2, g2⟩ := heap_buildTrees (r.StartExecuting automatic)
  have hfirst : ∀ method, ∃ F, TreeOwns (r.StartExecuting automatic).mem
      ((r.StartExecuting automatic).trees.bind (fun trees => trees method))
      (buildTrees r.toMux method) F := by
    intro method
    obtain ⟨F, o, _, _⟩ := g1 method
    exact ⟨F, o⟩
  refine ⟨hfirst, ?_, ?_, ?_, e2, rfl, rfl, rfl⟩
  · intro method
    obtain ⟨F, o, _, _⟩ := g2 method
    exact ⟨F, o⟩
  · intro method
    obtain ⟨F, o⟩ := hfirst method
    exact ⟨F, TreeOwns_frame o e2 f2⟩
  · intro method k1 k2 h1 h2
    obtain ⟨F, o⟩ := hfirst method
    rw [h1] at o
    have hv := TreeOwns_valid o
    obtain ⟨_, _, _, p⟩ := g2 method
    have := p k2 h2
    omega

/-- C20, witness: the routes `/a` and `/a/b` under GET, nothing in memory.
`StartExecuting` builds the tree in the `Tree` object 0 and the `Node` objects
0, 1, 2; the second call of `buildTrees` builds it in the `Tree` object 1 and
the `Node` objects 3, 4, 5, which have the paths, children and handlers of
the first three, and the first three are as they were. -/
theorem buildTrees_twice_witness :
    ((⟨fun m => if m = GET then some [⟨1, 1, "/a".toList⟩, ⟨2, 2, "/a/b".toList⟩] else none,
        [], false, none, ⟨[], []⟩⟩ : MuxState).StartExecuting false).trees.bind
          (fun trees => trees GET) = some 0 ∧
    ((⟨fun m => if m = GET then some [⟨1, 1, "/a".toList⟩, ⟨2, 2, "/a/b".toList⟩] else none,
        [], false, none, ⟨[], []⟩⟩ : MuxState).StartExecuting false).buildTrees.1 GET
          = some 1 ∧
    ((⟨fun m => if m = GET then some [⟨1, 1, "/a".toList⟩, ⟨2, 2, "/a/b".toList⟩] else none,
        [], false, none, ⟨[], []⟩⟩ : MuxState).StartExecuting false).buildTrees.2.mem =
      ⟨[⟨['/'], [1], none, none⟩, ⟨"a".toList, [2], some 1, some 1⟩,
          ⟨"b".toList, [], some 2, some 2⟩,
        ⟨['/'], [4], none, none⟩, ⟨"a".toList, [5], some 1, some 1⟩,
          ⟨"b".toList, [], some 2, some 2⟩],
        [⟨GET, some 0⟩, ⟨GET, some 3⟩]⟩ ∧
    ((⟨fun m => if m = GET then some [⟨1, 1, "/a".toList⟩, ⟨2, 2, "/a/b".toList⟩] else none,
        [], false, none, ⟨[], []⟩⟩ : MuxState).StartExecuting false).buildTrees.2.handlers =
      fun m => if m = GET then some [⟨1, 1, "/a".toList⟩, ⟨2, 2, "/a/b".toList⟩] else none :=
  ⟨rfl, rfl, rfl,
    (buildTrees_twice
      ⟨fun m => if m = GET then some [⟨1, 1, "/a".toList⟩, ⟨2, 2, "/a/b".toList⟩] else none,
        [], false, none, ⟨[], []⟩⟩ false).2.2.2.2.2.1⟩

end TreeFramework
